import Mathlib

/-!
# Verification of the screeps-map-processing terrain codecs

Shallow embedding of the terrain codec family:
* the Direct Bit-Packed Codec (`src/compressed_terrain/compressed_terrain.rs`),
* the Edge-Only Codec (`src/compressed_terrain/compressed_room_edge_terrain.rs`),
* the Generic Sorted-Run Engine (`src/run_length_encoding/generic_rle.rs`),
* the Packed Run engine and codec (`src/run_length_encoding/rle_terrain/packed_rle_terrain.rs`),
* the Naive Run Codec (`src/run_length_encoding/rle_terrain/generic_rle_terrain.rs`),
* the Wildcard Run Codec (`src/run_length_encoding/rle_terrain/wildcard_rle_terrain.rs`).

Machine integers (`u8`, `u16`, `usize`) are modelled as `Nat`; every masking /
shifting operation of the source is kept explicitly (`% 4` for `& 0b11`,
`>>>` for `>>`, `|||` for `|`, `<<<` for `<<`).  Rust `Vec`/array values are
modelled as `List Nat`; an indexing operation whose bound is an invariant of
the type is modelled with `List.getD _ _ 0` and noted at the definition.
-/

namespace MapProc

/-- Terrain class of one tile: `screeps::Terrain` (external screeps crate),
one of Plain, Wall, Swamp. -/
inductive Terrain where
  | plain
  | wall
  | swamp
deriving DecidableEq, Repr

/-- The 2-bit terrain decode table used by `CompressedRoomTerrain::get_xy`
(compressed_terrain.rs lines 19-25) and by the external
`LocalRoomTerrain::get_xy`: `byte & 0b11` is matched, `0b00 => Plain`,
`0b01 | 0b11 => Wall`, `0b10 => Swamp`.  `b % 4` is `b & 0b11`. -/
def terrainFrom2Bits (b : Nat) : Terrain :=
  match b % 4 with
  | 0 => .plain
  | 1 => .wall
  | 2 => .swamp
  | _ => .wall -- the 0b11 "wall+swamp" value, special-cased to Wall

/-- External screeps coordinate mapping `xy_to_terrain_index`: the row-major
linear index `y * 50 + x` (spec section 3: "Linear index = y*50 + x"). -/
def xyToTerrainIndex (x y : Nat) : Nat :=
  y * 50 + x

/-- External screeps coordinate mapping `terrain_index_to_xy`, the inverse of
`xyToTerrainIndex`: `(idx % 50, idx / 50)`. -/
def terrainIndexToXY (idx : Nat) : Nat × Nat :=
  (idx % 50, idx / 50)

/-- External screeps `RoomXY::is_room_edge`: the tile is on the outer ring. -/
def isRoomEdge (x y : Nat) : Bool :=
  x = 0 || x = 49 || y = 0 || y = 49

/-- External screeps `LocalRoomTerrain::get_xy`: reads the raw byte at the
row-major linear index of the position and decodes its low 2 bits (the
screeps crate uses the same 4-way table, special-casing `0b11` as Wall). -/
def localGetXY (bits : List Nat) (x y : Nat) : Terrain :=
  terrainFrom2Bits (bits.getD (xyToTerrainIndex x y) 0)

/-- `div_rem` (compressed_terrain.rs lines 163-167): quotient and remainder. -/
def div_rem (x y : Nat) : Nat × Nat :=
  (x / y, x % y)

/-! ## Direct Bit-Packed Codec (`CompressedRoomTerrain`) -/

/-- `CompressedRoomTerrain::compress_4_bytes` (compressed_terrain.rs lines
69-82): copies up to 4 input bytes into a zeroed working array (`getD _ _ 0`
models the zero padding), masks each to its low 2 bits and packs MSB-first. -/
def compress4Bytes (chunk : List Nat) : Nat :=
  ((chunk.getD 0 0 % 4) <<< 6) ||| ((chunk.getD 1 0 % 4) <<< 4) |||
    ((chunk.getD 2 0 % 4) <<< 2) ||| (chunk.getD 3 0 % 4)

/-- `CompressedRoomTerrain::uncompress_byte` (compressed_terrain.rs lines
86-94): the 4 tiles of one packed byte, MSB-first. -/
def uncompressByte (b : Nat) : List Nat :=
  [(b >>> 6) % 4, (b >>> 4) % 4, (b >>> 2) % 4, b % 4]

/-- Rust `slice::chunks_exact(4)`: the consecutive 4-element chunks, any
remainder shorter than 4 dropped. -/
def chunksExact4 : List Nat → List (List Nat)
  | a :: b :: c :: d :: rest => [a, b, c, d] :: chunksExact4 rest
  | _ => []

/-- `CompressedRoomTerrain::new_from_uncompressed_bits` (compressed_terrain.rs
lines 97-106): each exact 4-byte chunk of the raw input is compressed into
one byte of the 625-byte data array. -/
def newFromUncompressedBits (bits : List Nat) : List Nat :=
  (chunksExact4 bits).map compress4Bytes

/-- `CompressedRoomTerrain::get_uncompressed_bits` (compressed_terrain.rs
lines 119-154): every data byte is uncompressed into 4 tiles, written in
order into the output array; for the 625-byte data array this is exactly the
concatenation of the per-byte expansions. -/
def getUncompressedBits (data : List Nat) : List Nat :=
  (data.map uncompressByte).flatten

/-- `CompressedRoomTerrain::get_uncompressed_terrain_byte`
(compressed_terrain.rs lines 29-62): locate the packed byte via
`div_rem(linear_index, 4)`, shift by `6 - 2*offset` and mask the low 2 bits.
The source indexes `self.data[byte_index]` (in bounds by the 625-length
invariant); modelled as `getD _ _ 0`. -/
def getUncompressedTerrainByte (data : List Nat) (x y : Nat) : Nat :=
  let uncompressedIndex := xyToTerrainIndex x y
  let byteIndex := (div_rem uncompressedIndex 4).1
  let internalOffset := (div_rem uncompressedIndex 4).2
  let rawByte := data.getD byteIndex 0
  let bitshiftAmount : Nat :=
    match internalOffset with
    | 0 => 6
    | 1 => 4
    | 2 => 2
    | _ => 0 -- offset 3; `% 4` makes larger offsets unreachable, as in the source
  (rawByte >>> bitshiftAmount) % 4

/-- `CompressedRoomTerrain::get_xy` (compressed_terrain.rs lines 14-26). -/
def compressedGetXY (data : List Nat) (x y : Nat) : Terrain :=
  terrainFrom2Bits (getUncompressedTerrainByte data x y)

/-- The tile stream a raw 2500-byte grid denotes: the low 2 bits of the byte
at the linear index, decoded by the 4-way table.  Both the external
`LocalRoomTerrain` view and the Direct codec built from the grid realise it. -/
def tileOf (g : List Nat) (idx : Nat) : Terrain :=
  terrainFrom2Bits (g.getD idx 0)

/-! ### Arithmetic facts about the bit packing -/

theorem compress4Bytes_mod (a b c d : Nat) :
    compress4Bytes [a, b, c, d] = compress4Bytes [a % 4, b % 4, c % 4, d % 4] := by
  have h4 : ∀ n : Nat, n % 4 % 4 = n % 4 := fun n => Nat.mod_mod_of_dvd n dvd_rfl
  simp only [compress4Bytes, List.getD_cons_zero, List.getD_cons_succ, h4]

theorem compress4_extract_small :
    ∀ a < 4, ∀ b < 4, ∀ c < 4, ∀ d < 4,
      (((a <<< 6) ||| (b <<< 4) ||| (c <<< 2) ||| d) >>> 6) % 4 = a ∧
      (((a <<< 6) ||| (b <<< 4) ||| (c <<< 2) ||| d) >>> 4) % 4 = b ∧
      (((a <<< 6) ||| (b <<< 4) ||| (c <<< 2) ||| d) >>> 2) % 4 = c ∧
      ((a <<< 6) ||| (b <<< 4) ||| (c <<< 2) ||| d) % 4 = d := by
  decide

theorem uncompressByte_compress4 (a b c d : Nat)
    (ha : a < 4) (hb : b < 4) (hc : c < 4) (hd : d < 4) :
    uncompressByte (compress4Bytes [a, b, c, d]) = [a, b, c, d] := by
  have h := compress4_extract_small a ha b hb c hc d hd
  simp only [compress4Bytes, List.getD_cons_zero, List.getD_cons_succ, uncompressByte]
  have ha4 : a % 4 = a := Nat.mod_eq_of_lt ha
  have hb4 : b % 4 = b := Nat.mod_eq_of_lt hb
  have hc4 : c % 4 = c := Nat.mod_eq_of_lt hc
  have hd4 : d % 4 = d := Nat.mod_eq_of_lt hd
  rw [ha4, hb4, hc4, hd4]
  rw [h.1, h.2.1, h.2.2.1, h.2.2.2]

theorem roundtrip_aux :
    ∀ g : List Nat, g.length % 4 = 0 → (∀ x ∈ g, x < 4) →
      getUncompressedBits (newFromUncompressedBits g) = g := by
  intro g
  induction g using chunksExact4.induct with
  | case1 a b c d rest ih =>
    intro hlen hmem
    have hlen' : rest.length % 4 = 0 := by
      simp only [List.length_cons] at hlen
      omega
    have hmem' : ∀ x ∈ rest, x < 4 := by
      intro x hx
      exact hmem x (by simp [hx])
    have ha : a < 4 := hmem a (by simp)
    have hb : b < 4 := hmem b (by simp)
    have hc : c < 4 := hmem c (by simp)
    have hd : d < 4 := hmem d (by simp)
    simp only [newFromUncompressedBits, chunksExact4, List.map_cons,
      getUncompressedBits, List.flatten_cons]
    rw [uncompressByte_compress4 a b c d ha hb hc hd]
    have hrec := ih hlen' hmem'
    simp only [newFromUncompressedBits, getUncompressedBits] at hrec
    rw [hrec]
    rfl
  | case2 g h =>
    intro hlen _
    match g, h with
    | [], _ => rfl
    | [a], _ => simp at hlen
    | [a, b], _ => simp at hlen
    | [a, b, c], _ => simp at hlen
    | (a :: b :: c :: d :: rest), h => exact absurd rfl (h a b c d rest)

/-- **C2** (amended): decoding the Direct Bit-Packed Codec built from a
2500-element raw tile array whose entries are 2-bit tile values (`< 4`)
reproduces the array exactly, and the output has exactly 2500 elements. -/
theorem c2_direct_roundtrip (g : List Nat) (hlen : g.length = 2500)
    (hval : ∀ x ∈ g, x < 4) :
    getUncompressedBits (newFromUncompressedBits g) = g ∧
      (getUncompressedBits (newFromUncompressedBits g)).length = 2500 := by
  have h := roundtrip_aux g (by omega) hval
  exact ⟨h, by rw [h, hlen]⟩

theorem c2_direct_roundtrip_witness :
    (List.replicate 2500 2).length = 2500 ∧
      getUncompressedBits (newFromUncompressedBits (List.replicate 2500 2)) =
        List.replicate 2500 2 := by
  refine ⟨by rw [List.length_replicate], ?_⟩
  exact (c2_direct_roundtrip (List.replicate 2500 2) (by rw [List.length_replicate])
    (by intro x hx; have := List.eq_of_mem_replicate hx; omega)).1

/-- **C2** counterexample: for the 2500-element raw byte array `4, 0, 0, …`,
decoding the codec yields `0` at index 0 (the codec masks every byte to its
low 2 bits), so the round-trip does not reproduce the array: the claim fails
for byte values outside the 2-bit tile range. -/
theorem c2_counterexample :
    getUncompressedBits (newFromUncompressedBits (4 :: List.replicate 2499 0)) ≠
      4 :: List.replicate 2499 0 := by
  intro h
  have h0 : (getUncompressedBits (newFromUncompressedBits
        (4 :: List.replicate 2499 0))).getD 0 0 =
      ((4 :: List.replicate 2499 0) : List Nat).getD 0 0 := by rw [h]
  have hL :
      (getUncompressedBits (newFromUncompressedBits (4 :: List.replicate 2499 0))).getD 0 0
        = 0 := by
    rfl
  have hR : ((4 :: List.replicate 2499 0) : List Nat).getD 0 0 = 4 := rfl
  rw [hL, hR] at h0
  exact absurd h0 (by omega)

/-! ### Indexed access into the packed data array -/

theorem getD_cons4 (a b c d x : Nat) (rest : List Nat) (n : Nat) :
    ((a :: b :: c :: d :: rest).getD (n + 4) x) = rest.getD n x := rfl

theorem chunksExact4_getD :
    ∀ (g : List Nat) (b : Nat), 4 * b + 3 < g.length →
      (chunksExact4 g).getD b [] =
        [g.getD (4 * b) 0, g.getD (4 * b + 1) 0, g.getD (4 * b + 2) 0,
          g.getD (4 * b + 3) 0] := by
  intro g
  induction g using chunksExact4.induct with
  | case1 a b c d rest ih =>
    intro n hn
    cases n with
    | zero => rfl
    | succ n' =>
      have e0 : 4 * (n' + 1) = 4 * n' + 4 := by omega
      have e1 : 4 * (n' + 1) + 1 = (4 * n' + 1) + 4 := by omega
      have e2 : 4 * (n' + 1) + 2 = (4 * n' + 2) + 4 := by omega
      have e3 : 4 * (n' + 1) + 3 = (4 * n' + 3) + 4 := by omega
      rw [e1, e2, e3, e0]
      rw [getD_cons4, getD_cons4, getD_cons4, getD_cons4]
      have hn' : 4 * n' + 3 < rest.length := by
        simp only [List.length_cons] at hn
        omega
      rw [show chunksExact4 (a :: b :: c :: d :: rest) = [a, b, c, d] :: chunksExact4 rest
        from rfl]
      rw [List.getD_cons_succ]
      exact ih n' hn'
  | case2 g h =>
    intro n hn
    match g, h with
    | [], _ =>
      have hl : ([] : List Nat).length = 0 := rfl
      rw [hl] at hn; omega
    | [a], _ =>
      have hl : ([a] : List Nat).length = 1 := rfl
      rw [hl] at hn; omega
    | [a, b], _ =>
      have hl : ([a, b] : List Nat).length = 2 := rfl
      rw [hl] at hn; omega
    | [a, b, c], _ =>
      have hl : ([a, b, c] : List Nat).length = 3 := rfl
      rw [hl] at hn; omega
    | (a :: b :: c :: d :: rest), h => exact absurd rfl (h a b c d rest)

theorem chunksExact4_length :
    ∀ g : List Nat, (chunksExact4 g).length = g.length / 4 := by
  intro g
  induction g using chunksExact4.induct with
  | case1 a b c d rest ih =>
    simp only [chunksExact4, List.length_cons, ih]
    omega
  | case2 g h =>
    match g, h with
    | [], _ => simp [chunksExact4]
    | [a], _ => simp [chunksExact4]
    | [a, b], _ => simp [chunksExact4]
    | [a, b, c], _ => simp [chunksExact4]
    | (a :: b :: c :: d :: rest), h => exact absurd rfl (h a b c d rest)

theorem getD_map_lt {α β : Type} (f : α → β) (l : List α) (i : Nat)
    (h : i < l.length) (d : α) (d' : β) :
    (l.map f).getD i d' = f (l.getD i d) := by
  have hsome : l.get? i = some (l.get ⟨i, h⟩) := List.get?_eq_get h
  simp only [List.getD, List.get?_map, hsome]
  rfl

/-- The byte of the encoded array holding linear index `idx`. -/
theorem newFromUncompressedBits_getD (g : List Nat) (b : Nat)
    (h : 4 * b + 3 < g.length) :
    (newFromUncompressedBits g).getD b 0 =
      compress4Bytes [g.getD (4 * b) 0, g.getD (4 * b + 1) 0,
        g.getD (4 * b + 2) 0, g.getD (4 * b + 3) 0] := by
  have hblen : b < (chunksExact4 g).length := by
    rw [chunksExact4_length]
    omega
  rw [newFromUncompressedBits, getD_map_lt compress4Bytes _ b hblen []]
  rw [chunksExact4_getD g b h]

theorem compress4_extract (a b c d : Nat) :
    ((compress4Bytes [a, b, c, d]) >>> 6) % 4 = a % 4 ∧
    ((compress4Bytes [a, b, c, d]) >>> 4) % 4 = b % 4 ∧
    ((compress4Bytes [a, b, c, d]) >>> 2) % 4 = c % 4 ∧
    (compress4Bytes [a, b, c, d]) % 4 = d % 4 := by
  rw [compress4Bytes_mod]
  have h := compress4_extract_small (a % 4) (Nat.mod_lt a (by omega))
    (b % 4) (Nat.mod_lt b (by omega)) (c % 4) (Nat.mod_lt c (by omega))
    (d % 4) (Nat.mod_lt d (by omega))
  simpa only [compress4Bytes, List.getD_cons_zero, List.getD_cons_succ,
    Nat.mod_mod_of_dvd _ dvd_rfl] using h

/-- The Direct codec's raw 2-bit read reproduces the low 2 bits of the raw
byte at the row-major linear index. -/
theorem getUncompressedTerrainByte_encode (g : List Nat) (x y : Nat)
    (hx : x < 50) (hy : y < 50) (hlen : g.length = 2500) :
    getUncompressedTerrainByte (newFromUncompressedBits g) x y =
      g.getD (y * 50 + x) 0 % 4 := by
  have hidx : y * 50 + x < 2500 := by omega
  have hbyte : 4 * ((y * 50 + x) / 4) + 3 < g.length := by omega
  have hget := newFromUncompressedBits_getD g ((y * 50 + x) / 4) hbyte
  simp only [getUncompressedTerrainByte, xyToTerrainIndex, div_rem]
  rw [hget]
  have hoff : (y * 50 + x) % 4 = 0 ∨ (y * 50 + x) % 4 = 1 ∨
      (y * 50 + x) % 4 = 2 ∨ (y * 50 + x) % 4 = 3 := by omega
  rcases hoff with h0 | h1 | h2 | h3
  · rw [h0, show 4 * ((y * 50 + x) / 4) = y * 50 + x by omega]
    exact (compress4_extract _ _ _ _).1
  · rw [h1, show 4 * ((y * 50 + x) / 4) + 1 = y * 50 + x by omega]
    exact (compress4_extract _ _ _ _).2.1
  · rw [h2, show 4 * ((y * 50 + x) / 4) + 2 = y * 50 + x by omega]
    exact (compress4_extract _ _ _ _).2.2.1
  · rw [h3, show 4 * ((y * 50 + x) / 4) + 3 = y * 50 + x by omega]
    exact (compress4_extract _ _ _ _).2.2.2

/-- The decode table applied to an already-masked value, spelled the way the
specification states it. -/
theorem terrainFrom2Bits_mod_table (v : Nat) :
    terrainFrom2Bits (v % 4) =
      (if v % 4 = 0 then Terrain.plain
       else if v % 4 = 1 then Terrain.wall
       else if v % 4 = 2 then Terrain.swamp
       else Terrain.wall) := by
  have hoff : v % 4 = 0 ∨ v % 4 = 1 ∨ v % 4 = 2 ∨ v % 4 = 3 := by omega
  rcases hoff with h | h | h | h <;> rw [h] <;> decide

/-- **C4**: the Direct Bit-Packed Codec's point query returns the terrain
class obtained from the low 2 bits of the raw byte at row-major linear index
`y*50 + x`, via the table 0 ↦ Plain, 1 ↦ Wall, 2 ↦ Swamp, 3 ↦ Wall. -/
theorem c4_direct_get (g : List Nat) (x y : Nat) (hx : x < 50) (hy : y < 50)
    (hlen : g.length = 2500) :
    compressedGetXY (newFromUncompressedBits g) x y =
      (if g.getD (y * 50 + x) 0 % 4 = 0 then Terrain.plain
       else if g.getD (y * 50 + x) 0 % 4 = 1 then Terrain.wall
       else if g.getD (y * 50 + x) 0 % 4 = 2 then Terrain.swamp
       else Terrain.wall) := by
  rw [compressedGetXY, getUncompressedTerrainByte_encode g x y hx hy hlen]
  exact terrainFrom2Bits_mod_table (g.getD (y * 50 + x) 0)

/-- **C4** witness: in the grid that is all Plain except a Swamp byte at
linear index 1, the query at position (x=1, y=0) observes the Swamp
(row-major, not column-major, indexing). -/
theorem c4_direct_get_witness :
    1 < 50 ∧ 0 < 50 ∧ ((List.replicate 2500 0).set 1 2 : List Nat).length = 2500 ∧
      compressedGetXY (newFromUncompressedBits ((List.replicate 2500 0).set 1 2)) 1 0 =
        Terrain.swamp := by
  refine ⟨by omega, by omega, by rw [List.length_set, List.length_replicate], ?_⟩
  rw [c4_direct_get ((List.replicate 2500 0).set 1 2) 1 0 (by omega) (by omega)
    (by rw [List.length_set, List.length_replicate])]
  rfl

/-! ## Generic Sorted-Run Engine (`generic_rle.rs`) -/

/-- `IndexedRLE<T, S>` (generic_rle.rs lines 14-18): a run of indefinite
length, a token value plus the start index of the run.  The start type `S`
(`usize` or `u16` in the instantiations) is modelled as `Nat`. -/
structure IndexedRLE (T : Type) where
  token : T
  start : Nat
deriving Repr, DecidableEq

/-- `IndexedRLE::can_append` (generic_rle.rs lines 21-24): the candidate may
merge into this run iff the tokens are equal and this run's start is ≤ the
candidate's start. -/
def canAppend {T : Type} [DecidableEq T] (a other : IndexedRLE T) : Bool :=
  (a.token == other.token) && (decide (a.start ≤ other.start))

/-- The external rle crate's `AppendRle::push_rle` on a `Vec`, as used by
`BinarySearchRLE::append_run` (generic_rle.rs lines 71-73): when the vector
has a last element that `can_append` the new run, the run is merged into it
(`IndexedRLE::append` leaves the tail unchanged, lines 26-29) and `false` is
returned; otherwise the run is pushed and `true` is returned. -/
def pushRle {T : Type} [DecidableEq T] (vec : List (IndexedRLE T))
    (run : IndexedRLE T) : List (IndexedRLE T) × Bool :=
  match vec.getLast? with
  | some tail => if canAppend tail run then (vec, false) else (vec ++ [run], true)
  | none => (vec ++ [run], true)

/-- `BinarySearchRLE::append_token` (generic_rle.rs lines 81-84): wrap the
token and start into a fresh run and append it. -/
def appendToken {T : Type} [DecidableEq T] (vec : List (IndexedRLE T))
    (token : T) (start : Nat) : List (IndexedRLE T) × Bool :=
  pushRle vec ⟨token, start⟩

/-- Rust `slice::partition_point`: by its contract, on a slice partitioned
with respect to the predicate (all elements satisfying it strictly before
all elements that do not — which holds for the ascending-start sequences
this module builds, with the predicates `start < index` / `start ≤ index`),
the binary search returns the count of leading elements satisfying the
predicate. -/
def partitionPoint {α : Type} (pred : α → Bool) : List α → Nat
  | [] => 0
  | a :: rest => if pred a then partitionPoint pred rest + 1 else 0

/-- `BinarySearchRLE::find_token_at_index` (generic_rle.rs lines 93-126):
empty sequence or index before the first run's start gives `None`; otherwise
partition-point search locates the run.  The source indexes `self.vec[idx]`
and `self.vec[run_idx]` (both in bounds whenever reached); the `getD`
default `first` is never used. -/
def findTokenAtIndex {T : Type} (vec : List (IndexedRLE T)) (index : Nat) :
    Option T :=
  match vec with
  | [] => none
  | first :: _ =>
    if index < first.start then none
    else
      let idx := partitionPoint (fun item => item.start < index) vec
      let runIdx :=
        if idx = vec.length then idx - 1
        else if (vec.getD idx first).start = index then idx else idx - 1
      some ((vec.getD runIdx first).token)

/-- `BinarySearchRLE::num_runs` (generic_rle.rs lines 129-131). -/
def numRuns {T : Type} (vec : List (IndexedRLE T)) : Nat :=
  vec.length

/-- The run designated by the specification's lookup contract: the token of
the latest run whose start is ≤ the query index, `none` when no run starts
at or below the index (assuming ascending starts, later runs shadow earlier
ones, and once a run starts above the index no later run can matter). -/
def latestTokenLE {T : Type} (index : Nat) : List (IndexedRLE T) → Option T
  | [] => none
  | r :: rest =>
    if r.start ≤ index then
      match latestTokenLE index rest with
      | some t => some t
      | none => some r.token
    else none

/-- The engine invariant: run starts strictly ascending. -/
def StartsAscending {T : Type} (vec : List (IndexedRLE T)) : Prop :=
  List.Pairwise (fun a b => a.start < b.start) vec

/-- The engine invariant: no two consecutive runs share a token (an
inductive characterisation of the chain of adjacent-distinct tokens). -/
inductive NoAdjacentDup {T : Type} : List (IndexedRLE T) → Prop where
  | nil : NoAdjacentDup []
  | single (r : IndexedRLE T) : NoAdjacentDup [r]
  | cons {a b : IndexedRLE T} {l : List (IndexedRLE T)} :
      a.token ≠ b.token → NoAdjacentDup (b :: l) → NoAdjacentDup (a :: b :: l)

/-- Appending a run whose token differs from the final run's token
preserves the adjacent-distinct invariant. -/
theorem NoAdjacentDup.append_single {T : Type} :
    ∀ {vec : List (IndexedRLE T)} {p : IndexedRLE T}, NoAdjacentDup vec →
      (∀ tail, vec.getLast? = some tail → tail.token ≠ p.token) →
      NoAdjacentDup (vec ++ [p]) := by
  intro vec p h
  induction h with
  | nil => intro _; exact NoAdjacentDup.single p
  | single r =>
    intro hlast
    exact NoAdjacentDup.cons (hlast r rfl) (NoAdjacentDup.single p)
  | cons hne _ ih =>
    intro hlast
    exact NoAdjacentDup.cons hne (ih (fun tail htail => hlast tail htail))

/-! ### Correctness of the partition-point lookup on ascending sequences -/

theorem getD_indep {α : Type} (l : List α) (j : Nat) (h : j < l.length) (d d' : α) :
    l.getD j d = l.getD j d' := by
  have hsome : l[j]? = some (l.get ⟨j, h⟩) := by
    rw [List.getElem?_eq_getElem h]
    rfl
  simp [List.getD, hsome]

theorem partitionPoint_le_length {α : Type} (pred : α → Bool) :
    ∀ l : List α, partitionPoint pred l ≤ l.length := by
  intro l
  induction l with
  | nil => simp [partitionPoint]
  | cons a rest ih =>
    simp only [partitionPoint, List.length_cons]
    split
    · omega
    · omega

/-- Proof-side abbreviation for the run index `find_token_at_index` selects
once the sequence is known non-empty and the query is at or past the first
start. -/
def findRunIdx {T : Type} (vec : List (IndexedRLE T)) (first : IndexedRLE T)
    (i : Nat) : Nat :=
  let idx := partitionPoint (fun item => item.start < i) vec
  if idx = vec.length then idx - 1
  else if (vec.getD idx first).start = i then idx else idx - 1

theorem findTokenAtIndex_cons_ge {T : Type} (first : IndexedRLE T)
    (rest : List (IndexedRLE T)) (i : Nat) (h : first.start ≤ i) :
    findTokenAtIndex (first :: rest) i =
      some (((first :: rest).getD (findRunIdx (first :: rest) first i) first).token) := by
  simp only [findTokenAtIndex, findRunIdx]
  rw [if_neg (by omega)]

theorem latestTokenLE_cons {T : Type} (r : IndexedRLE T)
    (rest : List (IndexedRLE T)) (i : Nat) :
    latestTokenLE i (r :: rest) =
      (if r.start ≤ i then
        match latestTokenLE i rest with
        | some t => some t
        | none => some r.token
      else none) := rfl

theorem findTokenAtIndex_eq_latest {T : Type} :
    ∀ vec : List (IndexedRLE T), StartsAscending vec →
      ∀ i : Nat, findTokenAtIndex vec i = latestTokenLE i vec := by
  intro vec
  induction vec with
  | nil => intro _ i; rfl
  | cons r rest ih =>
    intro hasc i
    have hasc' : StartsAscending rest := (List.pairwise_cons.1 hasc).2
    have hlt : ∀ q ∈ rest, r.start < q.start := (List.pairwise_cons.1 hasc).1
    by_cases hfirst : i < r.start
    · simp only [findTokenAtIndex]
      rw [if_pos hfirst, latestTokenLE_cons, if_neg (by omega)]
    · push_neg at hfirst
      rw [findTokenAtIndex_cons_ge r rest i hfirst]
      cases rest with
      | nil =>
        rw [latestTokenLE_cons, if_pos hfirst]
        by_cases hri : r.start < i
        · simp [findRunIdx, partitionPoint, hri, latestTokenLE]
        · have heq : r.start = i := by omega
          simp [findRunIdx, partitionPoint, hri, heq, latestTokenLE]
      | cons r2 rest2 =>
        have hr2 : r.start < r2.start := hlt r2 (by simp)
        by_cases hlow : i < r2.start
        · -- the query index falls inside the first run
          have hlat2 : latestTokenLE i (r2 :: rest2) = none := by
            rw [latestTokenLE_cons, if_neg (by omega)]
          rw [latestTokenLE_cons, if_pos hfirst, hlat2]
          by_cases hri : r.start < i
          · have hpp : partitionPoint (fun item => item.start < i) (r :: r2 :: rest2) = 1 := by
              simp only [partitionPoint]
              rw [if_pos (by simp only [decide_eq_true_eq]; omega),
                if_neg (by simp only [decide_eq_true_eq]; omega)]
            simp only [findRunIdx, hpp]
            rw [if_neg (by simp only [List.length_cons]; omega)]
            rw [if_neg (by simp only [List.getD_cons_succ, List.getD_cons_zero]; omega)]
            rfl
          · have heq : r.start = i := by omega
            have hpp : partitionPoint (fun item => item.start < i) (r :: r2 :: rest2) = 0 := by
              simp only [partitionPoint]
              rw [if_neg (by simp only [decide_eq_true_eq]; omega)]
            simp only [findRunIdx, hpp]
            rw [if_neg (by simp only [List.length_cons]; omega)]
            rw [if_pos (by simp only [List.getD_cons_zero]; omega)]
            rfl
        · -- the query index is at or past the second run: reduce to the tail
          push_neg at hlow
          have hrlt : r.start < i := by omega
          have hih := ih hasc' i
          rw [findTokenAtIndex_cons_ge r2 rest2 i hlow] at hih
          rw [latestTokenLE_cons, if_pos hfirst, ← hih]
          have hpp_cons : partitionPoint (fun item => item.start < i) (r :: r2 :: rest2) =
              partitionPoint (fun item => item.start < i) (r2 :: rest2) + 1 := by
            simp only [partitionPoint]
            rw [if_pos (by simp only [decide_eq_true_eq]; omega)]
          simp only [findRunIdx]
          rw [hpp_cons]
          have hp2le := partitionPoint_le_length
            (fun item => decide (item.start < i)) (r2 :: rest2)
          generalize hp2def :
            partitionPoint (fun item => decide (item.start < i)) (r2 :: rest2) = p2
          rw [hp2def] at hp2le
          by_cases hfull : p2 = (r2 :: rest2).length
          · -- index at or past the last run: both select the final run
            rw [hfull]
            rw [if_pos (by simp only [List.length_cons])]
            rw [if_pos rfl]
            have hgetshift : (r :: r2 :: rest2).getD ((r2 :: rest2).length + 1 - 1) r =
                (r2 :: rest2).getD ((r2 :: rest2).length - 1) r := by
              rw [show (r2 :: rest2).length + 1 - 1 = ((r2 :: rest2).length - 1) + 1 by
                simp only [List.length_cons]; omega]
              exact List.getD_cons_succ
            rw [hgetshift]
            rw [getD_indep _ _ (by simp only [List.length_cons]; omega) r r2]
          · have hp2lt : p2 < (r2 :: rest2).length := by
              simp only [List.length_cons] at hp2le hfull ⊢
              omega
            have hgetp2 : (r :: r2 :: rest2).getD (p2 + 1) r = (r2 :: rest2).getD p2 r :=
              List.getD_cons_succ
            rw [if_neg (show ¬ (p2 + 1 = (r :: r2 :: rest2).length) by
              simp only [List.length_cons] at hp2lt ⊢
              omega)]
            rw [hgetp2, getD_indep _ p2 hp2lt r r2]
            by_cases hstarteq : ((r2 :: rest2).getD p2 r2).start = i
            · rw [if_pos hstarteq]
              rw [if_neg hfull, if_pos hstarteq]
              rw [hgetp2, getD_indep _ p2 hp2lt r r2]
            · rw [if_neg hstarteq]
              rw [if_neg hfull, if_neg hstarteq]
              -- p2 cannot be 0 here: that would force r2.start = i
              have hp2pos : 1 ≤ p2 := by
                rcases Nat.eq_zero_or_pos p2 with h0 | h1
                · exfalso
                  have hzero := hp2def.trans h0
                  have hnotlt : ¬ (r2.start < i) := by
                    by_contra hcon
                    simp only [partitionPoint] at hzero
                    rw [if_pos (by simp only [decide_eq_true_eq]; omega)] at hzero
                    omega
                  have hr2i : r2.start = i := by omega
                  apply hstarteq
                  rw [h0, List.getD_cons_zero, hr2i]
                · exact h1
              have hshift : (r :: r2 :: rest2).getD (p2 + 1 - 1) r =
                  (r2 :: rest2).getD (p2 - 1) r := by
                rw [show p2 + 1 - 1 = (p2 - 1) + 1 by omega]
                exact List.getD_cons_succ
              rw [hshift, getD_indep _ (p2 - 1)
                (by simp only [List.length_cons] at hp2lt ⊢; omega) r r2]

/-! ### Appending runs in ascending order -/

theorem latestTokenLE_none_of_forall {T : Type} (i : Nat)
    (vec : List (IndexedRLE T)) (h : ∀ r ∈ vec, i < r.start) :
    latestTokenLE i vec = none := by
  induction vec with
  | nil => rfl
  | cons r rest ih =>
    rw [latestTokenLE_cons, if_neg (by have := h r (by simp); omega)]

theorem latestTokenLE_append_single {T : Type} (vec : List (IndexedRLE T))
    (r : IndexedRLE T) (i : Nat) (hmax : ∀ q ∈ vec, q.start < r.start) :
    latestTokenLE i (vec ++ [r]) =
      if r.start ≤ i then some r.token else latestTokenLE i vec := by
  induction vec with
  | nil =>
    by_cases hr : r.start ≤ i
    · rw [List.nil_append, latestTokenLE_cons, if_pos hr, if_pos hr]
      rfl
    · rw [List.nil_append, latestTokenLE_cons, if_neg hr, if_neg hr]
      rfl
  | cons a rest ih =>
    rw [List.cons_append, latestTokenLE_cons]
    by_cases ha : a.start ≤ i
    · rw [if_pos ha]
      rw [ih (fun q hq => hmax q (by simp [hq]))]
      by_cases hr : r.start ≤ i
      · rw [if_pos hr, if_pos hr]
      · rw [if_neg hr, if_neg hr, latestTokenLE_cons, if_pos ha]
    · rw [if_neg ha]
      have har : i < r.start := by
        have := hmax a (by simp)
        omega
      rw [if_neg (by omega), latestTokenLE_cons, if_neg ha]

theorem latestTokenLE_getLast {T : Type} :
    ∀ (vec : List (IndexedRLE T)) (tail : IndexedRLE T),
      StartsAscending vec → vec.getLast? = some tail →
      ∀ i : Nat, tail.start ≤ i → latestTokenLE i vec = some tail.token := by
  intro vec
  induction vec with
  | nil => intro tail _ hlast; simp at hlast
  | cons a rest ih =>
    intro tail hasc hlast i hle
    cases rest with
    | nil =>
      have : a = tail := by simpa using hlast
      subst this
      rw [latestTokenLE_cons, if_pos hle]
      rfl
    | cons b rest' =>
      have hlast' : (b :: rest').getLast? = some tail := by
        rw [← hlast]
        rfl
      have htail_mem : tail ∈ b :: rest' :=
        List.mem_of_mem_getLast? (by rw [hlast']; rfl)
      have hasc' : StartsAscending (b :: rest') := (List.pairwise_cons.1 hasc).2
      have halt : a.start < tail.start :=
        (List.pairwise_cons.1 hasc).1 tail htail_mem
      rw [latestTokenLE_cons, if_pos (by omega)]
      rw [ih tail hasc' hlast' i hle]

theorem canAppend_iff {T : Type} [DecidableEq T] (a b : IndexedRLE T) :
    canAppend a b = true ↔ (a.token = b.token ∧ a.start ≤ b.start) := by
  simp [canAppend]

/-- One `push_rle` step updates the lookup function exactly on `[s, ∞)`,
provided every present start is below the new start. -/
theorem latestTokenLE_push {T : Type} [DecidableEq T] (vec : List (IndexedRLE T))
    (t : T) (s i : Nat) (hasc : StartsAscending vec)
    (hmax : ∀ q ∈ vec, q.start < s) :
    latestTokenLE i (pushRle vec ⟨t, s⟩).1 =
      if s ≤ i then some t else latestTokenLE i vec := by
  cases hlast : vec.getLast? with
  | none =>
    have hnil : vec = [] := List.getLast?_eq_none_iff.1 hlast
    subst hnil
    by_cases hs : s ≤ i
    · rw [show (pushRle ([] : List (IndexedRLE T)) ⟨t, s⟩).1 = [⟨t, s⟩] from rfl]
      rw [latestTokenLE_cons]
      rw [if_pos hs, if_pos hs]
      rfl
    · rw [show (pushRle ([] : List (IndexedRLE T)) ⟨t, s⟩).1 = [⟨t, s⟩] from rfl]
      rw [latestTokenLE_cons]
      rw [if_neg hs, if_neg hs]
      rfl
  | some tail =>
    have htail_mem : tail ∈ vec := List.mem_of_mem_getLast? (by rw [hlast]; rfl)
    have htails : tail.start < s := hmax tail htail_mem
    by_cases hcan : canAppend tail ⟨t, s⟩ = true
    · have htok : tail.token = t := ((canAppend_iff tail ⟨t, s⟩).1 hcan).1
      have hfst : (pushRle vec ⟨t, s⟩).1 = vec := by
        simp only [pushRle, hlast, if_pos hcan]
      rw [hfst]
      by_cases hs : s ≤ i
      · rw [if_pos hs]
        rw [latestTokenLE_getLast vec tail hasc hlast i (by omega), htok]
      · rw [if_neg hs]
    · have hfst : (pushRle vec ⟨t, s⟩).1 = vec ++ [⟨t, s⟩] := by
        simp only [pushRle, hlast, if_neg hcan]
      rw [hfst]
      exact latestTokenLE_append_single vec ⟨t, s⟩ i hmax

/-- One `push_rle` step: every run of the result is either an existing run
or the new run itself. -/
theorem pushRle_mem {T : Type} [DecidableEq T] (vec : List (IndexedRLE T))
    (p : IndexedRLE T) :
    ∀ q ∈ (pushRle vec p).1, q ∈ vec ∨ q = p := by
  intro q hq
  cases hlast : vec.getLast? with
  | none =>
    have hfst : (pushRle vec p).1 = vec ++ [p] := by
      simp only [pushRle, hlast]
    rw [hfst] at hq
    rcases List.mem_append.1 hq with h | h
    · exact Or.inl h
    · simp at h
      exact Or.inr h
  | some tail =>
    by_cases hcan : canAppend tail p = true
    · have hfst : (pushRle vec p).1 = vec := by
        simp only [pushRle, hlast, if_pos hcan]
      rw [hfst] at hq
      exact Or.inl hq
    · have hfst : (pushRle vec p).1 = vec ++ [p] := by
        simp only [pushRle, hlast, if_neg hcan]
      rw [hfst] at hq
      rcases List.mem_append.1 hq with h | h
      · exact Or.inl h
      · simp at h
        exact Or.inr h

theorem pushRle_cases {T : Type} [DecidableEq T] (vec : List (IndexedRLE T))
    (p : IndexedRLE T) :
    (pushRle vec p).1 = vec ∨ (pushRle vec p).1 = vec ++ [p] := by
  cases hlast : vec.getLast? with
  | none => right; simp only [pushRle, hlast]
  | some tail =>
    by_cases hcan : canAppend tail p = true
    · left; simp only [pushRle, hlast, if_pos hcan]
    · right; simp only [pushRle, hlast, if_neg hcan]

theorem pushRle_asc {T : Type} [DecidableEq T] (vec : List (IndexedRLE T))
    (p : IndexedRLE T) (hasc : StartsAscending vec)
    (hmax : ∀ q ∈ vec, q.start < p.start) :
    StartsAscending (pushRle vec p).1 := by
  rcases pushRle_cases vec p with h | h <;> rw [h]
  · exact hasc
  · exact List.pairwise_append.2 ⟨hasc, List.pairwise_singleton _ _,
      fun a ha b hb => by
        have : b = p := by simpa using hb
        subst this
        exact hmax a ha⟩

theorem pushRle_ne_nil {T : Type} [DecidableEq T] (vec : List (IndexedRLE T))
    (p : IndexedRLE T) (h : (pushRle vec p).1 = []) : False := by
  rcases pushRle_cases vec p with hc | hc <;> rw [hc] at h
  · -- merged into the tail: the vector had a last element
    cases hlast : vec.getLast? with
    | none =>
      have : (pushRle vec p).1 = vec ++ [p] := by simp only [pushRle, hlast]
      rw [hc] at this
      subst h
      simp at this
    | some tail =>
      subst h
      simp at hlast
  · simp at h

theorem pushRle_head_of_ne_nil {T : Type} [DecidableEq T]
    (vec : List (IndexedRLE T)) (p : IndexedRLE T) (h : vec ≠ []) :
    ((pushRle vec p).1).head? = vec.head? := by
  rcases pushRle_cases vec p with hc | hc <;> rw [hc]
  cases vec with
  | nil => exact absurd rfl h
  | cons a rest => rfl

theorem pushRle_nodup {T : Type} [DecidableEq T] (vec : List (IndexedRLE T))
    (p : IndexedRLE T) (hdup : NoAdjacentDup vec)
    (hmax : ∀ q ∈ vec, q.start < p.start) :
    NoAdjacentDup (pushRle vec p).1 := by
  cases hlast : vec.getLast? with
  | none =>
    have hnil : vec = [] := List.getLast?_eq_none_iff.1 hlast
    subst hnil
    have hfst : (pushRle ([] : List (IndexedRLE T)) p).1 = [p] := rfl
    rw [hfst]
    exact NoAdjacentDup.single p
  | some tail =>
    have htail_mem : tail ∈ vec := List.mem_of_mem_getLast? (by rw [hlast]; rfl)
    by_cases hcan : canAppend tail p = true
    · have hfst : (pushRle vec p).1 = vec := by
        simp only [pushRle, hlast, if_pos hcan]
      rw [hfst]
      exact hdup
    · have hfst : (pushRle vec p).1 = vec ++ [p] := by
        simp only [pushRle, hlast, if_neg hcan]
      rw [hfst]
      have htok : tail.token ≠ p.token := by
        intro heq
        exact hcan ((canAppend_iff tail p).2
          ⟨heq, Nat.le_of_lt (hmax tail htail_mem)⟩)
      exact hdup.append_single (fun t ht => by
        rw [hlast] at ht
        have : tail = t := by simpa using ht
        rw [← this]
        exact htok)

/-- The construction fold all run codecs share: append each token-run in
turn via `push_rle`, starting from the empty sequence. -/
def buildRLE {T : Type} [DecidableEq T] (ps : List (IndexedRLE T)) :
    List (IndexedRLE T) :=
  ps.foldl (fun vec p => (pushRle vec p).1) []

/-- Construction from a strictly ascending pair stream preserves every
engine invariant, and the built sequence answers lookups exactly like the
raw (unmerged) pair stream. -/
theorem buildRLE_spec {T : Type} [DecidableEq T] :
    ∀ ps : List (IndexedRLE T), StartsAscending ps →
      StartsAscending (buildRLE ps) ∧
      (∀ q ∈ buildRLE ps, q ∈ ps) ∧
      (∀ i, latestTokenLE i (buildRLE ps) = latestTokenLE i ps) ∧
      ((buildRLE ps).head?.map (fun r => r.start) =
        ps.head?.map (fun r => r.start)) ∧
      (buildRLE ps = [] ↔ ps = []) ∧
      NoAdjacentDup (buildRLE ps) := by
  intro ps
  induction ps using List.reverseRecOn with
  | nil =>
    intro _
    refine ⟨List.Pairwise.nil, by simp [buildRLE], fun i => rfl, rfl,
      Iff.rfl, NoAdjacentDup.nil⟩
  | append_singleton ps p ih =>
    intro hasc
    have hparts := List.pairwise_append.1 hasc
    have hasc_ps : StartsAscending ps := hparts.1
    have hball : ∀ a ∈ ps, a.start < p.start := by
      intro a ha
      exact hparts.2.2 a ha p (by simp)
    obtain ⟨ihasc, ihmem, ihfind, ihhead, ihnil, ihdup⟩ := ih hasc_ps
    have hstep : buildRLE (ps ++ [p]) = (pushRle (buildRLE ps) p).1 := by
      simp only [buildRLE, List.foldl_append, List.foldl_cons, List.foldl_nil]
    have hmax : ∀ q ∈ buildRLE ps, q.start < p.start := fun q hq =>
      hball q (ihmem q hq)
    refine ⟨?_, ?_, ?_, ?_, ?_, ?_⟩
    · rw [hstep]
      exact pushRle_asc _ p ihasc hmax
    · rw [hstep]
      intro q hq
      rcases pushRle_mem _ p q hq with h | h
      · exact List.mem_append.2 (Or.inl (ihmem q h))
      · exact List.mem_append.2 (Or.inr (by simp [h]))
    · intro i
      rw [hstep, latestTokenLE_push _ p.token p.start i ihasc hmax, ihfind i,
        latestTokenLE_append_single ps p i hball]
    · rw [hstep]
      cases hps : ps with
      | nil =>
        subst hps
        rfl
      | cons a rest =>
        rw [hps] at ihnil ihhead
        have hbne : buildRLE (a :: rest) ≠ [] := by
          intro hcon
          have := ihnil.1 hcon
          simp at this
        rw [pushRle_head_of_ne_nil _ p hbne, ihhead]
        rfl
    · constructor
      · intro hcon
        rw [hstep] at hcon
        exact absurd hcon (fun h => pushRle_ne_nil _ p h)
      · intro hcon
        simp at hcon
    · rw [hstep]
      exact pushRle_nodup _ p ihdup hmax

/-- The latest run whose start is ≤ a member's start is that member itself
(on a strictly ascending sequence). -/
theorem latestTokenLE_mem {T : Type} :
    ∀ ps : List (IndexedRLE T), StartsAscending ps →
      ∀ p ∈ ps, latestTokenLE p.start ps = some p.token := by
  intro ps
  induction ps with
  | nil => intro _ p hp; simp at hp
  | cons a rest ih =>
    intro hasc p hp
    have hasc' : StartsAscending rest := (List.pairwise_cons.1 hasc).2
    have hlt : ∀ q ∈ rest, a.start < q.start := (List.pairwise_cons.1 hasc).1
    rcases List.mem_cons.1 hp with rfl | hmem
    · rw [latestTokenLE_cons, if_pos (Nat.le_refl _)]
      rw [latestTokenLE_none_of_forall p.start rest (fun r hr => hlt r hr)]
    · rw [latestTokenLE_cons, if_pos (Nat.le_of_lt (hlt p hmem)), ih hasc' p hmem]

/-! ## Packed Run representation and engine (`packed_rle_terrain.rs`) -/

/-- `RoomTerrainPackedIndexedRLE::get_packed_repr` (packed_rle_terrain.rs
lines 42-50): terrain tag shifted into bits 13-12, or-ed with the start
index occupying the low 12 bits. -/
def getPackedRepr (terrain : Terrain) (start : Nat) : Nat :=
  let terrainBytes : Nat :=
    match terrain with
    | .plain => 0
    | .wall => 1
    | .swamp => 2
  (terrainBytes <<< 12) ||| start

/-- `RoomTerrainPackedIndexedRLE::terrain` (packed_rle_terrain.rs lines
53-60): decode the tag bits `packed >> 12`.  The source's `unreachable!()`
arm for tag value 3 is never reached for words produced by
`get_packed_repr` with `start < 4096` (room linear indices are < 2500); it
is mapped to Wall here and never relied upon. -/
def packedTerrain (packed : Nat) : Terrain :=
  match packed >>> 12 with
  | 0 => .plain
  | 1 => .wall
  | 2 => .swamp
  | _ => .wall

/-- `RoomTerrainPackedIndexedRLE::start` (packed_rle_terrain.rs lines
63-65): mask everything but the low 12 bits. -/
def packedStart (packed : Nat) : Nat :=
  packed &&& 0b111111111111

/-- `MergableSpan::can_append` for the packed run (packed_rle_terrain.rs
lines 79-82): terrains equal and this start ≤ the candidate's start. -/
def canAppendPacked (a other : Nat) : Bool :=
  (packedTerrain a == packedTerrain other) &&
    (decide (packedStart a ≤ packedStart other))

/-- `BinarySearchPackedRoomTerrainRLE::append_run` (packed_rle_terrain.rs
lines 118-120) via the rle crate's `push_rle`; the packed `append` also
leaves the tail unchanged (lines 84-87). -/
def pushRlePacked (vec : List Nat) (run : Nat) : List Nat × Bool :=
  match vec.getLast? with
  | some tail =>
    if canAppendPacked tail run then (vec, false) else (vec ++ [run], true)
  | none => (vec ++ [run], true)

/-- `BinarySearchPackedRoomTerrainRLE::append_token` (packed_rle_terrain.rs
lines 126-129). -/
def appendTokenPacked (vec : List Nat) (terrain : Terrain) (start : Nat) :
    List Nat × Bool :=
  pushRlePacked vec (getPackedRepr terrain start)

/-- `BinarySearchPackedRoomTerrainRLE::find_token_at_index`
(packed_rle_terrain.rs lines 138-171): structurally identical to the generic
engine's search, reading token and start out of the packed word. -/
def findTokenAtIndexPacked (vec : List Nat) (index : Nat) : Option Terrain :=
  match vec with
  | [] => none
  | first :: _ =>
    if index < packedStart first then none
    else
      let idx := partitionPoint (fun item => packedStart item < index) vec
      let runIdx :=
        if idx = vec.length then idx - 1
        else if packedStart (vec.getD idx first) = index then idx else idx - 1
      some (packedTerrain (vec.getD runIdx first))

/-- `BinarySearchPackedRoomTerrainRLE::num_runs` (packed_rle_terrain.rs
lines 174-176). -/
def numRunsPacked (vec : List Nat) : Nat :=
  vec.length

/-- `BinarySearchPackedRoomTerrainRLE::last_token` (packed_rle_terrain.rs
lines 181-187).  The source reads `self.vec[self.vec.len()]`, one place past
the final element; the out-of-bounds (panicking) indexing is modelled by the
`Option`-valued `List.get?` at exactly that index. -/
def lastTokenPacked (vec : List Nat) : Option Terrain :=
  if vec.length > 0 then (vec.get? vec.length).map packedTerrain
  else none

/-- View a packed word as a generic run. -/
def unpackRun (w : Nat) : IndexedRLE Terrain :=
  ⟨packedTerrain w, packedStart w⟩

theorem shiftRight_lor_distrib (a b n : Nat) :
    (a ||| b) >>> n = (a >>> n) ||| (b >>> n) := by
  induction n with
  | zero => rfl
  | succ n ih =>
    rw [Nat.shiftRight_succ, Nat.shiftRight_succ, Nat.shiftRight_succ, ih,
      Nat.or_div_two]

theorem land_lor_distrib_right (x y z : Nat) :
    (x ||| y) &&& z = (x &&& z) ||| (y &&& z) := by
  rw [Nat.and_comm _ z, Nat.and_or_distrib_left, Nat.and_comm z x, Nat.and_comm z y]

/-- Packing a tag into bits 13-12 above a 12-bit start is reversible. -/
theorem lor_shift_extract (k s : Nat) (hs : s < 4096) :
    ((k <<< 12) ||| s) >>> 12 = k ∧
      ((k <<< 12) ||| s) &&& 0b111111111111 = s := by
  constructor
  · rw [shiftRight_lor_distrib, Nat.shiftLeft_eq, Nat.shiftRight_eq_div_pow,
      Nat.shiftRight_eq_div_pow]
    rw [Nat.mul_div_cancel _ (by norm_num : (0 : Nat) < 2 ^ 12)]
    rw [Nat.div_eq_of_lt (by omega : s < 2 ^ 12)]
    exact Nat.or_zero k
  · have h4095 : (0b111111111111 : Nat) = 2 ^ 12 - 1 := by norm_num
    rw [h4095, land_lor_distrib_right, Nat.and_pow_two_sub_one_eq_mod,
      Nat.and_pow_two_sub_one_eq_mod, Nat.shiftLeft_eq, Nat.mul_mod_left,
      Nat.mod_eq_of_lt (by omega : s < 2 ^ 12)]
    exact Nat.zero_or s

theorem packedRepr_roundtrip :
    ∀ t : Terrain, ∀ s : Nat, s < 4096 →
      unpackRun (getPackedRepr t s) = ⟨t, s⟩ := by
  intro t s hs
  cases t with
  | plain =>
    simp only [unpackRun, getPackedRepr, packedTerrain, packedStart]
    rw [(lor_shift_extract 0 s hs).1, (lor_shift_extract 0 s hs).2]
  | wall =>
    simp only [unpackRun, getPackedRepr, packedTerrain, packedStart]
    rw [(lor_shift_extract 1 s hs).1, (lor_shift_extract 1 s hs).2]
  | swamp =>
    simp only [unpackRun, getPackedRepr, packedTerrain, packedStart]
    rw [(lor_shift_extract 2 s hs).1, (lor_shift_extract 2 s hs).2]

theorem canAppendPacked_eq (a b : Nat) :
    canAppendPacked a b = canAppend (unpackRun a) (unpackRun b) := rfl

theorem pushRlePacked_map (vec : List Nat) (w : Nat) :
    (pushRlePacked vec w).1.map unpackRun =
      (pushRle (vec.map unpackRun) (unpackRun w)).1 ∧
    (pushRlePacked vec w).2 = (pushRle (vec.map unpackRun) (unpackRun w)).2 := by
  have hlastmap : (vec.map unpackRun).getLast? = vec.getLast?.map unpackRun :=
    List.getLast?_map unpackRun vec
  cases hlast : vec.getLast? with
  | none =>
    have h2 : (vec.map unpackRun).getLast? = none := by rw [hlastmap, hlast]; rfl
    constructor
    · simp only [pushRlePacked, pushRle, hlast, h2, List.map_append, List.map_cons,
        List.map_nil]
    · simp only [pushRlePacked, pushRle, hlast, h2]
  | some tail =>
    have h2 : (vec.map unpackRun).getLast? = some (unpackRun tail) := by
      rw [hlastmap, hlast]; rfl
    by_cases hcan : canAppendPacked tail w = true
    · have hcan' : canAppend (unpackRun tail) (unpackRun w) = true := by
        rw [← canAppendPacked_eq]; exact hcan
      constructor
      · simp only [pushRlePacked, pushRle, hlast, h2, if_pos hcan, if_pos hcan']
      · simp only [pushRlePacked, pushRle, hlast, h2, if_pos hcan, if_pos hcan']
    · have hcan' : ¬ canAppend (unpackRun tail) (unpackRun w) = true := by
        rw [← canAppendPacked_eq]; exact hcan
      constructor
      · simp only [pushRlePacked, pushRle, hlast, h2, if_neg hcan, if_neg hcan',
          List.map_append, List.map_cons, List.map_nil]
      · simp only [pushRlePacked, pushRle, hlast, h2, if_neg hcan, if_neg hcan']

theorem partitionPoint_map {α β : Type} (f : α → β) (pred : β → Bool) :
    ∀ l : List α, partitionPoint pred (l.map f) = partitionPoint (fun a => pred (f a)) l := by
  intro l
  induction l with
  | nil => rfl
  | cons a rest ih =>
    simp only [List.map_cons, partitionPoint, ih]

theorem findTokenAtIndexPacked_map (vec : List Nat) (i : Nat) :
    findTokenAtIndexPacked vec i = findTokenAtIndex (vec.map unpackRun) i := by
  cases vec with
  | nil => rfl
  | cons first rest =>
    simp only [findTokenAtIndexPacked, findTokenAtIndex, List.map_cons]
    by_cases hfirst : i < packedStart first
    · rw [if_pos hfirst, if_pos (show i < (unpackRun first).start from hfirst)]
    · rw [if_neg hfirst, if_neg (show ¬ i < (unpackRun first).start from hfirst)]
      have hpp : partitionPoint (fun item => item.start < i)
            ((first :: rest).map unpackRun) =
          partitionPoint (fun item => packedStart item < i) (first :: rest) := by
        rw [partitionPoint_map]
        rfl
      rw [← List.map_cons]
      rw [hpp]
      have hlen : ((first :: rest).map unpackRun).length = (first :: rest).length := by
        rw [List.length_map]
      rw [hlen]
      have hgetD : ∀ j : Nat, ((first :: rest).map unpackRun).getD j (unpackRun first) =
          unpackRun ((first :: rest).getD j first) := fun j =>
        List.getD_map (first :: rest) first unpackRun
      rw [hgetD, hgetD]
      rfl

/-! ## Edge-Only Codec (`compressed_room_edge_terrain.rs`) -/

/-- `RoomEdgeTerrainParseError` (compressed_room_edge_terrain.rs lines
9-15): one variant per edge whose input slice is not length 50. -/
inductive RoomEdgeTerrainParseError where
  | topEdgeNotLength50
  | rightEdgeNotLength50
  | bottomEdgeNotLength50
  | leftEdgeNotLength50
deriving DecidableEq, Repr

/-- `RoomEdgeTerrain::get_byte_from_terrain` (lines 79-89): fold 8 tiles
into one byte, setting bit `7 - i` for each Wall. -/
def getByteFromTerrain (terrain : List Terrain) : Nat :=
  terrain.enum.foldl
    (fun output it =>
      if it.2 = Terrain.wall then output ||| (1 <<< (7 - it.1)) else output)
    0

/-- Rust `as_chunks::<8>` on a Terrain slice: the exact 8-element chunks. -/
def chunksExact8T : List Terrain → List (List Terrain)
  | a :: b :: c :: d :: e :: f :: g :: h :: rest =>
    [a, b, c, d, e, f, g, h] :: chunksExact8T rest
  | _ => []

/-- `RoomEdgeTerrain::copy_edge_terrain_to_byte_slice` (lines 92-98): the 6
bytes of one edge chunk, packing slice positions `1..=48` (the endpoints are
always Walls and are not stored). -/
def copyEdgeTerrainToByteSlice (terrain : List Terrain) : List Nat :=
  (chunksExact8T ((terrain.drop 1).take 48)).map getByteFromTerrain

/-- `RoomEdgeTerrain::new_from_terrain_slices` (lines 42-69): validate each
slice is length 50 (edge-specific error, in order top, right, bottom, left),
then write the four 6-byte chunks consecutively. -/
def newFromTerrainSlices (top right bottom left : List Terrain) :
    Except RoomEdgeTerrainParseError (List Nat) :=
  if top.length ≠ 50 then .error .topEdgeNotLength50
  else if right.length ≠ 50 then .error .rightEdgeNotLength50
  else if bottom.length ≠ 50 then .error .bottomEdgeNotLength50
  else if left.length ≠ 50 then .error .leftEdgeNotLength50
  else .ok (copyEdgeTerrainToByteSlice top ++ copyEdgeTerrainToByteSlice right ++
    copyEdgeTerrainToByteSlice bottom ++ copyEdgeTerrainToByteSlice left)

/-- `RoomEdgeTerrain::get_top_edge_bytes_slice` (lines 164-166): `data[0..6]`. -/
def getTopEdgeBytesSlice (data : List Nat) : List Nat :=
  data.take 6

/-- `RoomEdgeTerrain::get_right_edge_bytes_slice` (lines 170-172): `data[6..12]`. -/
def getRightEdgeBytesSlice (data : List Nat) : List Nat :=
  (data.drop 6).take 6

/-- `RoomEdgeTerrain::get_bottom_edge_bytes_slice` (lines 176-178): `data[12..18]`. -/
def getBottomEdgeBytesSlice (data : List Nat) : List Nat :=
  (data.drop 12).take 6

/-- `RoomEdgeTerrain::get_left_edge_bytes_slice` (lines 182-184): `data[18..24]`. -/
def getLeftEdgeBytesSlice (data : List Nat) : List Nat :=
  (data.drop 18).take 6

/-- `RoomEdgeTerrain::get_tile_terrain_from_chunk` (lines 117-137): decode
the single bit `7 - ((offset-1) % 8)` of byte `(offset-1)/8` for an edge
offset in `[1, 48]`; `None` outside that range.  The arm for `&&& 1`
producing anything other than 0 is exactly the bit value 1, Wall (the
source's `unreachable!()` arm cannot trigger). -/
def getTileTerrainFromChunk (chunk : List Nat) (edgeOffset : Nat) :
    Option Terrain :=
  if edgeOffset < 49 ∧ 0 < edgeOffset then
    let offset := edgeOffset - 1
    let byte := chunk.getD (offset / 8) 0
    let bitIdx := offset % 8
    let bitshift := 7 - bitIdx
    match (byte >>> bitshift) &&& 1 with
    | 0 => some Terrain.plain
    | _ => some Terrain.wall
  else none

/-- `RoomEdgeTerrain::get_xy` (lines 209-237): corners are Wall, interior
and out-of-range positions are `None`, each true edge position reads its
edge's 6-byte chunk.  The final arm mirrors the source's `unreachable!()`
(never hit for `x, y ≤ 49`). -/
def edgeGetXY (data : List Nat) (x y : Nat) : Option Terrain :=
  if (x = 0 ∧ y = 0) ∨ (x = 0 ∧ y = 49) ∨ (x = 49 ∧ y = 0) ∨ (x = 49 ∧ y = 49) then
    some Terrain.wall
  else if 0 < x ∧ x < 49 ∧ 0 < y ∧ y < 49 then none
  else if 49 < x ∨ 49 < y then none
  else if 1 ≤ x ∧ x ≤ 48 ∧ y = 0 then
    getTileTerrainFromChunk (getTopEdgeBytesSlice data) x
  else if 1 ≤ x ∧ x ≤ 48 ∧ y = 49 then
    getTileTerrainFromChunk (getBottomEdgeBytesSlice data) x
  else if x = 0 ∧ 1 ≤ y ∧ y ≤ 48 then
    getTileTerrainFromChunk (getLeftEdgeBytesSlice data) y
  else if x = 49 ∧ 1 ≤ y ∧ y ≤ 48 then
    getTileTerrainFromChunk (getRightEdgeBytesSlice data) y
  else some Terrain.wall

/-- The concrete edge store built from an all-Plain top edge and all-Wall
right, bottom and left edges. -/
def edgeDataPlainTop : List Nat :=
  [0, 0, 0, 0, 0, 0] ++ List.replicate 18 255

/-- **C9**: Edge-Only Codec construction succeeds iff all four slices have
length exactly 50; on failure the error names the first offending edge in
the order top, right, bottom, left, and no instance is produced. -/
theorem c9_edge_construction (top right bottom left : List Terrain) :
    ((∃ data, newFromTerrainSlices top right bottom left = .ok data) ↔
      (top.length = 50 ∧ right.length = 50 ∧ bottom.length = 50 ∧
        left.length = 50)) ∧
    (top.length ≠ 50 →
      newFromTerrainSlices top right bottom left = .error .topEdgeNotLength50) ∧
    (top.length = 50 → right.length ≠ 50 →
      newFromTerrainSlices top right bottom left = .error .rightEdgeNotLength50) ∧
    (top.length = 50 → right.length = 50 → bottom.length ≠ 50 →
      newFromTerrainSlices top right bottom left = .error .bottomEdgeNotLength50) ∧
    (top.length = 50 → right.length = 50 → bottom.length = 50 →
      left.length ≠ 50 →
      newFromTerrainSlices top right bottom left = .error .leftEdgeNotLength50) := by
  refine ⟨⟨?_, ?_⟩, ?_, ?_, ?_, ?_⟩
  · rintro ⟨data, hdata⟩
    by_cases h1 : top.length = 50
    · by_cases h2 : right.length = 50
      · by_cases h3 : bottom.length = 50
        · by_cases h4 : left.length = 50
          · exact ⟨h1, h2, h3, h4⟩
          · simp [newFromTerrainSlices, h1, h2, h3, h4] at hdata
        · simp [newFromTerrainSlices, h1, h2, h3] at hdata
      · simp [newFromTerrainSlices, h1, h2] at hdata
    · simp [newFromTerrainSlices, h1] at hdata
  · rintro ⟨h1, h2, h3, h4⟩
    refine ⟨copyEdgeTerrainToByteSlice top ++ copyEdgeTerrainToByteSlice right ++
      copyEdgeTerrainToByteSlice bottom ++ copyEdgeTerrainToByteSlice left, ?_⟩
    unfold newFromTerrainSlices
    rw [if_neg (by omega), if_neg (by omega), if_neg (by omega), if_neg (by omega)]
  · intro h1
    simp [newFromTerrainSlices, h1]
  · intro h1 h2
    simp [newFromTerrainSlices, h1, h2]
  · intro h1 h2 h3
    simp [newFromTerrainSlices, h1, h2, h3]
  · intro h1 h2 h3 h4
    simp [newFromTerrainSlices, h1, h2, h3, h4]

/-- **C9** witness: a top edge of length 49 (with valid other slices) fails
with the top-edge-specific error. -/
theorem c9_edge_construction_witness :
    (List.replicate 49 Terrain.plain).length ≠ 50 ∧
      newFromTerrainSlices (List.replicate 49 Terrain.plain)
          (List.replicate 50 Terrain.wall) (List.replicate 50 Terrain.wall)
          (List.replicate 50 Terrain.wall) =
        .error .topEdgeNotLength50 := by
  refine ⟨by simp, ?_⟩
  exact (c9_edge_construction _ _ _ _).2.1 (by simp)

theorem bitMatch_eq_if (b : Nat) :
    (match b &&& 1 with
      | 0 => some Terrain.plain
      | _ => some Terrain.wall) =
      some (if b % 2 = 1 then Terrain.wall else Terrain.plain) := by
  rw [Nat.and_one_is_mod]
  rcases Nat.mod_two_eq_zero_or_one b with h | h <;> rw [h] <;> rfl

theorem getTileTerrainFromChunk_eq (chunk : List Nat) (e : Nat)
    (h1 : 1 ≤ e) (h2 : e ≤ 48) :
    getTileTerrainFromChunk chunk e =
      some (if (chunk.getD ((e - 1) / 8) 0 >>> (7 - (e - 1) % 8)) % 2 = 1
        then Terrain.wall else Terrain.plain) := by
  unfold getTileTerrainFromChunk
  rw [if_pos (by omega : e < 49 ∧ 0 < e)]
  exact bitMatch_eq_if _

/-- **C8**: the Edge-Only point query returns Wall at the four corners for
any instance, `None` at every interior position, and at edge offset
`e ∈ [1,48]` the terrain decoded from bit `7-((e-1) % 8)` of byte `(e-1)/8`
of that edge's chunk; the codec built from an all-Plain top edge and
all-Wall other edges reports (0,0) and (49,0) as Wall, (1..48, 0) as Plain
and (1..48, 49) as Wall. -/
theorem c8_edge_get (data : List Nat) (x y e : Nat) :
    (edgeGetXY data 0 0 = some Terrain.wall ∧
      edgeGetXY data 0 49 = some Terrain.wall ∧
      edgeGetXY data 49 0 = some Terrain.wall ∧
      edgeGetXY data 49 49 = some Terrain.wall) ∧
    (1 ≤ x → x ≤ 48 → 1 ≤ y → y ≤ 48 → edgeGetXY data x y = none) ∧
    (1 ≤ e → e ≤ 48 →
      edgeGetXY data e 0 =
        some (if ((getTopEdgeBytesSlice data).getD ((e - 1) / 8) 0 >>>
            (7 - (e - 1) % 8)) % 2 = 1 then Terrain.wall else Terrain.plain) ∧
      edgeGetXY data e 49 =
        some (if ((getBottomEdgeBytesSlice data).getD ((e - 1) / 8) 0 >>>
            (7 - (e - 1) % 8)) % 2 = 1 then Terrain.wall else Terrain.plain) ∧
      edgeGetXY data 0 e =
        some (if ((getLeftEdgeBytesSlice data).getD ((e - 1) / 8) 0 >>>
            (7 - (e - 1) % 8)) % 2 = 1 then Terrain.wall else Terrain.plain) ∧
      edgeGetXY data 49 e =
        some (if ((getRightEdgeBytesSlice data).getD ((e - 1) / 8) 0 >>>
            (7 - (e - 1) % 8)) % 2 = 1 then Terrain.wall else Terrain.plain)) ∧
    (newFromTerrainSlices (List.replicate 50 Terrain.plain)
        (List.replicate 50 Terrain.wall) (List.replicate 50 Terrain.wall)
        (List.replicate 50 Terrain.wall) = .ok edgeDataPlainTop ∧
      edgeGetXY edgeDataPlainTop 0 0 = some Terrain.wall ∧
      edgeGetXY edgeDataPlainTop 49 0 = some Terrain.wall ∧
      (∀ x', x' < 49 → 1 ≤ x' →
        edgeGetXY edgeDataPlainTop x' 0 = some Terrain.plain ∧
        edgeGetXY edgeDataPlainTop x' 49 = some Terrain.wall)) := by
  refine ⟨⟨rfl, rfl, rfl, rfl⟩, ?_, ?_, ?_⟩
  · intro hx1 hx2 hy1 hy2
    unfold edgeGetXY
    rw [if_neg (by omega), if_pos (by omega)]
  · intro he1 he2
    refine ⟨?_, ?_, ?_, ?_⟩
    · unfold edgeGetXY
      rw [if_neg (by omega), if_neg (by omega), if_neg (by omega),
        if_pos (by omega : 1 ≤ e ∧ e ≤ 48 ∧ 0 = 0)]
      exact getTileTerrainFromChunk_eq _ e he1 he2
    · unfold edgeGetXY
      rw [if_neg (by omega), if_neg (by omega), if_neg (by omega),
        if_neg (by omega), if_pos (by omega : 1 ≤ e ∧ e ≤ 48 ∧ 49 = 49)]
      exact getTileTerrainFromChunk_eq _ e he1 he2
    · unfold edgeGetXY
      rw [if_neg (by omega), if_neg (by omega), if_neg (by omega),
        if_neg (by omega), if_neg (by omega),
        if_pos (by omega : 0 = 0 ∧ 1 ≤ e ∧ e ≤ 48)]
      exact getTileTerrainFromChunk_eq _ e he1 he2
    · unfold edgeGetXY
      rw [if_neg (by omega), if_neg (by omega), if_neg (by omega),
        if_neg (by omega), if_neg (by omega), if_neg (by omega),
        if_pos (by omega : 49 = 49 ∧ 1 ≤ e ∧ e ≤ 48)]
      exact getTileTerrainFromChunk_eq _ e he1 he2
  · refine ⟨rfl, rfl, rfl, by decide⟩

/-- **C8** witness: concrete queries against the all-Plain-top example
store and a generic interior position. -/
theorem c8_edge_get_witness :
    ((1 : Nat) ≤ 5 ∧ (5 : Nat) ≤ 48 ∧ (1 : Nat) ≤ 7 ∧ (7 : Nat) ≤ 48 ∧
      edgeGetXY edgeDataPlainTop 5 7 = none) ∧
    ((1 : Nat) ≤ 3 ∧ (3 : Nat) ≤ 48 ∧
      edgeGetXY edgeDataPlainTop 3 0 = some Terrain.plain) := by
  constructor
  · exact ⟨by omega, by omega, by omega, by omega,
      (c8_edge_get edgeDataPlainTop 5 7 3).2.1 (by omega) (by omega)
        (by omega) (by omega)⟩
  · refine ⟨by omega, by omega, ?_⟩
    exact (((c8_edge_get edgeDataPlainTop 5 7 3).2.2.1 (by omega)
      (by omega)).1).trans (by decide)

/-! ## Claims about the engines -/

/-- **C10** (code bug): `last_token` reads `self.vec[self.vec.len()]`, one
place past the final element, so the access is out of bounds for every
sequence; for a non-empty sequence the documented "`Some` of the final
run's token" is never produced (the Rust indexing panics).  Also evaluated
at the concrete one-run sequence `[get_packed_repr(Plain, 0)]`. -/
theorem c10_last_token_out_of_bounds :
    (∀ vec : List Nat, vec.get? vec.length = none ∧ lastTokenPacked vec = none) ∧
      lastTokenPacked [getPackedRepr Terrain.plain 0] = none ∧
      0 < [getPackedRepr Terrain.plain 0].length := by
  refine ⟨fun vec => ?_, rfl, by simp⟩
  have hoob : vec.get? vec.length = none := by
    rw [List.get?_eq_none]
  refine ⟨hoob, ?_⟩
  unfold lastTokenPacked
  by_cases h : vec.length > 0
  · rw [if_pos h, hoob]
    rfl
  · rw [if_neg h]

/-- **C6**: in both engines a candidate run is mergeable into the tail iff
the tokens are equal and the candidate's start is ≥ the tail's start; for a
sequence with a tail run, appending with equal token and start ≥ the tail's
start merges (returns false, count unchanged) and appending with a
different token and start ≥ the tail's start pushes (returns true, count
grows by exactly one). -/
theorem c6_merge_rule {T : Type} [DecidableEq T] (a b : IndexedRLE T)
    (w1 w2 : Nat) (vec : List (IndexedRLE T)) (tail run : IndexedRLE T)
    (pvec : List Nat) (ptail prun : Nat) :
    (canAppend a b = true ↔ (a.token = b.token ∧ a.start ≤ b.start)) ∧
    (canAppendPacked w1 w2 = true ↔
      (packedTerrain w1 = packedTerrain w2 ∧ packedStart w1 ≤ packedStart w2)) ∧
    (vec.getLast? = some tail → tail.start ≤ run.start →
      ((tail.token = run.token →
        numRuns (pushRle vec run).1 = numRuns vec ∧ (pushRle vec run).2 = false) ∧
       (tail.token ≠ run.token →
        numRuns (pushRle vec run).1 = numRuns vec + 1 ∧
          (pushRle vec run).2 = true))) ∧
    (pvec.getLast? = some ptail → packedStart ptail ≤ packedStart prun →
      ((packedTerrain ptail = packedTerrain prun →
        numRunsPacked (pushRlePacked pvec prun).1 = numRunsPacked pvec ∧
          (pushRlePacked pvec prun).2 = false) ∧
       (packedTerrain ptail ≠ packedTerrain prun →
        numRunsPacked (pushRlePacked pvec prun).1 = numRunsPacked pvec + 1 ∧
          (pushRlePacked pvec prun).2 = true))) := by
  refine ⟨canAppend_iff a b, by simp [canAppendPacked], ?_, ?_⟩
  · intro hlast hstart
    constructor
    · intro htok
      have hcan : canAppend tail run = true := (canAppend_iff tail run).2 ⟨htok, hstart⟩
      simp [pushRle, hlast, if_pos hcan, numRuns]
    · intro htok
      have hcan : ¬ canAppend tail run = true := by
        intro hcon
        exact htok ((canAppend_iff tail run).1 hcon).1
      simp [pushRle, hlast, if_neg hcan, numRuns]
  · intro hlast hstart
    constructor
    · intro htok
      have hcan : canAppendPacked ptail prun = true := by
        simp [canAppendPacked, htok, hstart]
      simp [pushRlePacked, hlast, if_pos hcan, numRunsPacked]
    · intro htok
      have hcan : ¬ canAppendPacked ptail prun = true := by
        simp [canAppendPacked]
        intro hcon
        exact absurd hcon htok
      simp [pushRlePacked, hlast, if_neg hcan, numRunsPacked]

/-- **C6** witness: a same-token ascending append merges, a different-token
ascending append adds exactly one run. -/
theorem c6_merge_rule_witness :
    numRuns (pushRle [(⟨true, 10⟩ : IndexedRLE Bool)] ⟨true, 20⟩).1 = 1 ∧
    (pushRle [(⟨true, 10⟩ : IndexedRLE Bool)] ⟨true, 20⟩).2 = false ∧
    numRuns (pushRle [(⟨true, 10⟩ : IndexedRLE Bool)] ⟨false, 20⟩).1 = 2 ∧
    (pushRle [(⟨true, 10⟩ : IndexedRLE Bool)] ⟨false, 20⟩).2 = true := by
  have h1 := ((c6_merge_rule (⟨true, 0⟩ : IndexedRLE Bool) ⟨true, 0⟩ 0 0
    [⟨true, 10⟩] ⟨true, 10⟩ ⟨true, 20⟩ [] 0 0).2.2.1 rfl (by decide)).1 rfl
  have h2 := ((c6_merge_rule (⟨true, 0⟩ : IndexedRLE Bool) ⟨true, 0⟩ 0 0
    [⟨true, 10⟩] ⟨true, 10⟩ ⟨false, 20⟩ [] 0 0).2.2.1 rfl (by decide)).2
    (by decide)
  exact ⟨h1.1, h1.2, h2.1, h2.2⟩

/-- The run sequence of the specification's binary-search example, built by
appending runs starting at 10, 14, 27, 29, 30, 51 with tokens
true, false, true, false, true, true. -/
def c5ExampleRuns : List (IndexedRLE Bool) :=
  buildRLE [⟨true, 10⟩, ⟨false, 14⟩, ⟨true, 27⟩, ⟨false, 29⟩, ⟨true, 30⟩,
    ⟨true, 51⟩]

/-- **C5**: on strictly-ascending sequences both engines' lookups return
`none` exactly when the sequence is empty or the index is below the first
start, and otherwise the token of the latest run whose start is ≤ the index
(`latestTokenLE`); the specification's 6-run example answers every query
region as stated. -/
theorem c5_find_correct {T : Type} (vec : List (IndexedRLE T))
    (pvec : List Nat) (i : Nat) (hasc : StartsAscending vec)
    (hpasc : StartsAscending (pvec.map unpackRun)) :
    (findTokenAtIndex vec i = latestTokenLE i vec) ∧
    (findTokenAtIndexPacked pvec i = latestTokenLE i (pvec.map unpackRun)) ∧
    (∀ j : Nat,
      (j < 10 → findTokenAtIndex c5ExampleRuns j = none) ∧
      (10 ≤ j → j < 14 → findTokenAtIndex c5ExampleRuns j = some true) ∧
      (14 ≤ j → j < 27 → findTokenAtIndex c5ExampleRuns j = some false) ∧
      (27 ≤ j → j < 29 → findTokenAtIndex c5ExampleRuns j = some true) ∧
      (29 ≤ j → j < 30 → findTokenAtIndex c5ExampleRuns j = some false) ∧
      (30 ≤ j → findTokenAtIndex c5ExampleRuns j = some true)) := by
  refine ⟨findTokenAtIndex_eq_latest vec hasc i, ?_, ?_⟩
  · rw [findTokenAtIndexPacked_map]
    exact findTokenAtIndex_eq_latest _ hpasc i
  · intro j
    have hruns : c5ExampleRuns =
        [⟨true, 10⟩, ⟨false, 14⟩, ⟨true, 27⟩, ⟨false, 29⟩, ⟨true, 30⟩] := by
      decide
    have hasc5 : StartsAscending
        ([⟨true, 10⟩, ⟨false, 14⟩, ⟨true, 27⟩, ⟨false, 29⟩,
          ⟨true, 30⟩] : List (IndexedRLE Bool)) := by
      unfold StartsAscending
      decide
    have hfind : ∀ k : Nat, findTokenAtIndex c5ExampleRuns k =
        latestTokenLE k [⟨true, 10⟩, ⟨false, 14⟩, ⟨true, 27⟩, ⟨false, 29⟩,
          ⟨true, 30⟩] := by
      intro k
      rw [hruns]
      exact findTokenAtIndex_eq_latest _ hasc5 k
    have hbub : ∀ (r : IndexedRLE Bool) (rest : List (IndexedRLE Bool))
        (t : Bool), r.start ≤ j → latestTokenLE j rest = some t →
        latestTokenLE j (r :: rest) = some t := by
      intro r rest t h1 h2
      rw [latestTokenLE_cons, if_pos h1, h2]
    have hbase : ∀ (r : IndexedRLE Bool) (rest : List (IndexedRLE Bool)),
        r.start ≤ j → latestTokenLE j rest = none →
        latestTokenLE j (r :: rest) = some r.token := by
      intro r rest h1 h2
      rw [latestTokenLE_cons, if_pos h1, h2]
    have hcut : ∀ (r : IndexedRLE Bool) (rest : List (IndexedRLE Bool)),
        j < r.start → latestTokenLE j (r :: rest) = none := by
      intro r rest h1
      rw [latestTokenLE_cons, if_neg (by omega)]
    refine ⟨?_, ?_, ?_, ?_, ?_, ?_⟩
    · intro hj
      rw [hfind j]
      exact hcut _ _ (by simp; omega)
    · intro hj1 hj2
      rw [hfind j]
      exact hbase ⟨true, 10⟩ _ (by simp; omega) (hcut _ _ (by simp; omega))
    · intro hj1 hj2
      rw [hfind j]
      exact hbub _ _ _ (by simp; omega)
        (hbase ⟨false, 14⟩ _ (by simp; omega) (hcut _ _ (by simp; omega)))
    · intro hj1 hj2
      rw [hfind j]
      exact hbub _ _ _ (by simp; omega) (hbub _ _ _ (by simp; omega)
        (hbase ⟨true, 27⟩ _ (by simp; omega) (hcut _ _ (by simp; omega))))
    · intro hj1 hj2
      rw [hfind j]
      exact hbub _ _ _ (by simp; omega) (hbub _ _ _ (by simp; omega)
        (hbub _ _ _ (by simp; omega)
          (hbase ⟨false, 29⟩ _ (by simp; omega) (hcut _ _ (by simp; omega)))))
    · intro hj1
      rw [hfind j]
      exact hbub _ _ _ (by simp; omega) (hbub _ _ _ (by simp; omega)
        (hbub _ _ _ (by simp; omega) (hbub _ _ _ (by simp; omega)
          (hbase ⟨true, 30⟩ _ (by simp; omega) rfl))))

/-- **C5** witness: concrete ascending sequences for both engines. -/
theorem c5_find_correct_witness :
    StartsAscending [(⟨true, 10⟩ : IndexedRLE Bool)] ∧
    StartsAscending ([getPackedRepr Terrain.swamp 5].map unpackRun) ∧
    findTokenAtIndex [(⟨true, 10⟩ : IndexedRLE Bool)] 12 =
      latestTokenLE 12 [(⟨true, 10⟩ : IndexedRLE Bool)] ∧
    findTokenAtIndexPacked [getPackedRepr Terrain.swamp 5] 12 =
      latestTokenLE 12 ([getPackedRepr Terrain.swamp 5].map unpackRun) ∧
    findTokenAtIndex c5ExampleRuns 28 = some true := by
  have h := c5_find_correct [(⟨true, 10⟩ : IndexedRLE Bool)]
    [getPackedRepr Terrain.swamp 5] 12 (by unfold StartsAscending; decide)
    (by unfold StartsAscending; decide)
  exact ⟨by unfold StartsAscending; decide, by unfold StartsAscending; decide,
    h.1, h.2.1, (h.2.2 28).2.2.2.1 (by omega) (by omega)⟩

/-! ## Naive and Packed Run Codecs (`generic_rle_terrain.rs`, `packed_rle_terrain.rs`) -/

/-- `RLERoomTerrain::new_from_uncompressed_terrain` (generic_rle_terrain.rs
lines 17-27): walk linear indices 0..2500 (ROOM_AREA), appending each tile
of the `LocalRoomTerrain` view at its index. -/
def rleNewFromUncompressedTerrain (bits : List Nat) : List (IndexedRLE Terrain) :=
  (List.range 2500).foldl
    (fun vec idx =>
      (appendToken vec
        (localGetXY bits (terrainIndexToXY idx).1 (terrainIndexToXY idx).2) idx).1)
    []

/-- `RLERoomTerrain::new_from_compressed_terrain` (generic_rle_terrain.rs
lines 30-40): the same walk against a Direct Bit-Packed Codec instance. -/
def rleNewFromCompressedTerrain (data : List Nat) : List (IndexedRLE Terrain) :=
  (List.range 2500).foldl
    (fun vec idx =>
      (appendToken vec
        (compressedGetXY data (terrainIndexToXY idx).1 (terrainIndexToXY idx).2) idx).1)
    []

/-- `RLERoomTerrain::get_xy` (generic_rle_terrain.rs lines 43-47): look the
linear index up in the engine.  The source unwraps the result; the `Option`
is kept and proved to be `some _` (theorem for claim C7). -/
def rleGetXYOpt (runs : List (IndexedRLE Terrain)) (x y : Nat) : Option Terrain :=
  findTokenAtIndex runs (xyToTerrainIndex x y)

/-- `PackedRLERoomTerrain::new_from_uncompressed_terrain`
(packed_rle_terrain.rs lines 212-222). -/
def packedRleNewFromUncompressedTerrain (bits : List Nat) : List Nat :=
  (List.range 2500).foldl
    (fun vec idx =>
      (appendTokenPacked vec
        (localGetXY bits (terrainIndexToXY idx).1 (terrainIndexToXY idx).2) idx).1)
    []

/-- `PackedRLERoomTerrain::new_from_compressed_terrain`
(packed_rle_terrain.rs lines 225-235). -/
def packedRleNewFromCompressedTerrain (data : List Nat) : List Nat :=
  (List.range 2500).foldl
    (fun vec idx =>
      (appendTokenPacked vec
        (compressedGetXY data (terrainIndexToXY idx).1 (terrainIndexToXY idx).2) idx).1)
    []

/-- `PackedRLERoomTerrain::get_xy` (packed_rle_terrain.rs lines 238-242),
`Option` kept as for the naive codec. -/
def packedRleGetXYOpt (vec : List Nat) (x y : Nat) : Option Terrain :=
  findTokenAtIndexPacked vec (xyToTerrainIndex x y)

/-! ### The tile streams of the construction paths coincide -/

theorem terrainFrom2Bits_mod (v : Nat) :
    terrainFrom2Bits (v % 4) = terrainFrom2Bits v := by
  unfold terrainFrom2Bits
  rw [Nat.mod_mod_of_dvd v dvd_rfl]

theorem localGetXY_tileOf (bits : List Nat) (idx : Nat) :
    localGetXY bits (terrainIndexToXY idx).1 (terrainIndexToXY idx).2 =
      tileOf bits idx := by
  unfold localGetXY tileOf terrainIndexToXY xyToTerrainIndex
  rw [show idx / 50 * 50 + idx % 50 = idx by omega]

theorem compressedGetXY_tileOf (g : List Nat) (idx : Nat)
    (hlen : g.length = 2500) (hidx : idx < 2500) :
    compressedGetXY (newFromUncompressedBits g) (terrainIndexToXY idx).1
      (terrainIndexToXY idx).2 = tileOf g idx := by
  unfold compressedGetXY terrainIndexToXY
  rw [getUncompressedTerrainByte_encode g (idx % 50) (idx / 50)
    (Nat.mod_lt idx (by omega)) (by omega) hlen]
  rw [show idx / 50 * 50 + idx % 50 = idx by omega]
  exact terrainFrom2Bits_mod _

/-- The (token, start) stream all run codec constructors feed the engines. -/
def tilePairs (tileF : Nat → Terrain) (n : Nat) : List (IndexedRLE Terrain) :=
  (List.range n).map (fun idx => ⟨tileF idx, idx⟩)

theorem tilePairs_asc (tileF : Nat → Terrain) (n : Nat) :
    StartsAscending (tilePairs tileF n) := by
  unfold StartsAscending tilePairs
  rw [List.pairwise_map]
  exact List.pairwise_lt_range n

theorem tilePairs_mem (tileF : Nat → Terrain) (n idx : Nat) (h : idx < n) :
    (⟨tileF idx, idx⟩ : IndexedRLE Terrain) ∈ tilePairs tileF n :=
  List.mem_map.2 ⟨idx, List.mem_range.2 h, rfl⟩

theorem buildRLE_eq_foldl (tileF : Nat → Terrain) (n : Nat) :
    buildRLE (tilePairs tileF n) =
      (List.range n).foldl (fun vec idx => (pushRle vec ⟨tileF idx, idx⟩).1) [] := by
  unfold buildRLE tilePairs
  rw [List.foldl_map]

theorem rleNewFromUncompressed_eq_build (bits : List Nat) :
    rleNewFromUncompressedTerrain bits = buildRLE (tilePairs (tileOf bits) 2500) := by
  rw [buildRLE_eq_foldl]
  unfold rleNewFromUncompressedTerrain appendToken
  exact List.foldl_ext _ _ _ (fun vec idx _ => by rw [localGetXY_tileOf])

theorem rleNewFromCompressed_eq_build (g : List Nat) (hlen : g.length = 2500) :
    rleNewFromCompressedTerrain (newFromUncompressedBits g) =
      buildRLE (tilePairs (tileOf g) 2500) := by
  rw [buildRLE_eq_foldl]
  unfold rleNewFromCompressedTerrain appendToken
  exact List.foldl_ext _ _ _ (fun vec idx hidx => by
    rw [compressedGetXY_tileOf g idx hlen (List.mem_range.1 hidx)])

theorem packedFold_map (tileF : Nat → Terrain) :
    ∀ l : List Nat, (∀ x ∈ l, x < 4096) →
      (l.foldl (fun vec idx => (appendTokenPacked vec (tileF idx) idx).1) []).map
          unpackRun =
        l.foldl (fun vec idx => (pushRle vec ⟨tileF idx, idx⟩).1) [] := by
  intro l
  induction l using List.reverseRecOn with
  | nil => intro _; rfl
  | append_singleton l a ih =>
    intro hb
    have hb' : ∀ x ∈ l, x < 4096 := fun x hx => hb x (by simp [hx])
    have ha : a < 4096 := hb a (by simp)
    rw [List.foldl_append, List.foldl_append, List.foldl_cons, List.foldl_nil,
      List.foldl_cons, List.foldl_nil]
    unfold appendTokenPacked at ih ⊢
    rw [(pushRlePacked_map _ _).1, ih hb', packedRepr_roundtrip (tileF a) a ha]

theorem packedRleNewFromUncompressed_map (bits : List Nat) :
    (packedRleNewFromUncompressedTerrain bits).map unpackRun =
      buildRLE (tilePairs (tileOf bits) 2500) := by
  rw [buildRLE_eq_foldl]
  unfold packedRleNewFromUncompressedTerrain
  rw [List.foldl_ext _
    (fun vec idx => (appendTokenPacked vec (tileOf bits idx) idx).1) []
    (fun vec idx _ => by rw [localGetXY_tileOf])]
  exact packedFold_map (tileOf bits) (List.range 2500)
    (fun x hx => by have := List.mem_range.1 hx; omega)

theorem packedRleNewFromCompressed_map (g : List Nat) (hlen : g.length = 2500) :
    (packedRleNewFromCompressedTerrain (newFromUncompressedBits g)).map unpackRun =
      buildRLE (tilePairs (tileOf g) 2500) := by
  rw [buildRLE_eq_foldl]
  unfold packedRleNewFromCompressedTerrain
  rw [List.foldl_ext _
    (fun vec idx => (appendTokenPacked vec (tileOf g idx) idx).1) []
    (fun vec idx hidx => by
      rw [compressedGetXY_tileOf g idx hlen (List.mem_range.1 hidx)])]
  exact packedFold_map (tileOf g) (List.range 2500)
    (fun x hx => by have := List.mem_range.1 hx; omega)

/-- Lookup at an appended start returns that pair's token. -/
theorem buildRLE_find_at_start {T : Type} [DecidableEq T]
    (ps : List (IndexedRLE T)) (hasc : StartsAscending ps) (p : IndexedRLE T)
    (hp : p ∈ ps) :
    findTokenAtIndex (buildRLE ps) p.start = some p.token := by
  obtain ⟨basc, _, bfind, _, _, _⟩ := buildRLE_spec ps hasc
  rw [findTokenAtIndex_eq_latest _ basc, bfind, latestTokenLE_mem ps hasc p hp]

/-- The engine invariants and totality of lookup, for any tile stream. -/
theorem build_invariants_of_tile (tileF : Nat → Terrain) (n : Nat) (hn : 0 < n) :
    StartsAscending (buildRLE (tilePairs tileF n)) ∧
    NoAdjacentDup (buildRLE (tilePairs tileF n)) ∧
    (∃ t rest, buildRLE (tilePairs tileF n) = ⟨t, 0⟩ :: rest) ∧
    ∀ idx : Nat, idx < n →
      findTokenAtIndex (buildRLE (tilePairs tileF n)) idx = some (tileF idx) := by
  obtain ⟨basc, _, _, bhead, _, bdup⟩ := buildRLE_spec _ (tilePairs_asc tileF n)
  refine ⟨basc, bdup, ?_, ?_⟩
  · have hhead : (tilePairs tileF n).head?.map (fun r => r.start) = some 0 := by
      unfold tilePairs
      rw [List.head?_map, List.head?_range, if_neg (by omega)]
      rfl
    rw [hhead] at bhead
    cases hv : buildRLE (tilePairs tileF n) with
    | nil =>
      rw [hv] at bhead
      simp at bhead
    | cons r rest =>
      rw [hv] at bhead
      simp only [List.head?_cons, Option.map_some] at bhead
      have hr : r.start = 0 := by
        injection bhead
      refine ⟨r.token, rest, ?_⟩
      cases r with
      | mk tok st =>
        simp only at hr
        rw [hr]
  · intro idx hidx
    exact buildRLE_find_at_start _ (tilePairs_asc tileF n) ⟨tileF idx, idx⟩
      (tilePairs_mem tileF n idx hidx)

/-- **C7**: for the Naive and Packed Run Codecs built from a complete grid
by either construction path, the run sequence has strictly ascending
starts, no two consecutive runs share a token, the first run starts at
linear index 0, and the point query finds a run for every position (packed
sequences are stated through their decoded `unpackRun` view). -/
theorem c7_run_codec_invariants (g : List Nat) (hlen : g.length = 2500) :
    (StartsAscending (rleNewFromUncompressedTerrain g) ∧
      NoAdjacentDup (rleNewFromUncompressedTerrain g) ∧
      (∃ t rest, rleNewFromUncompressedTerrain g = ⟨t, 0⟩ :: rest) ∧
      ∀ x y : Nat, x < 50 → y < 50 →
        rleGetXYOpt (rleNewFromUncompressedTerrain g) x y ≠ none) ∧
    (StartsAscending (rleNewFromCompressedTerrain (newFromUncompressedBits g)) ∧
      NoAdjacentDup (rleNewFromCompressedTerrain (newFromUncompressedBits g)) ∧
      (∃ t rest, rleNewFromCompressedTerrain (newFromUncompressedBits g) =
        ⟨t, 0⟩ :: rest) ∧
      ∀ x y : Nat, x < 50 → y < 50 →
        rleGetXYOpt (rleNewFromCompressedTerrain (newFromUncompressedBits g)) x y ≠
          none) ∧
    (StartsAscending ((packedRleNewFromUncompressedTerrain g).map unpackRun) ∧
      NoAdjacentDup ((packedRleNewFromUncompressedTerrain g).map unpackRun) ∧
      (∃ t rest, (packedRleNewFromUncompressedTerrain g).map unpackRun =
        ⟨t, 0⟩ :: rest) ∧
      ∀ x y : Nat, x < 50 → y < 50 →
        packedRleGetXYOpt (packedRleNewFromUncompressedTerrain g) x y ≠ none) ∧
    (StartsAscending
        ((packedRleNewFromCompressedTerrain (newFromUncompressedBits g)).map
          unpackRun) ∧
      NoAdjacentDup
        ((packedRleNewFromCompressedTerrain (newFromUncompressedBits g)).map
          unpackRun) ∧
      (∃ t rest,
        (packedRleNewFromCompressedTerrain (newFromUncompressedBits g)).map
          unpackRun = ⟨t, 0⟩ :: rest) ∧
      ∀ x y : Nat, x < 50 → y < 50 →
        packedRleGetXYOpt
          (packedRleNewFromCompressedTerrain (newFromUncompressedBits g)) x y ≠
          none) := by
  obtain ⟨hasc, hdup, hhead, hfind⟩ := build_invariants_of_tile (tileOf g) 2500
    (by omega)
  have hxyi : ∀ x y : Nat, x < 50 → y < 50 → xyToTerrainIndex x y < 2500 := by
    intro x y hx hy
    unfold xyToTerrainIndex
    omega
  refine ⟨?_, ?_, ?_, ?_⟩
  · rw [rleNewFromUncompressed_eq_build]
    refine ⟨hasc, hdup, hhead, ?_⟩
    intro x y hx hy
    unfold rleGetXYOpt
    rw [hfind _ (hxyi x y hx hy)]
    exact Option.some_ne_none _
  · rw [rleNewFromCompressed_eq_build g hlen]
    refine ⟨hasc, hdup, hhead, ?_⟩
    intro x y hx hy
    unfold rleGetXYOpt
    rw [hfind _ (hxyi x y hx hy)]
    exact Option.some_ne_none _
  · rw [packedRleNewFromUncompressed_map]
    refine ⟨hasc, hdup, hhead, ?_⟩
    intro x y hx hy
    unfold packedRleGetXYOpt
    rw [findTokenAtIndexPacked_map, packedRleNewFromUncompressed_map,
      hfind _ (hxyi x y hx hy)]
    exact Option.some_ne_none _
  · rw [packedRleNewFromCompressed_map g hlen]
    refine ⟨hasc, hdup, hhead, ?_⟩
    intro x y hx hy
    unfold packedRleGetXYOpt
    rw [findTokenAtIndexPacked_map, packedRleNewFromCompressed_map g hlen,
      hfind _ (hxyi x y hx hy)]
    exact Option.some_ne_none _

/-- **C7** witness: the all-Plain grid. -/
theorem c7_run_codec_invariants_witness :
    (List.replicate 2500 0).length = 2500 ∧
      (∃ t rest, rleNewFromUncompressedTerrain (List.replicate 2500 0) =
        ⟨t, 0⟩ :: rest) := by
  refine ⟨by rw [List.length_replicate], ?_⟩
  exact (c7_run_codec_invariants (List.replicate 2500 0)
    (by rw [List.length_replicate])).1.2.2.1

/-! ## Wildcard Run Codec (`wildcard_rle_terrain.rs`) -/

/-- The local state of the Wildcard construction loops: the packed run data
plus the four growing edge terrain lists (wildcard_rle_terrain.rs lines
24-28 and 89-93). -/
structure WildcardState where
  data : List Nat
  top : List Terrain
  right : List Terrain
  bottom : List Terrain
  left : List Terrain

theorem WildcardState.ext' (a b : WildcardState) (h1 : a.data = b.data)
    (h2 : a.top = b.top) (h3 : a.right = b.right) (h4 : a.bottom = b.bottom)
    (h5 : a.left = b.left) : a = b := by
  cases a
  cases b
  simp only at h1 h2 h3 h4 h5
  rw [h1, h2, h3, h4, h5]

/-- One iteration of `WildcardRLERoomTerrain::new_from_uncompressed_terrain`
(wildcard_rle_terrain.rs lines 30-79): edge tiles are bucketed into their
edge's list (corners as Wall into both adjacent lists), non-edge tiles are
appended to the packed run data. -/
def wildcardStepUncompressed (tile : Terrain) (idx : Nat)
    (st : WildcardState) : WildcardState :=
  let x := (terrainIndexToXY idx).1
  let y := (terrainIndexToXY idx).2
  if isRoomEdge x y then
    if x = 0 ∧ y = 0 then
      { st with top := st.top ++ [Terrain.wall], left := st.left ++ [Terrain.wall] }
    else if x = 0 ∧ y = 49 then
      { st with bottom := st.bottom ++ [Terrain.wall], left := st.left ++ [Terrain.wall] }
    else if x = 49 ∧ y = 0 then
      { st with top := st.top ++ [Terrain.wall], right := st.right ++ [Terrain.wall] }
    else if x = 49 ∧ y = 49 then
      { st with bottom := st.bottom ++ [Terrain.wall], right := st.right ++ [Terrain.wall] }
    else if 1 ≤ x ∧ x ≤ 48 ∧ y = 0 then
      { st with top := st.top ++ [tile] }
    else if 1 ≤ x ∧ x ≤ 48 ∧ y = 49 then
      { st with bottom := st.bottom ++ [tile] }
    else if x = 0 ∧ 1 ≤ y ∧ y ≤ 48 then
      { st with left := st.left ++ [tile] }
    else if x = 49 ∧ 1 ≤ y ∧ y ≤ 48 then
      { st with right := st.right ++ [tile] }
    else st
  else
    { st with data := (appendTokenPacked st.data tile idx).1 }

/-- One iteration of `WildcardRLERoomTerrain::new_from_compressed_terrain`
(wildcard_rle_terrain.rs lines 95-144).  Note the deviation from the
uncompressed constructor: the arms for non-corner top tiles `(1..=48, 0)`
and non-corner bottom tiles `(1..=48, 49)` (lines 121-128) push into the
LEFT and RIGHT lists respectively. -/
def wildcardStepCompressed (tile : Terrain) (idx : Nat)
    (st : WildcardState) : WildcardState :=
  let x := (terrainIndexToXY idx).1
  let y := (terrainIndexToXY idx).2
  if isRoomEdge x y then
    if x = 0 ∧ y = 0 then
      { st with top := st.top ++ [Terrain.wall], left := st.left ++ [Terrain.wall] }
    else if x = 0 ∧ y = 49 then
      { st with bottom := st.bottom ++ [Terrain.wall], left := st.left ++ [Terrain.wall] }
    else if x = 49 ∧ y = 0 then
      { st with top := st.top ++ [Terrain.wall], right := st.right ++ [Terrain.wall] }
    else if x = 49 ∧ y = 49 then
      { st with bottom := st.bottom ++ [Terrain.wall], right := st.right ++ [Terrain.wall] }
    else if 1 ≤ x ∧ x ≤ 48 ∧ y = 0 then
      { st with left := st.left ++ [tile] }
    else if 1 ≤ x ∧ x ≤ 48 ∧ y = 49 then
      { st with right := st.right ++ [tile] }
    else if x = 0 ∧ 1 ≤ y ∧ y ≤ 48 then
      { st with left := st.left ++ [tile] }
    else if x = 49 ∧ 1 ≤ y ∧ y ≤ 48 then
      { st with right := st.right ++ [tile] }
    else st
  else
    { st with data := (appendTokenPacked st.data tile idx).1 }

/-- The construction loop of `new_from_uncompressed_terrain`. -/
def wildcardFoldUncompressed (bits : List Nat) : WildcardState :=
  (List.range 2500).foldl
    (fun st idx =>
      wildcardStepUncompressed
        (localGetXY bits (terrainIndexToXY idx).1 (terrainIndexToXY idx).2) idx st)
    ⟨[], [], [], [], []⟩

/-- The construction loop of `new_from_compressed_terrain`. -/
def wildcardFoldCompressed (data : List Nat) : WildcardState :=
  (List.range 2500).foldl
    (fun st idx =>
      wildcardStepCompressed
        (compressedGetXY data (terrainIndexToXY idx).1 (terrainIndexToXY idx).2) idx st)
    ⟨[], [], [], [], []⟩

/-- The final edge assembly (wildcard_rle_terrain.rs lines 82 and 147):
`new_from_terrain_slices(...).unwrap_or(new_from_raw_bytes([0u8; 24]))`. -/
def wildcardAssembleEdge (st : WildcardState) : List Nat :=
  match newFromTerrainSlices st.top st.right st.bottom st.left with
  | .ok data => data
  | .error _ => List.replicate 24 0

/-- `WildcardRLERoomTerrain::new_from_uncompressed_terrain`: the packed run
data together with the assembled edge store. -/
def wildcardNewFromUncompressedTerrain (bits : List Nat) : List Nat × List Nat :=
  ((wildcardFoldUncompressed bits).data,
    wildcardAssembleEdge (wildcardFoldUncompressed bits))

/-- `WildcardRLERoomTerrain::new_from_compressed_terrain`. -/
def wildcardNewFromCompressedTerrain (data : List Nat) : List Nat × List Nat :=
  ((wildcardFoldCompressed data).data,
    wildcardAssembleEdge (wildcardFoldCompressed data))

/-- `WildcardRLERoomTerrain::get_xy` (wildcard_rle_terrain.rs lines
153-161): edge positions delegate to the edge store with Wall as the
default for a missing answer; non-edge positions query the packed run
engine (whose unwrap is modelled by keeping the `Option`). -/
def wildcardGetXY (w : List Nat × List Nat) (x y : Nat) : Option Terrain :=
  if isRoomEdge x y then some ((edgeGetXY w.2 x y).getD Terrain.wall)
  else findTokenAtIndexPacked w.1 (xyToTerrainIndex x y)

/-! ### What each construction step pushes onto each edge list -/

/-- Tile pushed to the top list at linear index `idx` by the uncompressed
construction. -/
def wTopU (tile : Terrain) (idx : Nat) : Option Terrain :=
  if (idx % 50 = 0 ∧ idx / 50 = 0) ∨ (idx % 50 = 49 ∧ idx / 50 = 0) then
    some Terrain.wall
  else if 1 ≤ idx % 50 ∧ idx % 50 ≤ 48 ∧ idx / 50 = 0 then some tile
  else none

/-- Tile pushed to the right list at `idx` (uncompressed construction). -/
def wRightU (tile : Terrain) (idx : Nat) : Option Terrain :=
  if (idx % 50 = 49 ∧ idx / 50 = 0) ∨ (idx % 50 = 49 ∧ idx / 50 = 49) then
    some Terrain.wall
  else if idx % 50 = 49 ∧ 1 ≤ idx / 50 ∧ idx / 50 ≤ 48 then some tile
  else none

/-- Tile pushed to the bottom list at `idx` (uncompressed construction). -/
def wBottomU (tile : Terrain) (idx : Nat) : Option Terrain :=
  if (idx % 50 = 0 ∧ idx / 50 = 49) ∨ (idx % 50 = 49 ∧ idx / 50 = 49) then
    some Terrain.wall
  else if 1 ≤ idx % 50 ∧ idx % 50 ≤ 48 ∧ idx / 50 = 49 then some tile
  else none

/-- Tile pushed to the left list at `idx` (uncompressed construction). -/
def wLeftU (tile : Terrain) (idx : Nat) : Option Terrain :=
  if (idx % 50 = 0 ∧ idx / 50 = 0) ∨ (idx % 50 = 0 ∧ idx / 50 = 49) then
    some Terrain.wall
  else if idx % 50 = 0 ∧ 1 ≤ idx / 50 ∧ idx / 50 ≤ 48 then some tile
  else none

/-- Tile pushed to the top list at `idx` by the compressed construction:
only the two top corners (the non-corner top tiles go to the left list). -/
def wTopC (idx : Nat) : Option Terrain :=
  if (idx % 50 = 0 ∧ idx / 50 = 0) ∨ (idx % 50 = 49 ∧ idx / 50 = 0) then
    some Terrain.wall
  else none

/-- Tile pushed to the right list at `idx` (compressed construction): both
right-corner Walls, the right-edge tiles, and the non-corner bottom tiles. -/
def wRightC (tile : Terrain) (idx : Nat) : Option Terrain :=
  if (idx % 50 = 49 ∧ idx / 50 = 0) ∨ (idx % 50 = 49 ∧ idx / 50 = 49) then
    some Terrain.wall
  else if 1 ≤ idx % 50 ∧ idx % 50 ≤ 48 ∧ idx / 50 = 49 then some tile
  else if idx % 50 = 49 ∧ 1 ≤ idx / 50 ∧ idx / 50 ≤ 48 then some tile
  else none

/-- Tile pushed to the bottom list at `idx` (compressed construction):
only the two bottom corners. -/
def wBottomC (idx : Nat) : Option Terrain :=
  if (idx % 50 = 0 ∧ idx / 50 = 49) ∨ (idx % 50 = 49 ∧ idx / 50 = 49) then
    some Terrain.wall
  else none

/-- Tile pushed to the left list at `idx` (compressed construction): both
left-corner Walls, the non-corner top tiles, and the left-edge tiles. -/
def wLeftC (tile : Terrain) (idx : Nat) : Option Terrain :=
  if (idx % 50 = 0 ∧ idx / 50 = 0) ∨ (idx % 50 = 0 ∧ idx / 50 = 49) then
    some Terrain.wall
  else if 1 ≤ idx % 50 ∧ idx % 50 ≤ 48 ∧ idx / 50 = 0 then some tile
  else if idx % 50 = 0 ∧ 1 ≤ idx / 50 ∧ idx / 50 ≤ 48 then some tile
  else none

/-! ### Step characterization: each step appends exactly the selector output -/

theorem wildcardStepUncompressed_eq (t : Terrain) (idx : Nat)
    (st : WildcardState) :
    wildcardStepUncompressed t idx st =
      { data := if isRoomEdge (idx % 50) (idx / 50) then st.data
                else (appendTokenPacked st.data t idx).1,
        top := st.top ++ (wTopU t idx).toList,
        right := st.right ++ (wRightU t idx).toList,
        bottom := st.bottom ++ (wBottomU t idx).toList,
        left := st.left ++ (wLeftU t idx).toList } := by
  simp only [wildcardStepUncompressed, terrainIndexToXY]
  by_cases e0 : idx % 50 = 0 <;>
    by_cases e49 : idx % 50 = 49 <;>
      by_cases f0 : idx / 50 = 0 <;>
        by_cases f49 : idx / 50 = 49 <;>
          by_cases fle : idx / 50 ≤ 48 <;>
            try (exfalso; omega)
  all_goals try have hx1 : 1 ≤ idx % 50 := by omega
  all_goals try have hx48 : idx % 50 ≤ 48 := by omega
  all_goals try have hy1 : 1 ≤ idx / 50 := by omega
  all_goals try have hy48 : idx / 50 ≤ 48 := by omega
  all_goals simp_all [isRoomEdge, wTopU, wRightU, wBottomU, wLeftU]
  all_goals simp only [if_neg (by omega : ¬ idx / 50 ≤ 48), Option.toList_none,
    List.append_nil]

theorem wildcardStepCompressed_eq (t : Terrain) (idx : Nat)
    (st : WildcardState) :
    wildcardStepCompressed t idx st =
      { data := if isRoomEdge (idx % 50) (idx / 50) then st.data
                else (appendTokenPacked st.data t idx).1,
        top := st.top ++ (wTopC idx).toList,
        right := st.right ++ (wRightC t idx).toList,
        bottom := st.bottom ++ (wBottomC idx).toList,
        left := st.left ++ (wLeftC t idx).toList } := by
  simp only [wildcardStepCompressed, terrainIndexToXY]
  by_cases e0 : idx % 50 = 0 <;>
    by_cases e49 : idx % 50 = 49 <;>
      by_cases f0 : idx / 50 = 0 <;>
        by_cases f49 : idx / 50 = 49 <;>
          by_cases fle : idx / 50 ≤ 48 <;>
            try (exfalso; omega)
  all_goals try have hx1 : 1 ≤ idx % 50 := by omega
  all_goals try have hx48 : idx % 50 ≤ 48 := by omega
  all_goals try have hy1 : 1 ≤ idx / 50 := by omega
  all_goals try have hy48 : idx / 50 ≤ 48 := by omega
  all_goals simp_all [isRoomEdge, wTopC, wRightC, wBottomC, wLeftC]
  all_goals simp only [if_neg (by omega : ¬ idx / 50 ≤ 48), Option.toList_none,
    List.append_nil]

/-- The condition under which a linear index is appended to the wildcard run
data rather than an edge list. -/
def isInteriorIdx (idx : Nat) : Bool :=
  !(isRoomEdge (idx % 50) (idx / 50))

theorem wildcardFoldU_decompose (tileF : Nat → Terrain) :
    ∀ (l : List Nat) (st : WildcardState),
      List.foldl (fun st idx => wildcardStepUncompressed (tileF idx) idx st) st l =
        { data := (l.filter isInteriorIdx).foldl
            (fun vec idx => (appendTokenPacked vec (tileF idx) idx).1) st.data,
          top := st.top ++ l.filterMap (fun idx => wTopU (tileF idx) idx),
          right := st.right ++ l.filterMap (fun idx => wRightU (tileF idx) idx),
          bottom := st.bottom ++ l.filterMap (fun idx => wBottomU (tileF idx) idx),
          left := st.left ++ l.filterMap (fun idx => wLeftU (tileF idx) idx) } := by
  intro l
  induction l with
  | nil => intro st; simp
  | cons a l ih =>
    intro st
    simp only [List.foldl_cons]
    rw [ih, wildcardStepUncompressed_eq]
    refine WildcardState.ext' _ _ ?_ ?_ ?_ ?_ ?_
    · simp only [List.filter_cons, isInteriorIdx]
      by_cases hEdge : isRoomEdge (a % 50) (a / 50) = true
      · simp [hEdge]
      · simp only [Bool.not_eq_true] at hEdge
        simp [hEdge]
    · cases hsel : wTopU (tileF a) a <;>
        simp [List.filterMap_cons, hsel, List.append_assoc]
    · cases hsel : wRightU (tileF a) a <;>
        simp [List.filterMap_cons, hsel, List.append_assoc]
    · cases hsel : wBottomU (tileF a) a <;>
        simp [List.filterMap_cons, hsel, List.append_assoc]
    · cases hsel : wLeftU (tileF a) a <;>
        simp [List.filterMap_cons, hsel, List.append_assoc]

theorem wildcardFoldC_decompose (tileF : Nat → Terrain) :
    ∀ (l : List Nat) (st : WildcardState),
      List.foldl (fun st idx => wildcardStepCompressed (tileF idx) idx st) st l =
        { data := (l.filter isInteriorIdx).foldl
            (fun vec idx => (appendTokenPacked vec (tileF idx) idx).1) st.data,
          top := st.top ++ l.filterMap (fun idx => wTopC idx),
          right := st.right ++ l.filterMap (fun idx => wRightC (tileF idx) idx),
          bottom := st.bottom ++ l.filterMap (fun idx => wBottomC idx),
          left := st.left ++ l.filterMap (fun idx => wLeftC (tileF idx) idx) } := by
  intro l
  induction l with
  | nil => intro st; simp
  | cons a l ih =>
    intro st
    simp only [List.foldl_cons]
    rw [ih, wildcardStepCompressed_eq]
    refine WildcardState.ext' _ _ ?_ ?_ ?_ ?_ ?_
    · simp only [List.filter_cons, isInteriorIdx]
      by_cases hEdge : isRoomEdge (a % 50) (a / 50) = true
      · simp [hEdge]
      · simp only [Bool.not_eq_true] at hEdge
        simp [hEdge]
    · cases hsel : wTopC a <;>
        simp [List.filterMap_cons, hsel, List.append_assoc]
    · cases hsel : wRightC (tileF a) a <;>
        simp [List.filterMap_cons, hsel, List.append_assoc]
    · cases hsel : wBottomC a <;>
        simp [List.filterMap_cons, hsel, List.append_assoc]
    · cases hsel : wLeftC (tileF a) a <;>
        simp [List.filterMap_cons, hsel, List.append_assoc]

/-! ### List and range helpers for evaluating the construction folds -/

theorem filterMap_eq_nil_of (f : Nat → Option Terrain) :
    ∀ l : List Nat, (∀ x ∈ l, f x = none) → l.filterMap f = [] := by
  intro l
  induction l with
  | nil => intro _; rfl
  | cons a l ih =>
    intro h
    rw [List.filterMap_cons_none (h a (by simp))]
    exact ih (fun x hx => h x (by simp [hx]))

theorem filterMap_eq_map_of (f : Nat → Option Terrain) (g : Nat → Terrain) :
    ∀ l : List Nat, (∀ x ∈ l, f x = some (g x)) → l.filterMap f = l.map g := by
  intro l
  induction l with
  | nil => intro _; rfl
  | cons a l ih =>
    intro h
    rw [List.filterMap_cons_some (h a (by simp)), List.map_cons]
    exact congrArg (fun t => g a :: t) (ih (fun x hx => h x (by simp [hx])))

theorem filterMap_flatten' (f : Nat → Option Terrain) :
    ∀ L : List (List Nat),
      L.flatten.filterMap f = (L.map (fun l => l.filterMap f)).flatten := by
  intro L
  induction L with
  | nil => rfl
  | cons a L ih => simp only [List.flatten_cons, List.filterMap_append,
      List.map_cons, ih]

theorem flatten_singleton_map (g : Nat → Terrain) :
    ∀ l : List Nat, (l.map (fun r => [g r])).flatten = l.map g := by
  intro l
  induction l with
  | nil => rfl
  | cons a l ih => simp only [List.map_cons, List.flatten_cons, ih,
      List.singleton_append]

theorem range'_split (s m n : Nat) :
    List.range' s (m + n) = List.range' s m ++ List.range' (s + m) n := by
  have h := List.range'_append s m n 1
  rw [one_mul] at h
  rw [Nat.add_comm m n]
  exact h.symm

theorem range'_row (s : Nat) :
    List.range' s 50 = s :: (List.range' (s + 1) 48 ++ [s + 49]) := by
  have h1 := List.range'_succ s 49 1
  norm_num at h1
  have h2 := range'_split (s + 1) 48 1
  norm_num at h2
  rw [h1, h2, show s + 1 + 48 = s + 49 by omega]

theorem range'_rows : ∀ (k r0 : Nat),
    ((List.range' r0 k).map (fun r => List.range' (50 * r) 50)).flatten =
      List.range' (50 * r0) (50 * k) := by
  intro k
  induction k with
  | zero => intro r0; simp
  | succ k ih =>
    intro r0
    have hsucc := List.range'_succ r0 k 1
    rw [hsucc, List.map_cons, List.flatten_cons, ih (r0 + 1)]
    have hsplit := range'_split (50 * r0) 50 (50 * k)
    rw [show 50 * (r0 + 1) = 50 * r0 + 50 by ring,
      show 50 * (k + 1) = 50 + 50 * k by ring]
    exact hsplit.symm

theorem range2500_eq :
    List.range 2500 =
      List.range' 0 50 ++ (List.range' 50 2400 ++ List.range' 2450 50) := by
  have h1 := range'_split 0 50 2450
  have h2 := range'_split 50 2400 50
  norm_num at h1 h2
  rw [List.range_eq_range', h1, h2]

theorem range050_eq : List.range' 0 50 = 0 :: (List.range' 1 48 ++ [49]) := by
  have h := range'_row 0
  norm_num at h
  exact h

theorem range2450_eq :
    List.range' 2450 50 = 2450 :: (List.range' 2451 48 ++ [2499]) := by
  have h := range'_row 2450
  norm_num at h
  exact h

theorem mid2400_eq :
    List.range' 50 2400 =
      ((List.range' 1 48).map (fun r => List.range' (50 * r) 50)).flatten := by
  have h := range'_rows 48 1
  norm_num at h
  exact h.symm

/-! ### Closed forms of the four edge lists, uncompressed construction -/

/-- The top edge list produced by the uncompressed wildcard construction. -/
def wTopListU (tileF : Nat → Terrain) : List Terrain :=
  Terrain.wall :: ((List.range' 1 48).map tileF ++ [Terrain.wall])

/-- The right edge list produced by the uncompressed wildcard construction. -/
def wRightListU (tileF : Nat → Terrain) : List Terrain :=
  Terrain.wall :: ((List.range' 1 48).map (fun r => tileF (50 * r + 49)) ++
    [Terrain.wall])

/-- The bottom edge list produced by the uncompressed wildcard construction. -/
def wBottomListU (tileF : Nat → Terrain) : List Terrain :=
  Terrain.wall :: ((List.range' 2451 48).map tileF ++ [Terrain.wall])

/-- The left edge list produced by the uncompressed wildcard construction. -/
def wLeftListU (tileF : Nat → Terrain) : List Terrain :=
  Terrain.wall :: ((List.range' 1 48).map (fun r => tileF (50 * r)) ++
    [Terrain.wall])

/-- The left edge list produced by the compressed wildcard construction:
the non-corner top tiles land here before the true left-edge tiles. -/
def wLeftListC (tileF : Nat → Terrain) : List Terrain :=
  Terrain.wall :: ((List.range' 1 48).map tileF ++
    ((List.range' 1 48).map (fun r => tileF (50 * r)) ++ [Terrain.wall]))

/-- The right edge list produced by the compressed wildcard construction:
the true right-edge tiles are followed by the non-corner bottom tiles. -/
def wRightListC (tileF : Nat → Terrain) : List Terrain :=
  Terrain.wall :: ((List.range' 1 48).map (fun r => tileF (50 * r + 49)) ++
    ((List.range' 2451 48).map tileF ++ [Terrain.wall]))

theorem filterMap_wTopU (tileF : Nat → Terrain) :
    (List.range 2500).filterMap (fun idx => wTopU (tileF idx) idx) =
      wTopListU tileF := by
  rw [range2500_eq, List.filterMap_append, List.filterMap_append]
  have hp1 : (List.range' 0 50).filterMap (fun idx => wTopU (tileF idx) idx) =
      Terrain.wall :: ((List.range' 1 48).map tileF ++ [Terrain.wall]) := by
    rw [range050_eq]
    have hA : wTopU (tileF (0)) (0) = some Terrain.wall := by
      simp [wTopU]
    have hB : (List.range' 1 48).filterMap (fun idx => wTopU (tileF idx) idx) =
        (List.range' 1 48).map tileF :=
      filterMap_eq_map_of _ _ _ (fun x hx => by
        rw [List.mem_range'_1] at hx
        simp only [wTopU]
        rw [if_neg (by omega : ¬((x % 50 = 0 ∧ x / 50 = 0) ∨ (x % 50 = 49 ∧ x / 50 = 0))),
          if_pos (by omega : 1 ≤ x % 50 ∧ x % 50 ≤ 48 ∧ x / 50 = 0)])
    have hC : wTopU (tileF (49)) (49) = some Terrain.wall := by
      simp [wTopU]
    simp only [List.filterMap_cons, hA, List.filterMap_append, hB, hC,
      List.filterMap_nil, List.append_nil, List.nil_append]
  have hp2 : (List.range' 50 2400).filterMap (fun idx => wTopU (tileF idx) idx) = [] :=
    filterMap_eq_nil_of _ _ (fun x hx => by
      rw [List.mem_range'_1] at hx
      simp only [wTopU]
      rw [if_neg (by omega : ¬((x % 50 = 0 ∧ x / 50 = 0) ∨ (x % 50 = 49 ∧ x / 50 = 0))),
        if_neg (by omega : ¬(1 ≤ x % 50 ∧ x % 50 ≤ 48 ∧ x / 50 = 0))])
  have hp3 : (List.range' 2450 50).filterMap (fun idx => wTopU (tileF idx) idx) = [] :=
    filterMap_eq_nil_of _ _ (fun x hx => by
      rw [List.mem_range'_1] at hx
      simp only [wTopU]
      rw [if_neg (by omega : ¬((x % 50 = 0 ∧ x / 50 = 0) ∨ (x % 50 = 49 ∧ x / 50 = 0))),
        if_neg (by omega : ¬(1 ≤ x % 50 ∧ x % 50 ≤ 48 ∧ x / 50 = 0))])
  rw [hp1, hp2, hp3, wTopListU]
  simp

theorem filterMap_wRightU (tileF : Nat → Terrain) :
    (List.range 2500).filterMap (fun idx => wRightU (tileF idx) idx) =
      wRightListU tileF := by
  rw [range2500_eq, List.filterMap_append, List.filterMap_append]
  have hp1 : (List.range' 0 50).filterMap (fun idx => wRightU (tileF idx) idx) =
      [Terrain.wall] := by
    rw [range050_eq]
    have hA : wRightU (tileF (0)) (0) = none := by
      simp [wRightU]
    have hB : (List.range' 1 48).filterMap (fun idx => wRightU (tileF idx) idx) = [] :=
      filterMap_eq_nil_of _ _ (fun x hx => by
        rw [List.mem_range'_1] at hx
        simp only [wRightU]
        rw [if_neg (by omega : ¬((x % 50 = 49 ∧ x / 50 = 0) ∨ (x % 50 = 49 ∧ x / 50 = 49))),
          if_neg (by omega : ¬(x % 50 = 49 ∧ 1 ≤ x / 50 ∧ x / 50 ≤ 48))])
    have hC : wRightU (tileF (49)) (49) = some Terrain.wall := by
      simp [wRightU]
    simp only [List.filterMap_cons, hA, List.filterMap_append, hB, hC,
      List.filterMap_nil, List.append_nil, List.nil_append]
  have hrow : ∀ r ∈ List.range' 1 48,
      (List.range' (50 * r) 50).filterMap (fun idx => wRightU (tileF idx) idx) =
        [tileF (50 * r + 49)] := by
    intro r hr
    rw [List.mem_range'_1] at hr
    rw [range'_row (50 * r)]
    have hA : wRightU (tileF (50 * r)) (50 * r) = none := by
      simp only [wRightU]
      rw [if_neg (by omega : ¬((50 * r % 50 = 49 ∧ 50 * r / 50 = 0) ∨ (50 * r % 50 = 49 ∧ 50 * r / 50 = 49))),
        if_neg (by omega : ¬(50 * r % 50 = 49 ∧ 1 ≤ 50 * r / 50 ∧ 50 * r / 50 ≤ 48))]
    have hB : (List.range' (50 * r + 1) 48).filterMap (fun idx => wRightU (tileF idx) idx) = [] :=
      filterMap_eq_nil_of _ _ (fun x hx => by
        rw [List.mem_range'_1] at hx
        simp only [wRightU]
        rw [if_neg (by omega : ¬((x % 50 = 49 ∧ x / 50 = 0) ∨ (x % 50 = 49 ∧ x / 50 = 49))),
          if_neg (by omega : ¬(x % 50 = 49 ∧ 1 ≤ x / 50 ∧ x / 50 ≤ 48))])
    have hC : wRightU (tileF ((50 * r + 49))) ((50 * r + 49)) = some (tileF (50 * r + 49)) := by
      simp only [wRightU]
      rw [if_neg (by omega : ¬(((50 * r + 49) % 50 = 49 ∧ (50 * r + 49) / 50 = 0) ∨ ((50 * r + 49) % 50 = 49 ∧ (50 * r + 49) / 50 = 49))),
        if_pos (by omega : (50 * r + 49) % 50 = 49 ∧ 1 ≤ (50 * r + 49) / 50 ∧ (50 * r + 49) / 50 ≤ 48)]
    simp only [List.filterMap_cons, hA, List.filterMap_append, hB, hC,
      List.filterMap_nil, List.append_nil, List.nil_append]
  have hp2 : (List.range' 50 2400).filterMap (fun idx => wRightU (tileF idx) idx) =
      (List.range' 1 48).map (fun r => tileF (50 * r + 49)) := by
    rw [mid2400_eq, filterMap_flatten', List.map_map]
    rw [List.map_congr_left (fun r hr => by
      show ((fun l => l.filterMap (fun idx => wRightU (tileF idx) idx)) ∘
        (fun r => List.range' (50 * r) 50)) r = [tileF (50 * r + 49)]
      exact hrow r hr)]
    exact flatten_singleton_map _ _
  have hp3 : (List.range' 2450 50).filterMap (fun idx => wRightU (tileF idx) idx) =
      [Terrain.wall] := by
    rw [range2450_eq]
    have hA : wRightU (tileF (2450)) (2450) = none := by
      simp [wRightU]
    have hB : (List.range' 2451 48).filterMap (fun idx => wRightU (tileF idx) idx) = [] :=
      filterMap_eq_nil_of _ _ (fun x hx => by
        rw [List.mem_range'_1] at hx
        simp only [wRightU]
        rw [if_neg (by omega : ¬((x % 50 = 49 ∧ x / 50 = 0) ∨ (x % 50 = 49 ∧ x / 50 = 49))),
          if_neg (by omega : ¬(x % 50 = 49 ∧ 1 ≤ x / 50 ∧ x / 50 ≤ 48))])
    have hC : wRightU (tileF (2499)) (2499) = some Terrain.wall := by
      simp [wRightU]
    simp only [List.filterMap_cons, hA, List.filterMap_append, hB, hC,
      List.filterMap_nil, List.append_nil, List.nil_append]
  rw [hp1, hp2, hp3, wRightListU]
  simp

theorem filterMap_wBottomU (tileF : Nat → Terrain) :
    (List.range 2500).filterMap (fun idx => wBottomU (tileF idx) idx) =
      wBottomListU tileF := by
  rw [range2500_eq, List.filterMap_append, List.filterMap_append]
  have hp1 : (List.range' 0 50).filterMap (fun idx => wBottomU (tileF idx) idx) = [] :=
    filterMap_eq_nil_of _ _ (fun x hx => by
      rw [List.mem_range'_1] at hx
      simp only [wBottomU]
      rw [if_neg (by omega : ¬((x % 50 = 0 ∧ x / 50 = 49) ∨ (x % 50 = 49 ∧ x / 50 = 49))),
        if_neg (by omega : ¬(1 ≤ x % 50 ∧ x % 50 ≤ 48 ∧ x / 50 = 49))])
  have hp2 : (List.range' 50 2400).filterMap (fun idx => wBottomU (tileF idx) idx) = [] :=
    filterMap_eq_nil_of _ _ (fun x hx => by
      rw [List.mem_range'_1] at hx
      simp only [wBottomU]
      rw [if_neg (by omega : ¬((x % 50 = 0 ∧ x / 50 = 49) ∨ (x % 50 = 49 ∧ x / 50 = 49))),
        if_neg (by omega : ¬(1 ≤ x % 50 ∧ x % 50 ≤ 48 ∧ x / 50 = 49))])
  have hp3 : (List.range' 2450 50).filterMap (fun idx => wBottomU (tileF idx) idx) =
      Terrain.wall :: ((List.range' 2451 48).map tileF ++ [Terrain.wall]) := by
    rw [range2450_eq]
    have hA : wBottomU (tileF (2450)) (2450) = some Terrain.wall := by
      simp [wBottomU]
    have hB : (List.range' 2451 48).filterMap (fun idx => wBottomU (tileF idx) idx) =
        (List.range' 2451 48).map tileF :=
      filterMap_eq_map_of _ _ _ (fun x hx => by
        rw [List.mem_range'_1] at hx
        simp only [wBottomU]
        rw [if_neg (by omega : ¬((x % 50 = 0 ∧ x / 50 = 49) ∨ (x % 50 = 49 ∧ x / 50 = 49))),
          if_pos (by omega : 1 ≤ x % 50 ∧ x % 50 ≤ 48 ∧ x / 50 = 49)])
    have hC : wBottomU (tileF (2499)) (2499) = some Terrain.wall := by
      simp [wBottomU]
    simp only [List.filterMap_cons, hA, List.filterMap_append, hB, hC,
      List.filterMap_nil, List.append_nil, List.nil_append]
  rw [hp1, hp2, hp3, wBottomListU]
  simp

theorem filterMap_wLeftU (tileF : Nat → Terrain) :
    (List.range 2500).filterMap (fun idx => wLeftU (tileF idx) idx) =
      wLeftListU tileF := by
  rw [range2500_eq, List.filterMap_append, List.filterMap_append]
  have hp1 : (List.range' 0 50).filterMap (fun idx => wLeftU (tileF idx) idx) =
      [Terrain.wall] := by
    rw [range050_eq]
    have hA : wLeftU (tileF (0)) (0) = some Terrain.wall := by
      simp [wLeftU]
    have hB : (List.range' 1 48).filterMap (fun idx => wLeftU (tileF idx) idx) = [] :=
      filterMap_eq_nil_of _ _ (fun x hx => by
        rw [List.mem_range'_1] at hx
        simp only [wLeftU]
        rw [if_neg (by omega : ¬((x % 50 = 0 ∧ x / 50 = 0) ∨ (x % 50 = 0 ∧ x / 50 = 49))),
          if_neg (by omega : ¬(x % 50 = 0 ∧ 1 ≤ x / 50 ∧ x / 50 ≤ 48))])
    have hC : wLeftU (tileF (49)) (49) = none := by
      simp [wLeftU]
    simp only [List.filterMap_cons, hA, List.filterMap_append, hB, hC,
      List.filterMap_nil, List.append_nil, List.nil_append]
  have hrow : ∀ r ∈ List.range' 1 48,
      (List.range' (50 * r) 50).filterMap (fun idx => wLeftU (tileF idx) idx) =
        [tileF (50 * r)] := by
    intro r hr
    rw [List.mem_range'_1] at hr
    rw [range'_row (50 * r)]
    have hA : wLeftU (tileF (50 * r)) (50 * r) = some (tileF (50 * r)) := by
      simp only [wLeftU]
      rw [if_neg (by omega : ¬((50 * r % 50 = 0 ∧ 50 * r / 50 = 0) ∨ (50 * r % 50 = 0 ∧ 50 * r / 50 = 49))),
        if_pos (by omega : 50 * r % 50 = 0 ∧ 1 ≤ 50 * r / 50 ∧ 50 * r / 50 ≤ 48)]
    have hB : (List.range' (50 * r + 1) 48).filterMap (fun idx => wLeftU (tileF idx) idx) = [] :=
      filterMap_eq_nil_of _ _ (fun x hx => by
        rw [List.mem_range'_1] at hx
        simp only [wLeftU]
        rw [if_neg (by omega : ¬((x % 50 = 0 ∧ x / 50 = 0) ∨ (x % 50 = 0 ∧ x / 50 = 49))),
          if_neg (by omega : ¬(x % 50 = 0 ∧ 1 ≤ x / 50 ∧ x / 50 ≤ 48))])
    have hC : wLeftU (tileF ((50 * r + 49))) ((50 * r + 49)) = none := by
      simp only [wLeftU]
      rw [if_neg (by omega : ¬(((50 * r + 49) % 50 = 0 ∧ (50 * r + 49) / 50 = 0) ∨ ((50 * r + 49) % 50 = 0 ∧ (50 * r + 49) / 50 = 49))),
        if_neg (by omega : ¬((50 * r + 49) % 50 = 0 ∧ 1 ≤ (50 * r + 49) / 50 ∧ (50 * r + 49) / 50 ≤ 48))]
    simp only [List.filterMap_cons, hA, List.filterMap_append, hB, hC,
      List.filterMap_nil, List.append_nil, List.nil_append]
  have hp2 : (List.range' 50 2400).filterMap (fun idx => wLeftU (tileF idx) idx) =
      (List.range' 1 48).map (fun r => tileF (50 * r)) := by
    rw [mid2400_eq, filterMap_flatten', List.map_map]
    rw [List.map_congr_left (fun r hr => by
      show ((fun l => l.filterMap (fun idx => wLeftU (tileF idx) idx)) ∘
        (fun r => List.range' (50 * r) 50)) r = [tileF (50 * r)]
      exact hrow r hr)]
    exact flatten_singleton_map _ _
  have hp3 : (List.range' 2450 50).filterMap (fun idx => wLeftU (tileF idx) idx) =
      [Terrain.wall] := by
    rw [range2450_eq]
    have hA : wLeftU (tileF (2450)) (2450) = some Terrain.wall := by
      simp [wLeftU]
    have hB : (List.range' 2451 48).filterMap (fun idx => wLeftU (tileF idx) idx) = [] :=
      filterMap_eq_nil_of _ _ (fun x hx => by
        rw [List.mem_range'_1] at hx
        simp only [wLeftU]
        rw [if_neg (by omega : ¬((x % 50 = 0 ∧ x / 50 = 0) ∨ (x % 50 = 0 ∧ x / 50 = 49))),
          if_neg (by omega : ¬(x % 50 = 0 ∧ 1 ≤ x / 50 ∧ x / 50 ≤ 48))])
    have hC : wLeftU (tileF (2499)) (2499) = none := by
      simp [wLeftU]
    simp only [List.filterMap_cons, hA, List.filterMap_append, hB, hC,
      List.filterMap_nil, List.append_nil, List.nil_append]
  rw [hp1, hp2, hp3, wLeftListU]
  simp

theorem filterMap_wTopC :
    (List.range 2500).filterMap (fun idx => wTopC idx) =
      [Terrain.wall, Terrain.wall] := by
  rw [range2500_eq, List.filterMap_append, List.filterMap_append]
  have hp1 : (List.range' 0 50).filterMap (fun idx => wTopC idx) =
      [Terrain.wall, Terrain.wall] := by
    rw [range050_eq]
    have hA : wTopC (0) = some Terrain.wall := by
      simp [wTopC]
    have hB : (List.range' 1 48).filterMap (fun idx => wTopC idx) = [] :=
      filterMap_eq_nil_of _ _ (fun x hx => by
        rw [List.mem_range'_1] at hx
        simp only [wTopC]
        rw [if_neg (by omega : ¬((x % 50 = 0 ∧ x / 50 = 0) ∨ (x % 50 = 49 ∧ x / 50 = 0)))])
    have hC : wTopC (49) = some Terrain.wall := by
      simp [wTopC]
    simp only [List.filterMap_cons, hA, List.filterMap_append, hB, hC,
      List.filterMap_nil, List.append_nil, List.nil_append]
  have hp2 : (List.range' 50 2400).filterMap (fun idx => wTopC idx) = [] :=
    filterMap_eq_nil_of _ _ (fun x hx => by
      rw [List.mem_range'_1] at hx
      simp only [wTopC]
      rw [if_neg (by omega : ¬((x % 50 = 0 ∧ x / 50 = 0) ∨ (x % 50 = 49 ∧ x / 50 = 0)))])
  have hp3 : (List.range' 2450 50).filterMap (fun idx => wTopC idx) = [] :=
    filterMap_eq_nil_of _ _ (fun x hx => by
      rw [List.mem_range'_1] at hx
      simp only [wTopC]
      rw [if_neg (by omega : ¬((x % 50 = 0 ∧ x / 50 = 0) ∨ (x % 50 = 49 ∧ x / 50 = 0)))])
  rw [hp1, hp2, hp3]
  simp

theorem filterMap_wBottomC :
    (List.range 2500).filterMap (fun idx => wBottomC idx) =
      [Terrain.wall, Terrain.wall] := by
  rw [range2500_eq, List.filterMap_append, List.filterMap_append]
  have hp1 : (List.range' 0 50).filterMap (fun idx => wBottomC idx) = [] :=
    filterMap_eq_nil_of _ _ (fun x hx => by
      rw [List.mem_range'_1] at hx
      simp only [wBottomC]
      rw [if_neg (by omega : ¬((x % 50 = 0 ∧ x / 50 = 49) ∨ (x % 50 = 49 ∧ x / 50 = 49)))])
  have hp2 : (List.range' 50 2400).filterMap (fun idx => wBottomC idx) = [] :=
    filterMap_eq_nil_of _ _ (fun x hx => by
      rw [List.mem_range'_1] at hx
      simp only [wBottomC]
      rw [if_neg (by omega : ¬((x % 50 = 0 ∧ x / 50 = 49) ∨ (x % 50 = 49 ∧ x / 50 = 49)))])
  have hp3 : (List.range' 2450 50).filterMap (fun idx => wBottomC idx) =
      [Terrain.wall, Terrain.wall] := by
    rw [range2450_eq]
    have hA : wBottomC (2450) = some Terrain.wall := by
      simp [wBottomC]
    have hB : (List.range' 2451 48).filterMap (fun idx => wBottomC idx) = [] :=
      filterMap_eq_nil_of _ _ (fun x hx => by
        rw [List.mem_range'_1] at hx
        simp only [wBottomC]
        rw [if_neg (by omega : ¬((x % 50 = 0 ∧ x / 50 = 49) ∨ (x % 50 = 49 ∧ x / 50 = 49)))])
    have hC : wBottomC (2499) = some Terrain.wall := by
      simp [wBottomC]
    simp only [List.filterMap_cons, hA, List.filterMap_append, hB, hC,
      List.filterMap_nil, List.append_nil, List.nil_append]
  rw [hp1, hp2, hp3]
  simp

theorem filterMap_wLeftC (tileF : Nat → Terrain) :
    (List.range 2500).filterMap (fun idx => wLeftC (tileF idx) idx) =
      wLeftListC tileF := by
  rw [range2500_eq, List.filterMap_append, List.filterMap_append]
  have hp1 : (List.range' 0 50).filterMap (fun idx => wLeftC (tileF idx) idx) =
      Terrain.wall :: (List.range' 1 48).map tileF := by
    rw [range050_eq]
    have hA : wLeftC (tileF (0)) (0) = some Terrain.wall := by
      simp [wLeftC]
    have hB : (List.range' 1 48).filterMap (fun idx => wLeftC (tileF idx) idx) =
        (List.range' 1 48).map tileF :=
      filterMap_eq_map_of _ _ _ (fun x hx => by
        rw [List.mem_range'_1] at hx
        simp only [wLeftC]
        rw [if_neg (by omega : ¬((x % 50 = 0 ∧ x / 50 = 0) ∨ (x % 50 = 0 ∧ x / 50 = 49))),
          if_pos (by omega : 1 ≤ x % 50 ∧ x % 50 ≤ 48 ∧ x / 50 = 0)])
    have hC : wLeftC (tileF (49)) (49) = none := by
      simp [wLeftC]
    simp only [List.filterMap_cons, hA, List.filterMap_append, hB, hC,
      List.filterMap_nil, List.append_nil, List.nil_append]
  have hrow : ∀ r ∈ List.range' 1 48,
      (List.range' (50 * r) 50).filterMap (fun idx => wLeftC (tileF idx) idx) =
        [tileF (50 * r)] := by
    intro r hr
    rw [List.mem_range'_1] at hr
    rw [range'_row (50 * r)]
    have hA : wLeftC (tileF (50 * r)) (50 * r) = some (tileF (50 * r)) := by
      simp only [wLeftC]
      rw [if_neg (by omega : ¬((50 * r % 50 = 0 ∧ 50 * r / 50 = 0) ∨ (50 * r % 50 = 0 ∧ 50 * r / 50 = 49))),
        if_neg (by omega : ¬(1 ≤ 50 * r % 50 ∧ 50 * r % 50 ≤ 48 ∧ 50 * r / 50 = 0)),
        if_pos (by omega : 50 * r % 50 = 0 ∧ 1 ≤ 50 * r / 50 ∧ 50 * r / 50 ≤ 48)]
    have hB : (List.range' (50 * r + 1) 48).filterMap (fun idx => wLeftC (tileF idx) idx) = [] :=
      filterMap_eq_nil_of _ _ (fun x hx => by
        rw [List.mem_range'_1] at hx
        simp only [wLeftC]
        rw [if_neg (by omega : ¬((x % 50 = 0 ∧ x / 50 = 0) ∨ (x % 50 = 0 ∧ x / 50 = 49))),
          if_neg (by omega : ¬(1 ≤ x % 50 ∧ x % 50 ≤ 48 ∧ x / 50 = 0)),
          if_neg (by omega : ¬(x % 50 = 0 ∧ 1 ≤ x / 50 ∧ x / 50 ≤ 48))])
    have hC : wLeftC (tileF ((50 * r + 49))) ((50 * r + 49)) = none := by
      simp only [wLeftC]
      rw [if_neg (by omega : ¬(((50 * r + 49) % 50 = 0 ∧ (50 * r + 49) / 50 = 0) ∨ ((50 * r + 49) % 50 = 0 ∧ (50 * r + 49) / 50 = 49))),
        if_neg (by omega : ¬(1 ≤ (50 * r + 49) % 50 ∧ (50 * r + 49) % 50 ≤ 48 ∧ (50 * r + 49) / 50 = 0)),
        if_neg (by omega : ¬((50 * r + 49) % 50 = 0 ∧ 1 ≤ (50 * r + 49) / 50 ∧ (50 * r + 49) / 50 ≤ 48))]
    simp only [List.filterMap_cons, hA, List.filterMap_append, hB, hC,
      List.filterMap_nil, List.append_nil, List.nil_append]
  have hp2 : (List.range' 50 2400).filterMap (fun idx => wLeftC (tileF idx) idx) =
      (List.range' 1 48).map (fun r => tileF (50 * r)) := by
    rw [mid2400_eq, filterMap_flatten', List.map_map]
    rw [List.map_congr_left (fun r hr => by
      show ((fun l => l.filterMap (fun idx => wLeftC (tileF idx) idx)) ∘
        (fun r => List.range' (50 * r) 50)) r = [tileF (50 * r)]
      exact hrow r hr)]
    exact flatten_singleton_map _ _
  have hp3 : (List.range' 2450 50).filterMap (fun idx => wLeftC (tileF idx) idx) =
      [Terrain.wall] := by
    rw [range2450_eq]
    have hA : wLeftC (tileF (2450)) (2450) = some Terrain.wall := by
      simp [wLeftC]
    have hB : (List.range' 2451 48).filterMap (fun idx => wLeftC (tileF idx) idx) = [] :=
      filterMap_eq_nil_of _ _ (fun x hx => by
        rw [List.mem_range'_1] at hx
        simp only [wLeftC]
        rw [if_neg (by omega : ¬((x % 50 = 0 ∧ x / 50 = 0) ∨ (x % 50 = 0 ∧ x / 50 = 49))),
          if_neg (by omega : ¬(1 ≤ x % 50 ∧ x % 50 ≤ 48 ∧ x / 50 = 0)),
          if_neg (by omega : ¬(x % 50 = 0 ∧ 1 ≤ x / 50 ∧ x / 50 ≤ 48))])
    have hC : wLeftC (tileF (2499)) (2499) = none := by
      simp [wLeftC]
    simp only [List.filterMap_cons, hA, List.filterMap_append, hB, hC,
      List.filterMap_nil, List.append_nil, List.nil_append]
  rw [hp1, hp2, hp3, wLeftListC]
  simp

theorem filterMap_wRightC (tileF : Nat → Terrain) :
    (List.range 2500).filterMap (fun idx => wRightC (tileF idx) idx) =
      wRightListC tileF := by
  rw [range2500_eq, List.filterMap_append, List.filterMap_append]
  have hp1 : (List.range' 0 50).filterMap (fun idx => wRightC (tileF idx) idx) =
      [Terrain.wall] := by
    rw [range050_eq]
    have hA : wRightC (tileF (0)) (0) = none := by
      simp [wRightC]
    have hB : (List.range' 1 48).filterMap (fun idx => wRightC (tileF idx) idx) = [] :=
      filterMap_eq_nil_of _ _ (fun x hx => by
        rw [List.mem_range'_1] at hx
        simp only [wRightC]
        rw [if_neg (by omega : ¬((x % 50 = 49 ∧ x / 50 = 0) ∨ (x % 50 = 49 ∧ x / 50 = 49))),
          if_neg (by omega : ¬(1 ≤ x % 50 ∧ x % 50 ≤ 48 ∧ x / 50 = 49)),
          if_neg (by omega : ¬(x % 50 = 49 ∧ 1 ≤ x / 50 ∧ x / 50 ≤ 48))])
    have hC : wRightC (tileF (49)) (49) = some Terrain.wall := by
      simp [wRightC]
    simp only [List.filterMap_cons, hA, List.filterMap_append, hB, hC,
      List.filterMap_nil, List.append_nil, List.nil_append]
  have hrow : ∀ r ∈ List.range' 1 48,
      (List.range' (50 * r) 50).filterMap (fun idx => wRightC (tileF idx) idx) =
        [tileF (50 * r + 49)] := by
    intro r hr
    rw [List.mem_range'_1] at hr
    rw [range'_row (50 * r)]
    have hA : wRightC (tileF (50 * r)) (50 * r) = none := by
      simp only [wRightC]
      rw [if_neg (by omega : ¬((50 * r % 50 = 49 ∧ 50 * r / 50 = 0) ∨ (50 * r % 50 = 49 ∧ 50 * r / 50 = 49))),
        if_neg (by omega : ¬(1 ≤ 50 * r % 50 ∧ 50 * r % 50 ≤ 48 ∧ 50 * r / 50 = 49)),
        if_neg (by omega : ¬(50 * r % 50 = 49 ∧ 1 ≤ 50 * r / 50 ∧ 50 * r / 50 ≤ 48))]
    have hB : (List.range' (50 * r + 1) 48).filterMap (fun idx => wRightC (tileF idx) idx) = [] :=
      filterMap_eq_nil_of _ _ (fun x hx => by
        rw [List.mem_range'_1] at hx
        simp only [wRightC]
        rw [if_neg (by omega : ¬((x % 50 = 49 ∧ x / 50 = 0) ∨ (x % 50 = 49 ∧ x / 50 = 49))),
          if_neg (by omega : ¬(1 ≤ x % 50 ∧ x % 50 ≤ 48 ∧ x / 50 = 49)),
          if_neg (by omega : ¬(x % 50 = 49 ∧ 1 ≤ x / 50 ∧ x / 50 ≤ 48))])
    have hC : wRightC (tileF ((50 * r + 49))) ((50 * r + 49)) = some (tileF (50 * r + 49)) := by
      simp only [wRightC]
      rw [if_neg (by omega : ¬(((50 * r + 49) % 50 = 49 ∧ (50 * r + 49) / 50 = 0) ∨ ((50 * r + 49) % 50 = 49 ∧ (50 * r + 49) / 50 = 49))),
        if_neg (by omega : ¬(1 ≤ (50 * r + 49) % 50 ∧ (50 * r + 49) % 50 ≤ 48 ∧ (50 * r + 49) / 50 = 49)),
        if_pos (by omega : (50 * r + 49) % 50 = 49 ∧ 1 ≤ (50 * r + 49) / 50 ∧ (50 * r + 49) / 50 ≤ 48)]
    simp only [List.filterMap_cons, hA, List.filterMap_append, hB, hC,
      List.filterMap_nil, List.append_nil, List.nil_append]
  have hp2 : (List.range' 50 2400).filterMap (fun idx => wRightC (tileF idx) idx) =
      (List.range' 1 48).map (fun r => tileF (50 * r + 49)) := by
    rw [mid2400_eq, filterMap_flatten', List.map_map]
    rw [List.map_congr_left (fun r hr => by
      show ((fun l => l.filterMap (fun idx => wRightC (tileF idx) idx)) ∘
        (fun r => List.range' (50 * r) 50)) r = [tileF (50 * r + 49)]
      exact hrow r hr)]
    exact flatten_singleton_map _ _
  have hp3 : (List.range' 2450 50).filterMap (fun idx => wRightC (tileF idx) idx) =
      (List.range' 2451 48).map tileF ++ [Terrain.wall] := by
    rw [range2450_eq]
    have hA : wRightC (tileF (2450)) (2450) = none := by
      simp [wRightC]
    have hB : (List.range' 2451 48).filterMap (fun idx => wRightC (tileF idx) idx) =
        (List.range' 2451 48).map tileF :=
      filterMap_eq_map_of _ _ _ (fun x hx => by
        rw [List.mem_range'_1] at hx
        simp only [wRightC]
        rw [if_neg (by omega : ¬((x % 50 = 49 ∧ x / 50 = 0) ∨ (x % 50 = 49 ∧ x / 50 = 49))),
          if_pos (by omega : 1 ≤ x % 50 ∧ x % 50 ≤ 48 ∧ x / 50 = 49)])
    have hC : wRightC (tileF (2499)) (2499) = some Terrain.wall := by
      simp [wRightC]
    simp only [List.filterMap_cons, hA, List.filterMap_append, hB, hC,
      List.filterMap_nil, List.append_nil, List.nil_append]
  rw [hp1, hp2, hp3, wRightListC]
  simp

theorem wTopListU_length (tileF : Nat → Terrain) :
    (wTopListU tileF).length = 50 := by
  simp [wTopListU]

theorem wRightListU_length (tileF : Nat → Terrain) :
    (wRightListU tileF).length = 50 := by
  simp [wRightListU]

theorem wBottomListU_length (tileF : Nat → Terrain) :
    (wBottomListU tileF).length = 50 := by
  simp [wBottomListU]

theorem wLeftListU_length (tileF : Nat → Terrain) :
    (wLeftListU tileF).length = 50 := by
  simp [wLeftListU]

theorem wLeftListC_length (tileF : Nat → Terrain) :
    (wLeftListC tileF).length = 98 := by
  simp [wLeftListC]

theorem wRightListC_length (tileF : Nat → Terrain) :
    (wRightListC tileF).length = 98 := by
  simp [wRightListC]

/-! ### Characterizing the two construction folds -/

theorem wildcardFoldUncompressed_eq (bits : List Nat) :
    wildcardFoldUncompressed bits =
      { data := ((List.range 2500).filter isInteriorIdx).foldl
          (fun vec idx => (appendTokenPacked vec (tileOf bits idx) idx).1) [],
        top := wTopListU (tileOf bits),
        right := wRightListU (tileOf bits),
        bottom := wBottomListU (tileOf bits),
        left := wLeftListU (tileOf bits) } := by
  unfold wildcardFoldUncompressed
  rw [List.foldl_ext _
    (fun st idx => wildcardStepUncompressed (tileOf bits idx) idx st)
    ⟨[], [], [], [], []⟩
    (fun st idx _ => by rw [localGetXY_tileOf])]
  rw [wildcardFoldU_decompose (tileOf bits) (List.range 2500) ⟨[], [], [], [], []⟩]
  refine WildcardState.ext' _ _ ?_ ?_ ?_ ?_ ?_ <;>
    simp only [filterMap_wTopU, filterMap_wRightU, filterMap_wBottomU,
      filterMap_wLeftU, List.nil_append]

theorem wildcardFoldCompressed_eq (g : List Nat) (hlen : g.length = 2500) :
    wildcardFoldCompressed (newFromUncompressedBits g) =
      { data := ((List.range 2500).filter isInteriorIdx).foldl
          (fun vec idx => (appendTokenPacked vec (tileOf g idx) idx).1) [],
        top := [Terrain.wall, Terrain.wall],
        right := wRightListC (tileOf g),
        bottom := [Terrain.wall, Terrain.wall],
        left := wLeftListC (tileOf g) } := by
  unfold wildcardFoldCompressed
  rw [List.foldl_ext _
    (fun st idx => wildcardStepCompressed (tileOf g idx) idx st)
    ⟨[], [], [], [], []⟩
    (fun st idx hidx => by
      rw [compressedGetXY_tileOf g idx hlen (List.mem_range.1 hidx)])]
  rw [wildcardFoldC_decompose (tileOf g) (List.range 2500) ⟨[], [], [], [], []⟩]
  refine WildcardState.ext' _ _ ?_ ?_ ?_ ?_ ?_ <;>
    simp only [filterMap_wTopC, filterMap_wRightC, filterMap_wBottomC,
      filterMap_wLeftC, List.nil_append]

/-! ### Assembling the embedded edge store -/

theorem wildcardAssembleEdge_mk (d : List Nat) (t r b l : List Terrain)
    (ht : t.length = 50) (hr : r.length = 50) (hb : b.length = 50)
    (hl : l.length = 50) :
    wildcardAssembleEdge ⟨d, t, r, b, l⟩ =
      copyEdgeTerrainToByteSlice t ++ copyEdgeTerrainToByteSlice r ++
        copyEdgeTerrainToByteSlice b ++ copyEdgeTerrainToByteSlice l := by
  have hok : newFromTerrainSlices t r b l =
      .ok (copyEdgeTerrainToByteSlice t ++ copyEdgeTerrainToByteSlice r ++
        copyEdgeTerrainToByteSlice b ++ copyEdgeTerrainToByteSlice l) := by
    unfold newFromTerrainSlices
    rw [if_neg (by omega), if_neg (by omega), if_neg (by omega),
      if_neg (by omega)]
  unfold wildcardAssembleEdge
  rw [show (⟨d, t, r, b, l⟩ : WildcardState).top = t from rfl,
    show (⟨d, t, r, b, l⟩ : WildcardState).right = r from rfl,
    show (⟨d, t, r, b, l⟩ : WildcardState).bottom = b from rfl,
    show (⟨d, t, r, b, l⟩ : WildcardState).left = l from rfl, hok]

theorem wildcardAssembleEdge_mk_err (d : List Nat) (t r b l : List Terrain)
    (ht : t.length ≠ 50) :
    wildcardAssembleEdge ⟨d, t, r, b, l⟩ = List.replicate 24 0 := by
  have herr : newFromTerrainSlices t r b l = .error .topEdgeNotLength50 := by
    unfold newFromTerrainSlices
    rw [if_pos ht]
  unfold wildcardAssembleEdge
  rw [show (⟨d, t, r, b, l⟩ : WildcardState).top = t from rfl,
    show (⟨d, t, r, b, l⟩ : WildcardState).right = r from rfl,
    show (⟨d, t, r, b, l⟩ : WildcardState).bottom = b from rfl,
    show (⟨d, t, r, b, l⟩ : WildcardState).left = l from rfl, herr]

/-! ### Decoding the packed edge bytes -/

theorem getD_cons8 (t0 t1 t2 t3 t4 t5 t6 t7 x : Terrain)
    (rest : List Terrain) (n : Nat) :
    ((t0 :: t1 :: t2 :: t3 :: t4 :: t5 :: t6 :: t7 :: rest).getD (n + 8) x) =
      rest.getD n x := rfl

theorem chunksExact8T_length :
    ∀ ts : List Terrain, (chunksExact8T ts).length = ts.length / 8 := by
  intro ts
  induction ts using chunksExact8T.induct with
  | case1 a b c d e f g h rest ih =>
    simp only [chunksExact8T, List.length_cons, ih]
    omega
  | case2 ts hno =>
    match ts, hno with
    | [], _ => simp [chunksExact8T]
    | [a], _ => simp [chunksExact8T]
    | [a, b], _ => simp [chunksExact8T]
    | [a, b, c], _ => simp [chunksExact8T]
    | [a, b, c, d], _ => simp [chunksExact8T]
    | [a, b, c, d, e], _ => simp [chunksExact8T]
    | [a, b, c, d, e, f], _ => simp [chunksExact8T]
    | [a, b, c, d, e, f, g], _ => simp [chunksExact8T]
    | (a :: b :: c :: d :: e :: f :: g :: h :: rest), hno =>
      exact absurd rfl (hno a b c d e f g h rest)

theorem chunksExact8T_getD :
    ∀ (ts : List Terrain) (b : Nat), 8 * b + 7 < ts.length →
      (chunksExact8T ts).getD b [] =
        [ts.getD (8 * b) Terrain.plain, ts.getD (8 * b + 1) Terrain.plain,
          ts.getD (8 * b + 2) Terrain.plain, ts.getD (8 * b + 3) Terrain.plain,
          ts.getD (8 * b + 4) Terrain.plain, ts.getD (8 * b + 5) Terrain.plain,
          ts.getD (8 * b + 6) Terrain.plain, ts.getD (8 * b + 7) Terrain.plain] := by
  intro ts
  induction ts using chunksExact8T.induct with
  | case1 a b c d e f g h rest ih =>
    intro n hn
    cases n with
    | zero => rfl
    | succ n' =>
      have e0 : 8 * (n' + 1) = 8 * n' + 8 := by omega
      have e1 : 8 * (n' + 1) + 1 = (8 * n' + 1) + 8 := by omega
      have e2 : 8 * (n' + 1) + 2 = (8 * n' + 2) + 8 := by omega
      have e3 : 8 * (n' + 1) + 3 = (8 * n' + 3) + 8 := by omega
      have e4 : 8 * (n' + 1) + 4 = (8 * n' + 4) + 8 := by omega
      have e5 : 8 * (n' + 1) + 5 = (8 * n' + 5) + 8 := by omega
      have e6 : 8 * (n' + 1) + 6 = (8 * n' + 6) + 8 := by omega
      have e7 : 8 * (n' + 1) + 7 = (8 * n' + 7) + 8 := by omega
      rw [e1, e2, e3, e4, e5, e6, e7, e0]
      rw [getD_cons8, getD_cons8, getD_cons8, getD_cons8, getD_cons8,
        getD_cons8, getD_cons8, getD_cons8]
      have hn' : 8 * n' + 7 < rest.length := by
        simp only [List.length_cons] at hn
        omega
      rw [show chunksExact8T (a :: b :: c :: d :: e :: f :: g :: h :: rest) =
        [a, b, c, d, e, f, g, h] :: chunksExact8T rest from rfl]
      rw [List.getD_cons_succ]
      exact ih n' hn'
  | case2 ts hno =>
    intro n hn
    match ts, hno with
    | [], _ =>
      have hl : ([] : List Terrain).length = 0 := rfl
      rw [hl] at hn; omega
    | [a], _ =>
      have hl : ([a] : List Terrain).length = 1 := rfl
      rw [hl] at hn; omega
    | [a, b], _ =>
      have hl : ([a, b] : List Terrain).length = 2 := rfl
      rw [hl] at hn; omega
    | [a, b, c], _ =>
      have hl : ([a, b, c] : List Terrain).length = 3 := rfl
      rw [hl] at hn; omega
    | [a, b, c, d], _ =>
      have hl : ([a, b, c, d] : List Terrain).length = 4 := rfl
      rw [hl] at hn; omega
    | [a, b, c, d, e], _ =>
      have hl : ([a, b, c, d, e] : List Terrain).length = 5 := rfl
      rw [hl] at hn; omega
    | [a, b, c, d, e, f], _ =>
      have hl : ([a, b, c, d, e, f] : List Terrain).length = 6 := rfl
      rw [hl] at hn; omega
    | [a, b, c, d, e, f, g], _ =>
      have hl : ([a, b, c, d, e, f, g] : List Terrain).length = 7 := rfl
      rw [hl] at hn; omega
    | (a :: b :: c :: d :: e :: f :: g :: h :: rest), hno =>
      exact absurd rfl (hno a b c d e f g h rest)

/-- The same packing fold over the Wall indicator bits alone. -/
def byteOfBools (bs : List Bool) : Nat :=
  bs.enum.foldl
    (fun output it => if it.2 then output ||| (1 <<< (7 - it.1)) else output) 0

theorem getByteFromTerrain_eq_bools (ts : List Terrain) :
    getByteFromTerrain ts =
      byteOfBools (ts.map (fun t => decide (t = Terrain.wall))) := by
  unfold getByteFromTerrain byteOfBools
  rw [List.enum_map, List.foldl_map]
  refine List.foldl_ext _ _ _ (fun acc p _ => ?_)
  cases p with
  | mk i t => simp [Prod.map]

theorem byteOfBools_bit :
    ∀ (b0 b1 b2 b3 b4 b5 b6 b7 : Bool) (j : Nat), j < 8 →
      (((byteOfBools [b0, b1, b2, b3, b4, b5, b6, b7]) >>> (7 - j)) % 2 = 1 ↔
        [b0, b1, b2, b3, b4, b5, b6, b7].getD j false = true) := by decide

/-- Bit `7 - j` of the packed byte of an 8-tile chunk is set iff tile `j`
is a Wall. -/
theorem getByteFromTerrain_bit (ts : List Terrain) (j : Nat)
    (h8 : ts.length = 8) (hj : j < 8) :
    ((getByteFromTerrain ts >>> (7 - j)) % 2 = 1 ↔
      ts.getD j Terrain.plain = Terrain.wall) := by
  obtain _ | ⟨t0, ts⟩ := ts; · simp at h8
  obtain _ | ⟨t1, ts⟩ := ts; · simp at h8
  obtain _ | ⟨t2, ts⟩ := ts; · simp at h8
  obtain _ | ⟨t3, ts⟩ := ts; · simp at h8
  obtain _ | ⟨t4, ts⟩ := ts; · simp at h8
  obtain _ | ⟨t5, ts⟩ := ts; · simp at h8
  obtain _ | ⟨t6, ts⟩ := ts; · simp at h8
  obtain _ | ⟨t7, ts⟩ := ts; · simp at h8
  have hnil : ts = [] := List.length_eq_zero.1 (by simpa using h8)
  subst hnil
  rw [getByteFromTerrain_eq_bools]
  simp only [List.map_cons, List.map_nil]
  rw [byteOfBools_bit _ _ _ _ _ _ _ _ j hj]
  interval_cases j <;> simp

theorem copyEdge_length (ts : List Terrain) (h : ts.length = 50) :
    (copyEdgeTerrainToByteSlice ts).length = 6 := by
  unfold copyEdgeTerrainToByteSlice
  rw [List.length_map, chunksExact8T_length, List.length_take,
    List.length_drop, h]
  omega

theorem inner48_getD (ts : List Terrain) (hlen : ts.length = 50) (i : Nat)
    (hi : i < 48) :
    ((ts.drop 1).take 48).getD i Terrain.plain =
      ts.getD (1 + i) Terrain.plain := by
  rw [List.getD_eq_getElem?_getD, List.getD_eq_getElem?_getD,
    List.getElem?_take_of_lt hi, List.getElem?_drop]

theorem copyEdge_getD (ts : List Terrain) (hlen : ts.length = 50) (b : Nat)
    (hb : b < 6) :
    (copyEdgeTerrainToByteSlice ts).getD b 0 =
      getByteFromTerrain ((chunksExact8T ((ts.drop 1).take 48)).getD b []) := by
  unfold copyEdgeTerrainToByteSlice
  refine getD_map_lt _ _ _ ?_ _ _
  rw [chunksExact8T_length, List.length_take, List.length_drop, hlen]
  omega

/-- Decoding position `e ∈ [1,48]` of the 6 packed bytes of one edge slice
recovers the Wall bit of the slice's tile `e`. -/
theorem copyEdge_decode (ts : List Terrain) (hlen : ts.length = 50) (e : Nat)
    (h1 : 1 ≤ e) (h2 : e ≤ 48) :
    getTileTerrainFromChunk (copyEdgeTerrainToByteSlice ts) e =
      some (if ts.getD e Terrain.plain = Terrain.wall then Terrain.wall
        else Terrain.plain) := by
  rw [getTileTerrainFromChunk_eq _ e h1 h2]
  rw [copyEdge_getD ts hlen ((e - 1) / 8) (by omega)]
  have hinlen : ((ts.drop 1).take 48).length = 48 := by
    rw [List.length_take, List.length_drop, hlen]
    omega
  rw [chunksExact8T_getD _ ((e - 1) / 8) (by rw [hinlen]; omega)]
  have hbit := getByteFromTerrain_bit
    [((ts.drop 1).take 48).getD (8 * ((e - 1) / 8)) Terrain.plain,
     ((ts.drop 1).take 48).getD (8 * ((e - 1) / 8) + 1) Terrain.plain,
     ((ts.drop 1).take 48).getD (8 * ((e - 1) / 8) + 2) Terrain.plain,
     ((ts.drop 1).take 48).getD (8 * ((e - 1) / 8) + 3) Terrain.plain,
     ((ts.drop 1).take 48).getD (8 * ((e - 1) / 8) + 4) Terrain.plain,
     ((ts.drop 1).take 48).getD (8 * ((e - 1) / 8) + 5) Terrain.plain,
     ((ts.drop 1).take 48).getD (8 * ((e - 1) / 8) + 6) Terrain.plain,
     ((ts.drop 1).take 48).getD (8 * ((e - 1) / 8) + 7) Terrain.plain]
    ((e - 1) % 8) rfl (by omega)
  simp only [hbit]
  have hsplit : (e - 1) % 8 = 0 ∨ (e - 1) % 8 = 1 ∨ (e - 1) % 8 = 2 ∨
      (e - 1) % 8 = 3 ∨ (e - 1) % 8 = 4 ∨ (e - 1) % 8 = 5 ∨
      (e - 1) % 8 = 6 ∨ (e - 1) % 8 = 7 := by omega
  rcases hsplit with hc | hc | hc | hc | hc | hc | hc | hc
  · rw [hc]
    simp only [List.getD_cons_zero, List.getD_cons_succ]
    rw [show 8 * ((e - 1) / 8) = e - 1 from by omega,
      inner48_getD ts hlen (e - 1) (by omega),
      show 1 + (e - 1) = e from by omega]
  · rw [hc]
    simp only [List.getD_cons_zero, List.getD_cons_succ]
    rw [show 8 * ((e - 1) / 8) + 1 = e - 1 from by omega,
      inner48_getD ts hlen (e - 1) (by omega),
      show 1 + (e - 1) = e from by omega]
  · rw [hc]
    simp only [List.getD_cons_zero, List.getD_cons_succ]
    rw [show 8 * ((e - 1) / 8) + 2 = e - 1 from by omega,
      inner48_getD ts hlen (e - 1) (by omega),
      show 1 + (e - 1) = e from by omega]
  · rw [hc]
    simp only [List.getD_cons_zero, List.getD_cons_succ]
    rw [show 8 * ((e - 1) / 8) + 3 = e - 1 from by omega,
      inner48_getD ts hlen (e - 1) (by omega),
      show 1 + (e - 1) = e from by omega]
  · rw [hc]
    simp only [List.getD_cons_zero, List.getD_cons_succ]
    rw [show 8 * ((e - 1) / 8) + 4 = e - 1 from by omega,
      inner48_getD ts hlen (e - 1) (by omega),
      show 1 + (e - 1) = e from by omega]
  · rw [hc]
    simp only [List.getD_cons_zero, List.getD_cons_succ]
    rw [show 8 * ((e - 1) / 8) + 5 = e - 1 from by omega,
      inner48_getD ts hlen (e - 1) (by omega),
      show 1 + (e - 1) = e from by omega]
  · rw [hc]
    simp only [List.getD_cons_zero, List.getD_cons_succ]
    rw [show 8 * ((e - 1) / 8) + 6 = e - 1 from by omega,
      inner48_getD ts hlen (e - 1) (by omega),
      show 1 + (e - 1) = e from by omega]
  · rw [hc]
    simp only [List.getD_cons_zero, List.getD_cons_succ]
    rw [show 8 * ((e - 1) / 8) + 7 = e - 1 from by omega,
      inner48_getD ts hlen (e - 1) (by omega),
      show 1 + (e - 1) = e from by omega]

theorem quad_slices (A B C D : List Nat) (hA : A.length = 6)
    (hB : B.length = 6) (hC : C.length = 6) (hD : D.length = 6) :
    getTopEdgeBytesSlice (A ++ B ++ C ++ D) = A ∧
    getRightEdgeBytesSlice (A ++ B ++ C ++ D) = B ∧
    getBottomEdgeBytesSlice (A ++ B ++ C ++ D) = C ∧
    getLeftEdgeBytesSlice (A ++ B ++ C ++ D) = D := by
  have hassoc : A ++ B ++ C ++ D = A ++ (B ++ (C ++ D)) := by
    simp [List.append_assoc]
  have hAB : A ++ B ++ C ++ D = (A ++ B) ++ (C ++ D) := by
    simp [List.append_assoc]
  refine ⟨?_, ?_, ?_, ?_⟩
  · unfold getTopEdgeBytesSlice
    rw [hassoc]
    exact List.take_left' hA
  · unfold getRightEdgeBytesSlice
    rw [hassoc, List.drop_left' hA]
    exact List.take_left' hB
  · unfold getBottomEdgeBytesSlice
    rw [hAB, List.drop_left'
      (show (A ++ B).length = 12 by rw [List.length_append, hA, hB])]
    exact List.take_left' hC
  · unfold getLeftEdgeBytesSlice
    rw [List.drop_left'
      (show (A ++ B ++ C).length = 18 by
        rw [List.length_append, List.length_append, hA, hB, hC])]
    rw [← hD, List.take_length]

/-- Querying the four non-corner edge regions of an edge store assembled
from four 50-tile lists decodes the Wall bit of the matching list entry. -/
theorem edgeGetXY_assembled (t r b l : List Terrain) (ht : t.length = 50)
    (hr : r.length = 50) (hb : b.length = 50) (hl : l.length = 50) (e : Nat)
    (h1 : 1 ≤ e) (h2 : e ≤ 48) :
    (edgeGetXY (copyEdgeTerrainToByteSlice t ++ copyEdgeTerrainToByteSlice r ++
        copyEdgeTerrainToByteSlice b ++ copyEdgeTerrainToByteSlice l) e 0 =
      some (if t.getD e Terrain.plain = Terrain.wall then Terrain.wall
        else Terrain.plain)) ∧
    (edgeGetXY (copyEdgeTerrainToByteSlice t ++ copyEdgeTerrainToByteSlice r ++
        copyEdgeTerrainToByteSlice b ++ copyEdgeTerrainToByteSlice l) e 49 =
      some (if b.getD e Terrain.plain = Terrain.wall then Terrain.wall
        else Terrain.plain)) ∧
    (edgeGetXY (copyEdgeTerrainToByteSlice t ++ copyEdgeTerrainToByteSlice r ++
        copyEdgeTerrainToByteSlice b ++ copyEdgeTerrainToByteSlice l) 0 e =
      some (if l.getD e Terrain.plain = Terrain.wall then Terrain.wall
        else Terrain.plain)) ∧
    (edgeGetXY (copyEdgeTerrainToByteSlice t ++ copyEdgeTerrainToByteSlice r ++
        copyEdgeTerrainToByteSlice b ++ copyEdgeTerrainToByteSlice l) 49 e =
      some (if r.getD e Terrain.plain = Terrain.wall then Terrain.wall
        else Terrain.plain)) := by
  obtain ⟨hT, hR, hB2, hL⟩ := quad_slices _ _ _ _ (copyEdge_length t ht)
    (copyEdge_length r hr) (copyEdge_length b hb) (copyEdge_length l hl)
  refine ⟨?_, ?_, ?_, ?_⟩
  · unfold edgeGetXY
    rw [if_neg (by omega), if_neg (by omega), if_neg (by omega),
      if_pos (by omega : 1 ≤ e ∧ e ≤ 48 ∧ 0 = 0)]
    rw [hT]
    exact copyEdge_decode t ht e h1 h2
  · unfold edgeGetXY
    rw [if_neg (by omega), if_neg (by omega), if_neg (by omega),
      if_neg (by omega), if_pos (by omega : 1 ≤ e ∧ e ≤ 48 ∧ 49 = 49)]
    rw [hB2]
    exact copyEdge_decode b hb e h1 h2
  · unfold edgeGetXY
    rw [if_neg (by omega), if_neg (by omega), if_neg (by omega),
      if_neg (by omega), if_neg (by omega),
      if_pos (by omega : 0 = 0 ∧ 1 ≤ e ∧ e ≤ 48)]
    rw [hL]
    exact copyEdge_decode l hl e h1 h2
  · unfold edgeGetXY
    rw [if_neg (by omega), if_neg (by omega), if_neg (by omega),
      if_neg (by omega), if_neg (by omega), if_neg (by omega),
      if_pos (by omega : 49 = 49 ∧ 1 ≤ e ∧ e ≤ 48)]
    rw [hR]
    exact copyEdge_decode r hr e h1 h2

theorem replicate_getD_zero : ∀ (n i : Nat),
    (List.replicate n (0 : Nat)).getD i 0 = 0 := by
  intro n
  induction n with
  | zero => intro i; cases i <;> rfl
  | succ n ih =>
    intro i
    cases i with
    | zero => rfl
    | succ i =>
      rw [List.replicate_succ, List.getD_cons_succ]
      exact ih i

theorem getTile_zero_chunk (e : Nat) (h1 : 1 ≤ e) (h2 : e ≤ 48) :
    getTileTerrainFromChunk (List.replicate 6 0) e = some Terrain.plain := by
  rw [getTileTerrainFromChunk_eq _ e h1 h2, replicate_getD_zero,
    Nat.zero_shiftRight]
  rw [if_neg (by omega)]

/-- The zeroed fallback edge store decodes every non-corner edge position
as Plain. -/
theorem edgeGetXY_zero24 (e : Nat) (h1 : 1 ≤ e) (h2 : e ≤ 48) :
    edgeGetXY (List.replicate 24 0) e 0 = some Terrain.plain ∧
    edgeGetXY (List.replicate 24 0) e 49 = some Terrain.plain ∧
    edgeGetXY (List.replicate 24 0) 0 e = some Terrain.plain ∧
    edgeGetXY (List.replicate 24 0) 49 e = some Terrain.plain := by
  have htop : getTopEdgeBytesSlice (List.replicate 24 0) =
      List.replicate 6 0 := by
    unfold getTopEdgeBytesSlice
    rw [List.take_replicate]
    norm_num
  have hright : getRightEdgeBytesSlice (List.replicate 24 0) =
      List.replicate 6 0 := by
    unfold getRightEdgeBytesSlice
    rw [List.drop_replicate, List.take_replicate]
    norm_num
  have hbottom : getBottomEdgeBytesSlice (List.replicate 24 0) =
      List.replicate 6 0 := by
    unfold getBottomEdgeBytesSlice
    rw [List.drop_replicate, List.take_replicate]
    norm_num
  have hleft : getLeftEdgeBytesSlice (List.replicate 24 0) =
      List.replicate 6 0 := by
    unfold getLeftEdgeBytesSlice
    rw [List.drop_replicate, List.take_replicate]
    norm_num
  refine ⟨?_, ?_, ?_, ?_⟩
  · unfold edgeGetXY
    rw [if_neg (by omega), if_neg (by omega), if_neg (by omega),
      if_pos (by omega : 1 ≤ e ∧ e ≤ 48 ∧ 0 = 0)]
    rw [htop]
    exact getTile_zero_chunk e h1 h2
  · unfold edgeGetXY
    rw [if_neg (by omega), if_neg (by omega), if_neg (by omega),
      if_neg (by omega), if_pos (by omega : 1 ≤ e ∧ e ≤ 48 ∧ 49 = 49)]
    rw [hbottom]
    exact getTile_zero_chunk e h1 h2
  · unfold edgeGetXY
    rw [if_neg (by omega), if_neg (by omega), if_neg (by omega),
      if_neg (by omega), if_neg (by omega),
      if_pos (by omega : 0 = 0 ∧ 1 ≤ e ∧ e ≤ 48)]
    rw [hleft]
    exact getTile_zero_chunk e h1 h2
  · unfold edgeGetXY
    rw [if_neg (by omega), if_neg (by omega), if_neg (by omega),
      if_neg (by omega), if_neg (by omega), if_neg (by omega),
      if_pos (by omega : 49 = 49 ∧ 1 ≤ e ∧ e ≤ 48)]
    rw [hright]
    exact getTile_zero_chunk e h1 h2

/-! ### Lookup into the wildcard run data -/

theorem interior_pairs_asc (tileF : Nat → Terrain) :
    StartsAscending (((List.range 2500).filter isInteriorIdx).map
      (fun idx => (⟨tileF idx, idx⟩ : IndexedRLE Terrain))) := by
  unfold StartsAscending
  rw [List.pairwise_map]
  exact (List.pairwise_lt_range 2500).sublist (List.filter_sublist _)

theorem wildcardData_find (tileF : Nat → Terrain) (idx : Nat)
    (hin : idx < 2500) (hedge : isInteriorIdx idx = true) :
    findTokenAtIndexPacked
      (((List.range 2500).filter isInteriorIdx).foldl
        (fun vec i => (appendTokenPacked vec (tileF i) i).1) []) idx =
      some (tileF idx) := by
  rw [findTokenAtIndexPacked_map]
  rw [packedFold_map tileF ((List.range 2500).filter isInteriorIdx)
    (fun x hx => by
      have hx' := List.mem_range.1 (List.mem_of_mem_filter hx)
      omega)]
  have hbuild : ((List.range 2500).filter isInteriorIdx).foldl
      (fun vec i => (pushRle vec ⟨tileF i, i⟩).1) [] =
      buildRLE (((List.range 2500).filter isInteriorIdx).map
        (fun i => (⟨tileF i, i⟩ : IndexedRLE Terrain))) := by
    unfold buildRLE
    rw [List.foldl_map]
  rw [hbuild]
  exact buildRLE_find_at_start _ (interior_pairs_asc tileF)
    ⟨tileF idx, idx⟩
    (List.mem_map.2 ⟨idx, List.mem_filter.2 ⟨List.mem_range.2 hin, hedge⟩, rfl⟩)

/-- The tile stream the compressed construction walks: point queries of the
source Direct codec instance. -/
def cTileF (data : List Nat) (idx : Nat) : Terrain :=
  compressedGetXY data (terrainIndexToXY idx).1 (terrainIndexToXY idx).2

theorem wildcardFoldCompressed_eq' (data : List Nat) :
    wildcardFoldCompressed data =
      { data := ((List.range 2500).filter isInteriorIdx).foldl
          (fun vec idx => (appendTokenPacked vec (cTileF data idx) idx).1) [],
        top := [Terrain.wall, Terrain.wall],
        right := wRightListC (cTileF data),
        bottom := [Terrain.wall, Terrain.wall],
        left := wLeftListC (cTileF data) } := by
  unfold wildcardFoldCompressed
  rw [show (fun st idx => wildcardStepCompressed
      (compressedGetXY data (terrainIndexToXY idx).1 (terrainIndexToXY idx).2)
      idx st) =
    (fun st idx => wildcardStepCompressed (cTileF data idx) idx st) from rfl]
  rw [wildcardFoldC_decompose (cTileF data) (List.range 2500) ⟨[], [], [], [], []⟩]
  refine WildcardState.ext' _ _ ?_ ?_ ?_ ?_ ?_ <;>
    simp only [filterMap_wTopC, filterMap_wRightC, filterMap_wBottomC,
      filterMap_wLeftC, List.nil_append]

theorem wData_mk (d : List Nat) (t r b l : List Terrain) :
    ({ data := d, top := t, right := r, bottom := b, left := l } :
      WildcardState).data = d := rfl

theorem prodFst_mk {α β : Type} (a : α) (b : β) : (a, b).1 = a := rfl

theorem prodSnd_mk {α β : Type} (a : α) (b : β) : (a, b).2 = b := rfl

/-- The run data built by either wildcard construction: every interior
linear index appended in order with its tile. -/
def wildcardRunDataOf (tileF : Nat → Terrain) : List Nat :=
  ((List.range 2500).filter isInteriorIdx).foldl
    (fun vec idx => (appendTokenPacked vec (tileF idx) idx).1) []

/-- The 24 edge bytes the uncompressed wildcard construction assembles. -/
def wildcardEdgeBytesU (tileF : Nat → Terrain) : List Nat :=
  copyEdgeTerrainToByteSlice (wTopListU tileF) ++
    copyEdgeTerrainToByteSlice (wRightListU tileF) ++
    copyEdgeTerrainToByteSlice (wBottomListU tileF) ++
    copyEdgeTerrainToByteSlice (wLeftListU tileF)

theorem wildcardNewU_eq (bits : List Nat) :
    wildcardNewFromUncompressedTerrain bits =
      (wildcardRunDataOf (tileOf bits), wildcardEdgeBytesU (tileOf bits)) := by
  unfold wildcardNewFromUncompressedTerrain wildcardRunDataOf wildcardEdgeBytesU
  rw [wildcardFoldUncompressed_eq, wData_mk,
    wildcardAssembleEdge_mk _ _ _ _ _ (wTopListU_length _)
      (wRightListU_length _) (wBottomListU_length _) (wLeftListU_length _)]

theorem wildcardNewC_eq' (data : List Nat) :
    wildcardNewFromCompressedTerrain data =
      (wildcardRunDataOf (cTileF data), List.replicate 24 0) := by
  unfold wildcardNewFromCompressedTerrain wildcardRunDataOf
  rw [wildcardFoldCompressed_eq', wData_mk,
    wildcardAssembleEdge_mk_err _ _ _ _ _ (by decide)]

theorem wildcardNewC_eq (g : List Nat) (hlen : g.length = 2500) :
    wildcardNewFromCompressedTerrain (newFromUncompressedBits g) =
      (wildcardRunDataOf (tileOf g), List.replicate 24 0) := by
  unfold wildcardNewFromCompressedTerrain wildcardRunDataOf
  rw [wildcardFoldCompressed_eq g hlen, wData_mk,
    wildcardAssembleEdge_mk_err _ _ _ _ _ (by decide)]

theorem range'_getD (s n i : Nat) (h : i < n) :
    (List.range' s n).getD i 0 = s + i := by
  rw [List.getD_eq_getElem _ _ (by simpa using h)]
  simpa using List.getElem_range' (by simpa using h)

theorem wTopListU_getD (tileF : Nat → Terrain) (e : Nat) (h1 : 1 ≤ e)
    (h2 : e ≤ 48) :
    (wTopListU tileF).getD e Terrain.plain = tileF e := by
  unfold wTopListU
  conv_lhs => rw [show e = (e - 1) + 1 by omega]
  rw [List.getD_cons_succ,
    List.getD_append _ _ _ _ (by rw [List.length_map, List.length_range' 1 1]; omega),
    getD_map_lt _ _ _ (by rw [List.length_range' 1 1]; omega) 0 _,
    range'_getD 1 48 (e - 1) (by omega), show 1 + (e - 1) = e by omega]

theorem wBottomListU_getD (tileF : Nat → Terrain) (e : Nat) (h1 : 1 ≤ e)
    (h2 : e ≤ 48) :
    (wBottomListU tileF).getD e Terrain.plain = tileF (2450 + e) := by
  unfold wBottomListU
  conv_lhs => rw [show e = (e - 1) + 1 by omega]
  rw [List.getD_cons_succ,
    List.getD_append _ _ _ _ (by rw [List.length_map, List.length_range' 2451 1]; omega),
    getD_map_lt _ _ _ (by rw [List.length_range' 2451 1]; omega) 0 _,
    range'_getD 2451 48 (e - 1) (by omega), show 2451 + (e - 1) = 2450 + e by omega]

theorem wLeftListU_getD (tileF : Nat → Terrain) (e : Nat) (h1 : 1 ≤ e)
    (h2 : e ≤ 48) :
    (wLeftListU tileF).getD e Terrain.plain = tileF (50 * e) := by
  unfold wLeftListU
  conv_lhs => rw [show e = (e - 1) + 1 by omega]
  rw [List.getD_cons_succ,
    List.getD_append _ _ _ _ (by rw [List.length_map, List.length_range' 1 1]; omega),
    getD_map_lt _ _ _ (by rw [List.length_range' 1 1]; omega) 0 _,
    range'_getD 1 48 (e - 1) (by omega), show 1 + (e - 1) = e by omega]

theorem wRightListU_getD (tileF : Nat → Terrain) (e : Nat) (h1 : 1 ≤ e)
    (h2 : e ≤ 48) :
    (wRightListU tileF).getD e Terrain.plain = tileF (50 * e + 49) := by
  unfold wRightListU
  conv_lhs => rw [show e = (e - 1) + 1 by omega]
  rw [List.getD_cons_succ,
    List.getD_append _ _ _ _ (by rw [List.length_map, List.length_range' 1 1]; omega),
    getD_map_lt _ _ _ (by rw [List.length_range' 1 1]; omega) 0 _,
    range'_getD 1 48 (e - 1) (by omega), show 1 + (e - 1) = e by omega]

theorem wildcardRunDataOf_find (tileF : Nat → Terrain) (idx : Nat)
    (hin : idx < 2500) (hedge : isInteriorIdx idx = true) :
    findTokenAtIndexPacked (wildcardRunDataOf tileF) idx = some (tileF idx) := by
  unfold wildcardRunDataOf
  exact wildcardData_find tileF idx hin hedge

theorem direct_eq_tileOf (g : List Nat) (x y : Nat) (hx : x < 50)
    (hy : y < 50) (hlen : g.length = 2500) :
    compressedGetXY (newFromUncompressedBits g) x y =
      tileOf g (y * 50 + x) := by
  have h := compressedGetXY_tileOf g (y * 50 + x) hlen (by omega)
  rw [show (terrainIndexToXY (y * 50 + x)).1 = x from by
      simp [terrainIndexToXY]; omega,
    show (terrainIndexToXY (y * 50 + x)).2 = y from by
      simp [terrainIndexToXY]; omega] at h
  exact h

/-- Point-query characterization of the wildcard codec built from raw
terrain: interior positions read the run data, corners are Wall, non-corner
edges decode the Wall bit of the source tile. -/
theorem wildcardGetU_char (bits : List Nat) (x y : Nat) (hx : x < 50)
    (hy : y < 50) :
    (isRoomEdge x y = false →
      wildcardGetXY (wildcardNewFromUncompressedTerrain bits) x y =
        some (tileOf bits (y * 50 + x))) ∧
    ((x = 0 ∨ x = 49) ∧ (y = 0 ∨ y = 49) →
      wildcardGetXY (wildcardNewFromUncompressedTerrain bits) x y =
        some Terrain.wall) ∧
    (isRoomEdge x y = true → ¬((x = 0 ∨ x = 49) ∧ (y = 0 ∨ y = 49)) →
      wildcardGetXY (wildcardNewFromUncompressedTerrain bits) x y =
        some (if tileOf bits (y * 50 + x) = Terrain.wall then Terrain.wall
          else Terrain.plain)) := by
  refine ⟨?_, ?_, ?_⟩
  · intro hedge
    unfold wildcardGetXY
    rw [if_neg (show ¬(isRoomEdge x y = true) from by simp [hedge])]
    rw [wildcardNewU_eq, prodFst_mk,
      show xyToTerrainIndex x y = y * 50 + x from rfl]
    exact wildcardRunDataOf_find (tileOf bits) (y * 50 + x) (by omega) (by
      unfold isInteriorIdx
      rw [show (y * 50 + x) % 50 = x by omega,
        show (y * 50 + x) / 50 = y by omega, hedge]
      rfl)
  · rintro ⟨hx0 | hx49, hy0 | hy49⟩ <;> subst_vars <;> rfl
  · intro hedge hnc
    have hcases : (1 ≤ x ∧ x ≤ 48 ∧ y = 0) ∨ (1 ≤ x ∧ x ≤ 48 ∧ y = 49) ∨
        (x = 0 ∧ 1 ≤ y ∧ y ≤ 48) ∨ (x = 49 ∧ 1 ≤ y ∧ y ≤ 48) := by
      unfold isRoomEdge at hedge
      simp only [Bool.or_eq_true, decide_eq_true_eq] at hedge
      omega
    unfold wildcardGetXY
    rw [if_pos hedge, wildcardNewU_eq, prodSnd_mk]
    unfold wildcardEdgeBytesU
    have hass := edgeGetXY_assembled (wTopListU (tileOf bits))
      (wRightListU (tileOf bits)) (wBottomListU (tileOf bits))
      (wLeftListU (tileOf bits)) (wTopListU_length _) (wRightListU_length _)
      (wBottomListU_length _) (wLeftListU_length _)
    rcases hcases with ⟨h1, h2, hy0⟩ | ⟨h1, h2, hy49⟩ | ⟨hx0, h1, h2⟩ |
      ⟨hx49, h1, h2⟩
    · subst hy0
      rw [(hass x h1 h2).1, Option.getD_some, wTopListU_getD _ x h1 h2,
        show 0 * 50 + x = x from by omega]
    · subst hy49
      rw [(hass x h1 h2).2.1, Option.getD_some, wBottomListU_getD _ x h1 h2,
        show 49 * 50 + x = 2450 + x from by omega]
    · subst hx0
      rw [(hass y h1 h2).2.2.1, Option.getD_some, wLeftListU_getD _ y h1 h2,
        show y * 50 + 0 = 50 * y from by omega]
    · subst hx49
      rw [(hass y h1 h2).2.2.2, Option.getD_some, wRightListU_getD _ y h1 h2,
        show y * 50 + 49 = 50 * y + 49 from by omega]

/-- Point-query characterization of the wildcard codec built from a Direct
codec instance: interior positions still read the run data, but the edge
store fell back to all-zero bytes, so every non-corner edge reads Plain. -/
theorem wildcardGetC_char (g : List Nat) (hlen : g.length = 2500) (x y : Nat)
    (hx : x < 50) (hy : y < 50) :
    (isRoomEdge x y = false →
      wildcardGetXY (wildcardNewFromCompressedTerrain (newFromUncompressedBits g))
          x y =
        some (tileOf g (y * 50 + x))) ∧
    ((x = 0 ∨ x = 49) ∧ (y = 0 ∨ y = 49) →
      wildcardGetXY (wildcardNewFromCompressedTerrain (newFromUncompressedBits g))
          x y =
        some Terrain.wall) ∧
    (isRoomEdge x y = true → ¬((x = 0 ∨ x = 49) ∧ (y = 0 ∨ y = 49)) →
      wildcardGetXY (wildcardNewFromCompressedTerrain (newFromUncompressedBits g))
          x y =
        some Terrain.plain) := by
  refine ⟨?_, ?_, ?_⟩
  · intro hedge
    unfold wildcardGetXY
    rw [if_neg (show ¬(isRoomEdge x y = true) from by simp [hedge])]
    rw [wildcardNewC_eq g hlen, prodFst_mk,
      show xyToTerrainIndex x y = y * 50 + x from rfl]
    exact wildcardRunDataOf_find (tileOf g) (y * 50 + x) (by omega) (by
      unfold isInteriorIdx
      rw [show (y * 50 + x) % 50 = x by omega,
        show (y * 50 + x) / 50 = y by omega, hedge]
      rfl)
  · rintro ⟨hx0 | hx49, hy0 | hy49⟩ <;> subst_vars <;> rfl
  · intro hedge hnc
    have hcases : (1 ≤ x ∧ x ≤ 48 ∧ y = 0) ∨ (1 ≤ x ∧ x ≤ 48 ∧ y = 49) ∨
        (x = 0 ∧ 1 ≤ y ∧ y ≤ 48) ∨ (x = 49 ∧ 1 ≤ y ∧ y ≤ 48) := by
      unfold isRoomEdge at hedge
      simp only [Bool.or_eq_true, decide_eq_true_eq] at hedge
      omega
    unfold wildcardGetXY
    rw [if_pos hedge, wildcardNewC_eq g hlen, prodSnd_mk]
    rcases hcases with ⟨h1, h2, hy0⟩ | ⟨h1, h2, hy49⟩ | ⟨hx0, h1, h2⟩ |
      ⟨hx49, h1, h2⟩
    · subst hy0
      rw [(edgeGetXY_zero24 x h1 h2).1, Option.getD_some]
    · subst hy49
      rw [(edgeGetXY_zero24 x h1 h2).2.1, Option.getD_some]
    · subst hx0
      rw [(edgeGetXY_zero24 y h1 h2).2.2.1, Option.getD_some]
    · subst hx49
      rw [(edgeGetXY_zero24 y h1 h2).2.2.2, Option.getD_some]

theorem wTop_mk (d : List Nat) (t r b l : List Terrain) :
    (⟨d, t, r, b, l⟩ : WildcardState).top = t := rfl

theorem wRight_mk (d : List Nat) (t r b l : List Terrain) :
    (⟨d, t, r, b, l⟩ : WildcardState).right = r := rfl

theorem wBottom_mk (d : List Nat) (t r b l : List Terrain) :
    (⟨d, t, r, b, l⟩ : WildcardState).bottom = b := rfl

theorem wLeft_mk (d : List Nat) (t r b l : List Terrain) :
    (⟨d, t, r, b, l⟩ : WildcardState).left = l := rfl

theorem newFromTerrainSlices_ok (t r b l : List Terrain)
    (ht : t.length = 50) (hr : r.length = 50) (hb : b.length = 50)
    (hl : l.length = 50) :
    newFromTerrainSlices t r b l =
      .ok (copyEdgeTerrainToByteSlice t ++ copyEdgeTerrainToByteSlice r ++
        copyEdgeTerrainToByteSlice b ++ copyEdgeTerrainToByteSlice l) := by
  unfold newFromTerrainSlices
  rw [if_neg (by omega), if_neg (by omega), if_neg (by omega),
    if_neg (by omega)]

/-- **C3**: the claim holds for `new_from_uncompressed_terrain`: the walk
buckets each edge position into its own edge's list (corners as Wall into
both adjacent lists), all four lists end up length 50, the Edge-Only store
is assembled from them, and every interior position is appended to the run
data at its linear index.  But `new_from_compressed_terrain` (the
documented Direct-codec conversion path) deviates: its `(1..=48, 0)` and
`(1..=48, 49)` match arms push the non-corner top tiles into the LEFT list
and the non-corner bottom tiles into the RIGHT list
(wildcard_rle_terrain.rs lines 121-128), so top/bottom have length 2,
left/right have length 98, the Edge-Only assembly fails its length-50
validation, and the codec silently falls back to a zeroed edge store. -/
theorem c3_wildcard_construction (bits data : List Nat) :
    ((wildcardFoldUncompressed bits).top = wTopListU (tileOf bits) ∧
     (wildcardFoldUncompressed bits).right = wRightListU (tileOf bits) ∧
     (wildcardFoldUncompressed bits).bottom = wBottomListU (tileOf bits) ∧
     (wildcardFoldUncompressed bits).left = wLeftListU (tileOf bits) ∧
     (wildcardFoldUncompressed bits).top.length = 50 ∧
     (wildcardFoldUncompressed bits).right.length = 50 ∧
     (wildcardFoldUncompressed bits).bottom.length = 50 ∧
     (wildcardFoldUncompressed bits).left.length = 50 ∧
     newFromTerrainSlices (wildcardFoldUncompressed bits).top
       (wildcardFoldUncompressed bits).right
       (wildcardFoldUncompressed bits).bottom
       (wildcardFoldUncompressed bits).left =
       .ok (wildcardEdgeBytesU (tileOf bits)) ∧
     (wildcardNewFromUncompressedTerrain bits).2 =
       wildcardEdgeBytesU (tileOf bits) ∧
     (wildcardNewFromUncompressedTerrain bits).1 =
       wildcardRunDataOf (tileOf bits)) ∧
    ((wildcardFoldCompressed data).top = [Terrain.wall, Terrain.wall] ∧
     (wildcardFoldCompressed data).bottom = [Terrain.wall, Terrain.wall] ∧
     (wildcardFoldCompressed data).left = wLeftListC (cTileF data) ∧
     (wildcardFoldCompressed data).right = wRightListC (cTileF data) ∧
     (wildcardFoldCompressed data).top.length = 2 ∧
     (wildcardFoldCompressed data).bottom.length = 2 ∧
     (wildcardFoldCompressed data).left.length = 98 ∧
     (wildcardFoldCompressed data).right.length = 98 ∧
     newFromTerrainSlices (wildcardFoldCompressed data).top
       (wildcardFoldCompressed data).right
       (wildcardFoldCompressed data).bottom
       (wildcardFoldCompressed data).left =
       .error .topEdgeNotLength50 ∧
     (wildcardNewFromCompressedTerrain data).2 = List.replicate 24 0 ∧
     (wildcardNewFromCompressedTerrain data).1 =
       wildcardRunDataOf (cTileF data)) := by
  refine ⟨⟨?_, ?_, ?_, ?_, ?_, ?_, ?_, ?_, ?_, ?_, ?_⟩,
    ?_, ?_, ?_, ?_, ?_, ?_, ?_, ?_, ?_, ?_, ?_⟩
  · rw [wildcardFoldUncompressed_eq, wTop_mk]
  · rw [wildcardFoldUncompressed_eq, wRight_mk]
  · rw [wildcardFoldUncompressed_eq, wBottom_mk]
  · rw [wildcardFoldUncompressed_eq, wLeft_mk]
  · rw [wildcardFoldUncompressed_eq, wTop_mk, wTopListU_length]
  · rw [wildcardFoldUncompressed_eq, wRight_mk, wRightListU_length]
  · rw [wildcardFoldUncompressed_eq, wBottom_mk, wBottomListU_length]
  · rw [wildcardFoldUncompressed_eq, wLeft_mk, wLeftListU_length]
  · rw [wildcardFoldUncompressed_eq, wTop_mk, wRight_mk, wBottom_mk, wLeft_mk,
      newFromTerrainSlices_ok _ _ _ _ (wTopListU_length _)
        (wRightListU_length _) (wBottomListU_length _) (wLeftListU_length _),
      wildcardEdgeBytesU]
  · rw [wildcardNewU_eq, prodSnd_mk]
  · rw [wildcardNewU_eq, prodFst_mk]
  · rw [wildcardFoldCompressed_eq', wTop_mk]
  · rw [wildcardFoldCompressed_eq', wBottom_mk]
  · rw [wildcardFoldCompressed_eq', wLeft_mk]
  · rw [wildcardFoldCompressed_eq', wRight_mk]
  · rw [wildcardFoldCompressed_eq', wTop_mk]
    rfl
  · rw [wildcardFoldCompressed_eq', wBottom_mk]
    rfl
  · rw [wildcardFoldCompressed_eq', wLeft_mk, wLeftListC_length]
  · rw [wildcardFoldCompressed_eq', wRight_mk, wRightListC_length]
  · rw [wildcardFoldCompressed_eq', wTop_mk, wRight_mk, wBottom_mk, wLeft_mk]
    unfold newFromTerrainSlices
    rw [if_pos (by decide)]
  · rw [wildcardNewC_eq', prodSnd_mk]
  · rw [wildcardNewC_eq', prodFst_mk]

/-- **C1** counterexample: the cross-codec agreement fails beyond the
claim's Swamp-on-edge allowance.  (a) On the all-Plain grid the Direct
codec reports Plain at the corner (0,0) while the Wildcard codec built from
the same raw terrain reports Wall — the source tile is Plain, not Swamp, so
the stated exception does not cover it.  (b) On a grid whose only Wall is
at (1,0), the Direct codec reports Wall there, while the Wildcard codec
built from that Direct instance reports Plain (its mis-bucketed edge lists
failed validation and the edge store fell back to all-zero bytes). -/
theorem c1_counterexample :
    (compressedGetXY (newFromUncompressedBits (List.replicate 2500 0)) 0 0 =
        Terrain.plain ∧
      wildcardGetXY (wildcardNewFromUncompressedTerrain (List.replicate 2500 0))
          0 0 = some Terrain.wall ∧
      Terrain.plain ≠ Terrain.wall ∧ Terrain.plain ≠ Terrain.swamp) ∧
    (compressedGetXY (newFromUncompressedBits (0 :: 1 :: List.replicate 2498 0))
        1 0 = Terrain.wall ∧
      wildcardGetXY (wildcardNewFromCompressedTerrain
          (newFromUncompressedBits (0 :: 1 :: List.replicate 2498 0))) 1 0 =
        some Terrain.plain ∧
      Terrain.wall ≠ Terrain.plain) := by
  have hlen1 : (List.replicate 2500 (0 : Nat)).length = 2500 :=
    List.length_replicate 2500 0
  have hlen2 : (0 :: 1 :: List.replicate 2498 (0 : Nat)).length = 2500 := by
    rw [List.length_cons, List.length_cons, List.length_replicate]
  refine ⟨⟨?_, ?_, by decide, by decide⟩, ?_, ?_, by decide⟩
  · rw [direct_eq_tileOf _ 0 0 (by omega) (by omega) hlen1]
    rfl
  · exact (wildcardGetU_char (List.replicate 2500 0) 0 0 (by omega)
      (by omega)).2.1 ⟨Or.inl rfl, Or.inl rfl⟩
  · rw [direct_eq_tileOf _ 1 0 (by omega) (by omega) hlen2]
    rfl
  · exact (wildcardGetC_char (0 :: 1 :: List.replicate 2498 0) hlen2 1 0
      (by omega) (by omega)).2.2 rfl (by decide)

/-- **C1** (amended): for every complete grid and position, the Naive and
Packed Run Codecs (built from raw terrain or from a Direct codec instance)
return exactly the Direct codec's terrain class.  The Wildcard codec agrees
exactly at every non-edge position for both construction paths; at the four
corners it always returns Wall; at the remaining edge positions the
raw-terrain construction returns Wall where the Direct codec has Wall and
Plain otherwise (so Swamp degrades to Plain), while the Direct-conversion
construction always returns Plain there (its edge store is zeroed by the
failed assembly). -/
theorem c1_cross_codec (g : List Nat) (x y : Nat) (hx : x < 50) (hy : y < 50)
    (hlen : g.length = 2500) :
    rleGetXYOpt (rleNewFromUncompressedTerrain g) x y =
      some (compressedGetXY (newFromUncompressedBits g) x y) ∧
    rleGetXYOpt (rleNewFromCompressedTerrain (newFromUncompressedBits g)) x y =
      some (compressedGetXY (newFromUncompressedBits g) x y) ∧
    packedRleGetXYOpt (packedRleNewFromUncompressedTerrain g) x y =
      some (compressedGetXY (newFromUncompressedBits g) x y) ∧
    packedRleGetXYOpt
        (packedRleNewFromCompressedTerrain (newFromUncompressedBits g)) x y =
      some (compressedGetXY (newFromUncompressedBits g) x y) ∧
    (isRoomEdge x y = false →
      wildcardGetXY (wildcardNewFromUncompressedTerrain g) x y =
        some (compressedGetXY (newFromUncompressedBits g) x y) ∧
      wildcardGetXY
          (wildcardNewFromCompressedTerrain (newFromUncompressedBits g)) x y =
        some (compressedGetXY (newFromUncompressedBits g) x y)) ∧
    ((x = 0 ∨ x = 49) ∧ (y = 0 ∨ y = 49) →
      wildcardGetXY (wildcardNewFromUncompressedTerrain g) x y =
        some Terrain.wall ∧
      wildcardGetXY
          (wildcardNewFromCompressedTerrain (newFromUncompressedBits g)) x y =
        some Terrain.wall) ∧
    (isRoomEdge x y = true → ¬((x = 0 ∨ x = 49) ∧ (y = 0 ∨ y = 49)) →
      wildcardGetXY (wildcardNewFromUncompressedTerrain g) x y =
        some (if compressedGetXY (newFromUncompressedBits g) x y = Terrain.wall
          then Terrain.wall else Terrain.plain) ∧
      wildcardGetXY
          (wildcardNewFromCompressedTerrain (newFromUncompressedBits g)) x y =
        some Terrain.plain) := by
  have hd : compressedGetXY (newFromUncompressedBits g) x y =
      tileOf g (y * 50 + x) := direct_eq_tileOf g x y hx hy hlen
  obtain ⟨hu1, hu2, hu3⟩ := wildcardGetU_char g x y hx hy
  obtain ⟨hc1, hc2, hc3⟩ := wildcardGetC_char g hlen x y hx hy
  refine ⟨?_, ?_, ?_, ?_, ?_, ?_, ?_⟩
  · rw [hd]
    unfold rleGetXYOpt
    rw [rleNewFromUncompressed_eq_build,
      show xyToTerrainIndex x y = y * 50 + x from rfl]
    exact (build_invariants_of_tile (tileOf g) 2500 (by omega)).2.2.2
      (y * 50 + x) (by omega)
  · rw [hd]
    unfold rleGetXYOpt
    rw [rleNewFromCompressed_eq_build g hlen,
      show xyToTerrainIndex x y = y * 50 + x from rfl]
    exact (build_invariants_of_tile (tileOf g) 2500 (by omega)).2.2.2
      (y * 50 + x) (by omega)
  · rw [hd]
    unfold packedRleGetXYOpt
    rw [findTokenAtIndexPacked_map, packedRleNewFromUncompressed_map,
      show xyToTerrainIndex x y = y * 50 + x from rfl]
    exact (build_invariants_of_tile (tileOf g) 2500 (by omega)).2.2.2
      (y * 50 + x) (by omega)
  · rw [hd]
    unfold packedRleGetXYOpt
    rw [findTokenAtIndexPacked_map, packedRleNewFromCompressed_map g hlen,
      show xyToTerrainIndex x y = y * 50 + x from rfl]
    exact (build_invariants_of_tile (tileOf g) 2500 (by omega)).2.2.2
      (y * 50 + x) (by omega)
  · intro hedge
    rw [hd]
    exact ⟨hu1 hedge, hc1 hedge⟩
  · intro hcor
    exact ⟨hu2 hcor, hc2 hcor⟩
  · intro hedge hnc
    rw [hd]
    exact ⟨hu3 hedge hnc, hc3 hedge hnc⟩

/-- **C1** witness: the amended agreement instantiated on the all-Plain
grid at the interior position (2,3) and the top-edge position (5,0). -/
theorem c1_cross_codec_witness :
    ((2 : Nat) < 50 ∧ (3 : Nat) < 50 ∧
      (List.replicate 2500 (0 : Nat)).length = 2500 ∧
      rleGetXYOpt (rleNewFromUncompressedTerrain (List.replicate 2500 0)) 2 3 =
        some (compressedGetXY (newFromUncompressedBits (List.replicate 2500 0))
          2 3)) ∧
    ((5 : Nat) < 50 ∧ (0 : Nat) < 50 ∧
      isRoomEdge 5 0 = true ∧ ¬((5 = 0 ∨ 5 = 49) ∧ (0 = 0 ∨ 0 = 49)) ∧
      wildcardGetXY
          (wildcardNewFromCompressedTerrain
            (newFromUncompressedBits (List.replicate 2500 0))) 5 0 =
        some Terrain.plain) :=
  ⟨⟨by decide, by decide, List.length_replicate 2500 0,
    (c1_cross_codec (List.replicate 2500 0) 2 3 (by decide) (by decide)
      (List.length_replicate 2500 0)).1⟩,
    by decide, by decide, by decide, by decide,
    ((c1_cross_codec (List.replicate 2500 0) 5 0 (by decide) (by decide)
      (List.length_replicate 2500 0)).2.2.2.2.2.2 (by decide) (by decide)).2⟩

end MapProc
